import Mathlib

/-!
# MSChromatogram: ordered-sequence maintenance, nearest lookup and peak merging

A shallow embedding of `src/openms/source/KERNEL/MSChromatogram.cpp`.

Conventions of the embedding:
* a finite `double` is a rational number, so retention times are rationals; a comparison of two
  doubles is exact, an arithmetic operation on doubles (the product `rt * 1000.0` of the merge,
  the difference `it->getRT() - rt` of `findNearest`) is rounded to the nearest double by
  `roundToDouble` (IEEE 754 binary64, halfway cases to the even significand, subnormal numbers
  included); a result that overflows is `2 ^ 1024` or `-2 ^ 1024`, which stand for the two
  infinities and compare with every double as the infinities do; NaN is not modelled;
* `float` intensities are exact rationals and their sum is exact;
* a `std::vector` is a `List`, an iterator into it is its offset from `begin()`;
* `std::sort` is not part of the repository: every function that calls it takes the sorting
  routine as a parameter `S : StdSort`, which carries the guarantee the C++ standard gives
  (the output is a permutation of the input, ordered with respect to the comparator);
  `libstdcxxStdSort` is the routine of the GNU library, transcribed from its headers;
* `std::lower_bound` and `std::upper_bound` are the halving searches of the standard
  libraries, which return an offset of the range also when the range is not in order;
* the argument `other` of `mergePeaks` is a reference, which may refer to the chromatogram
  itself (`OtherRef`);
* a read past the end of a vector is undefined behaviour and is modelled by `none`;
* a thrown exception is modelled by `Except.error`.
-/

namespace OpenMS

/-- Modelled from the spec: the peak type `ChromatogramPeak`, whose header is not part of the
sources: a position (the retention time, a `double`) and an intensity (a `float`), both
rationals. -/
structure ChromatogramPeak where
  rt : ℚ
  intensity : ℚ
deriving DecidableEq, Repr, Inhabited

namespace ChromatogramPeak

/-- Modelled from the spec: the comparator `PeakType::PositionLess` of the peak header, which
orders peaks by position. -/
def PositionLess (a b : ChromatogramPeak) : Bool := decide (a.rt < b.rt)

/-- Modelled from the spec: the comparator `PeakType::IntensityLess` of the peak header, which
orders peaks by intensity. -/
def IntensityLess (a b : ChromatogramPeak) : Bool := decide (a.intensity < b.intensity)

end ChromatogramPeak

/-- Rounding of a rational to the nearest integer, halfway cases to the even integer: the
rounding of a significand in the default rounding mode of IEEE 754. -/
def roundHalfEven (x : ℚ) : ℤ :=
  if x - ⌊x⌋ < 1 / 2 then ⌊x⌋
  else if 1 / 2 < x - ⌊x⌋ then ⌊x⌋ + 1
  else if ⌊x⌋ % 2 = 0 then ⌊x⌋ else ⌊x⌋ + 1

/-- The exponent of the binade of a positive number in the format binary64: `⌊log₂ y⌋`, and
-1022 below `2 ^ (-1022)`, where the doubles are subnormal and equally spaced. -/
def binade (y : ℚ) : ℤ := max (Int.log 2 y) (-1022)

/-- The distance between neighbouring doubles in the binade of `y`: a significand has 52
fraction bits. -/
def ulp (y : ℚ) : ℚ := 2 ^ (binade y - 52)

/-- Rounding of a non-negative number to the nearest double; from `2 ^ 1024 - 2 ^ 970` on the
result is `2 ^ 1024`, which stands for `+∞`. -/
def roundPos (y : ℚ) : ℚ := min ((roundHalfEven (y / ulp y) : ℚ) * ulp y) (2 ^ 1024)

/-- The result of an arithmetic operation of type `double` whose exact value is `y`: rounding to
the nearest double, symmetric about zero. The arithmetic of `double` is not part of the
repository and is taken from IEEE 754. -/
def roundToDouble (y : ℚ) : ℚ := if 0 ≤ y then roundPos y else -roundPos (-y)

/-- A comparator is a strict weak ordering: what `std::sort` requires of its third argument. -/
def StrictWeak {α : Type} (lt : α → α → Bool) : Prop :=
  (∀ a, lt a a = false) ∧
  (∀ a b c, lt a b = true → lt b c = true → lt a c = true) ∧
  (∀ a b c, lt a b = false → lt b c = false → lt a c = false)

/-- The library routine `std::sort` together with its contract: the output is a permutation
of the input and, for a strict weak ordering, no later element compares less than an earlier
one. The relative order of equivalent elements is left open, as in C++. -/
structure StdSort where
  sort : {α : Type} → (α → α → Bool) → List α → List α
  perm : ∀ {α : Type} (lt : α → α → Bool) (l : List α), List.Perm (sort lt l) l
  sorted : ∀ {α : Type} (lt : α → α → Bool) (l : List α), StrictWeak lt →
    List.Pairwise (fun a b => lt b a = false) (sort lt l)

/-- Insertion sort, one routine that meets the contract of `std::sort`; it is used to run the
model on examples. -/
def insertionStdSort : StdSort where
  sort lt l := List.insertionSort (fun a b => lt b a = false) l
  perm lt l := List.perm_insertionSort _ l
  sorted lt l h := by
    obtain ⟨hirr, htr, hneg⟩ := h
    haveI : IsTotal _ (fun a b => lt b a = false) := ⟨fun a b => by
      cases hba : lt b a
      · exact Or.inl rfl
      · right
        cases hab : lt a b
        · rfl
        · have := htr a b a hab hba
          rw [hirr a] at this
          exact absurd this (by decide)⟩
    haveI : IsTrans _ (fun a b => lt b a = false) := ⟨fun a b c hab hbc => hneg c b a hbc hab⟩
    exact List.sorted_insertionSort _ l

/-! The routine `std::sort` of the GNU C++ library (`bits/stl_algo.h`, `bits/stl_heap.h`):
introsort, that is quicksort with the median of three as pivot down to ranges of 16 elements,
heap sort when the recursion gets deeper than `2 * lg n`, and a final insertion sort. The
routine is run on an array of indices into the vector, which stand for the elements. -/

namespace LibSort

/-- `std::iter_swap` on the positions `i` and `j` of an array of indices. -/
def swapAt (a : List Nat) (i j : Nat) : List Nat :=
  (a.set i (a.getD j 0)).set j (a.getD i 0)

/-- `std::__move_median_to_first(result, x, y, z, comp)`. -/
def moveMedianToFirst (cmp : Nat → Nat → Bool) (a : List Nat) (result x y z : Nat) : List Nat :=
  if cmp (a.getD x 0) (a.getD y 0) then
    if cmp (a.getD y 0) (a.getD z 0) then swapAt a result y
    else if cmp (a.getD x 0) (a.getD z 0) then swapAt a result z
    else swapAt a result x
  else if cmp (a.getD x 0) (a.getD z 0) then swapAt a result x
  else if cmp (a.getD y 0) (a.getD z 0) then swapAt a result z
  else swapAt a result y

/-- The loop `while (comp(first, pivot)) ++first`. -/
def scanUp (cmp : Nat → Nat → Bool) (a : List Nat) (pivot : Nat) : Nat → Nat → Nat
  | 0, first => first
  | fuel + 1, first =>
    if cmp (a.getD first 0) (a.getD pivot 0) then scanUp cmp a pivot fuel (first + 1) else first

/-- The loop `while (comp(pivot, last)) --last`. -/
def scanDown (cmp : Nat → Nat → Bool) (a : List Nat) (pivot : Nat) : Nat → Nat → Nat
  | 0, last => last
  | fuel + 1, last =>
    if cmp (a.getD pivot 0) (a.getD last 0) then scanDown cmp a pivot fuel (last - 1) else last

/-- `std::__unguarded_partition(first, last, pivot, comp)`. -/
def unguardedPartition (cmp : Nat → Nat → Bool) (pivot : Nat) :
    Nat → List Nat → Nat → Nat → List Nat × Nat
  | 0, a, first, _ => (a, first)
  | fuel + 1, a, first, last =>
    let first1 := scanUp cmp a pivot a.length first
    let last1 := scanDown cmp a pivot a.length (last - 1)
    if first1 < last1 then
      unguardedPartition cmp pivot fuel (swapAt a first1 last1) (first1 + 1) last1
    else (a, first1)

/-- `std::__unguarded_partition_pivot(first, last, comp)`. -/
def unguardedPartitionPivot (cmp : Nat → Nat → Bool) (a : List Nat) (first last : Nat) :
    List Nat × Nat :=
  let mid := first + (last - first) / 2
  let a1 := moveMedianToFirst cmp a first (first + 1) mid (last - 1)
  unguardedPartition cmp first a1.length a1 (first + 1) last

/-- `std::__push_heap(first, holeIndex, topIndex, value, comp)`. -/
def pushHeap (cmp : Nat → Nat → Bool) (first topIndex value : Nat) :
    Nat → List Nat → Nat → List Nat
  | 0, a, holeIndex => a.set (first + holeIndex) value
  | fuel + 1, a, holeIndex =>
    let parent := (holeIndex - 1) / 2
    if holeIndex > topIndex && cmp (a.getD (first + parent) 0) value then
      pushHeap cmp first topIndex value fuel
        (a.set (first + holeIndex) (a.getD (first + parent) 0)) parent
    else a.set (first + holeIndex) value

/-- The first loop of `std::__adjust_heap`: the hole moves down to the larger child. -/
def siftDown (cmp : Nat → Nat → Bool) (first len : Nat) :
    Nat → List Nat → Nat → Nat → List Nat × Nat × Nat
  | 0, a, holeIndex, secondChild => (a, holeIndex, secondChild)
  | fuel + 1, a, holeIndex, secondChild =>
    if secondChild < (len - 1) / 2 then
      let sc := 2 * (secondChild + 1)
      let sc1 := if cmp (a.getD (first + sc) 0) (a.getD (first + (sc - 1)) 0) then sc - 1 else sc
      siftDown cmp first len fuel (a.set (first + holeIndex) (a.getD (first + sc1) 0)) sc1 sc1
    else (a, holeIndex, secondChild)

/-- `std::__adjust_heap(first, holeIndex, len, value, comp)`. -/
def adjustHeap (cmp : Nat → Nat → Bool) (a : List Nat) (first holeIndex len value : Nat) :
    List Nat :=
  let r := siftDown cmp first len len a holeIndex holeIndex
  let a1 := r.1
  let hole1 := r.2.1
  let sc := r.2.2
  if len % 2 = 0 && sc = (len - 2) / 2 then
    let sc2 := 2 * (sc + 1)
    pushHeap cmp first holeIndex value len
      (a1.set (first + hole1) (a1.getD (first + (sc2 - 1)) 0)) (sc2 - 1)
  else pushHeap cmp first holeIndex value len a1 hole1

/-- The loop of `std::__make_heap` from `parent` down to 0. -/
def makeHeapLoop (cmp : Nat → Nat → Bool) (first len : Nat) : Nat → List Nat → List Nat
  | 0, a => adjustHeap cmp a first 0 len (a.getD first 0)
  | parent + 1, a =>
    makeHeapLoop cmp first len parent
      (adjustHeap cmp a first (parent + 1) len (a.getD (first + parent + 1) 0))

/-- `std::__make_heap(first, last, comp)`. -/
def makeHeap (cmp : Nat → Nat → Bool) (a : List Nat) (first last : Nat) : List Nat :=
  if last - first < 2 then a else makeHeapLoop cmp first (last - first) ((last - first - 2) / 2) a

/-- `std::__pop_heap(first, last, result, comp)`. -/
def popHeap (cmp : Nat → Nat → Bool) (a : List Nat) (first last result : Nat) : List Nat :=
  let value := a.getD result 0
  adjustHeap cmp (a.set result (a.getD first 0)) first 0 (last - first) value

/-- `std::__sort_heap(first, last, comp)`. -/
def sortHeap (cmp : Nat → Nat → Bool) (first : Nat) : Nat → List Nat → Nat → List Nat
  | 0, a, _ => a
  | fuel + 1, a, last =>
    if last - first > 1 then
      sortHeap cmp first fuel (popHeap cmp a first (last - 1) (last - 1)) (last - 1)
    else a

/-- `std::__partial_sort(first, last, last, comp)`: heap sort of the range. -/
def partialSort (cmp : Nat → Nat → Bool) (a : List Nat) (first last : Nat) : List Nat :=
  sortHeap cmp first a.length (makeHeap cmp a first last) last

/-- `std::__introsort_loop(first, last, depth_limit, comp)`. -/
def introsortLoop (cmp : Nat → Nat → Bool) : Nat → List Nat → Nat → Nat → Nat → List Nat
  | 0, a, _, _, _ => a
  | fuel + 1, a, first, last, depth_limit =>
    if last - first > 16 then
      if depth_limit = 0 then partialSort cmp a first last
      else
        let r := unguardedPartitionPivot cmp a first last
        let a1 := introsortLoop cmp fuel r.1 r.2 last (depth_limit - 1)
        introsortLoop cmp fuel a1 first r.2 (depth_limit - 1)
    else a

/-- `std::__unguarded_linear_insert(last, comp)` for the value `val` taken from `last`. -/
def unguardedLinearInsert (cmp : Nat → Nat → Bool) (val : Nat) : Nat → List Nat → Nat → List Nat
  | 0, a, last => a.set last val
  | fuel + 1, a, last =>
    if 0 < last && cmp val (a.getD (last - 1) 0) then
      unguardedLinearInsert cmp val fuel (a.set last (a.getD (last - 1) 0)) (last - 1)
    else a.set last val

/-- One step of the loop of `std::__insertion_sort(first, last, comp)`, for the position `i`. -/
def insertionStep (cmp : Nat → Nat → Bool) (a : List Nat) (first i : Nat) : List Nat :=
  if cmp (a.getD i 0) (a.getD first 0) then
    a.take first ++ a.getD i 0 :: ((a.take i).drop first ++ a.drop (i + 1))
  else unguardedLinearInsert cmp (a.getD i 0) a.length a i

/-- The loop `for (i = from; i != last; ++i)` of the two insertion sorts; `guarded` tells
`std::__insertion_sort` from `std::__unguarded_insertion_sort`. -/
def insertionLoop (cmp : Nat → Nat → Bool) (guarded : Bool) (first last : Nat) :
    Nat → List Nat → Nat → List Nat
  | 0, a, _ => a
  | fuel + 1, a, i =>
    if i < last then
      insertionLoop cmp guarded first last fuel
        (if guarded then insertionStep cmp a first i
         else unguardedLinearInsert cmp (a.getD i 0) a.length a i) (i + 1)
    else a

/-- `std::__final_insertion_sort(first, last, comp)` on the whole array. -/
def finalInsertionSort (cmp : Nat → Nat → Bool) (a : List Nat) : List Nat :=
  if a.length > 16 then
    insertionLoop cmp false 0 a.length a.length
      (insertionLoop cmp true 0 16 a.length a 1) 16
  else insertionLoop cmp true 0 a.length a.length a 1

/-- `std::__lg(n)`: the position of the highest bit of `n`. -/
def lg : Nat → Nat → Nat
  | 0, _ => 0
  | fuel + 1, n => if n ≤ 1 then 0 else lg fuel (n / 2) + 1

/-- `std::__sort(first, last, comp)` of libstdc++ on the array `0, 1, ..., n - 1` of indices. -/
def sortIndices (cmp : Nat → Nat → Bool) (n : Nat) : List Nat :=
  if n = 0 then []
  else finalInsertionSort cmp (introsortLoop cmp n (List.range n) 0 n (2 * lg n n))

end LibSort

/-- The comparator applied to the elements that two indices stand for. -/
def LibSort.byIndex {α : Type} (lt : α → α → Bool) (l : List α) (i j : Nat) : Bool :=
  match l[i]?, l[j]? with
  | some x, some y => lt x y
  | _, _ => false

/-- The routine `std::sort` of the GNU C++ library on a vector: the elements in the order of
the sorted index array. That the index array is an ordered rearrangement of the indices, which
the library guarantees for every strict weak ordering, is established by a decidable test in
place of a correctness proof of the library; the other branch is only there to make the
function total. -/
def LibSort.sort {α : Type} (lt : α → α → Bool) (l : List α) : List α :=
  if (LibSort.sortIndices (LibSort.byIndex lt l) l.length).Perm (List.range l.length) ∧
      ((LibSort.sortIndices (LibSort.byIndex lt l) l.length).filterMap
        (fun i => l[i]?)).Pairwise (fun a b => lt b a = false) then
    (LibSort.sortIndices (LibSort.byIndex lt l) l.length).filterMap (fun i => l[i]?)
  else List.insertionSort (fun a b => lt b a = false) l

/-- The `std::sort` of the GNU C++ library as a routine that meets the contract. -/
def libstdcxxStdSort : StdSort where
  sort := LibSort.sort
  perm := by
    intro α lt l
    have key : ∀ v : List α, (List.range v.length).filterMap (fun i => v[i]?) = v := by
      intro v
      induction v with
      | nil => rfl
      | cons a v ih =>
        rw [List.length_cons, List.range_succ_eq_map]
        simpa [List.filterMap_map, Function.comp_def] using ih
    show (LibSort.sort lt l).Perm l
    unfold LibSort.sort
    split
    · next h =>
      have := h.1.filterMap (fun i => l[i]?)
      rwa [key] at this
    · exact List.perm_insertionSort _ l
  sorted := by
    intro α lt l h
    show (LibSort.sort lt l).Pairwise (fun a b => lt b a = false)
    unfold LibSort.sort
    split
    · next hg => exact hg.2
    · exact insertionStdSort.sorted lt l h

/-- The comparison `operator<` of `std::pair<key, Size>`: lexicographic. -/
def pairLess (a b : ℚ × Nat) : Bool :=
  decide (a.1 < b.1) || (!decide (b.1 < a.1) && decide (a.2 < b.2))

/-- The comparison `left > right` of `std::pair<key, Size>`, which is `right < left`. -/
def pairGreater (a b : ℚ × Nat) : Bool := pairLess b a

/-- The loop that fills `sorted_indices`: the pair `(key, i)` for every index `i`,
counting from `i`. -/
def indexPairs (key : ChromatogramPeak → ℚ) : List ChromatogramPeak → Nat → List (ℚ × Nat)
  | [], _ => []
  | p :: ps, i => (key p, i) :: indexPairs key ps (i + 1)

/-- What `std::sort` keeps of the index list: it is a rearrangement of the pairs `(key, i)`. -/
def SortedIndices (key : ChromatogramPeak → ℚ) (ps : List ChromatogramPeak)
    (si : List (ℚ × Nat)) : Prop :=
  si.Perm (indexPairs key ps 0)

/-- Reads `*(v.begin() + i)` for each index of a list in turn and collects the values;
`none` when an index is past the end of `v`. -/
def gather {α : Type} (v : List α) : List Nat → Option (List α)
  | [] => some []
  | i :: is =>
    match v[i]?, gather v is with
    | some x, some xs => some (x :: xs)
    | _, _ => none

/-- The inner loop over one meta data array `v`: for `j < v.size()` push
`*(v.begin() + sorted_indices[j].second)`; `none` when `sorted_indices[j]` or the element
read does not exist. -/
def reindex {α : Type} (sorted_indices : List (ℚ × Nat)) (v : List α) : Option (List α) :=
  if v.length ≤ sorted_indices.length then
    gather v ((sorted_indices.take v.length).map Prod.snd)
  else none

/-- The indices `sorted_indices[j].second`, for `j < v.size()`, at which the inner loop reads
the meta data array `v`. -/
def readIndices {α : Type} (sorted_indices : List (ℚ × Nat)) (v : List α) : List Nat :=
  (sorted_indices.take v.length).map Prod.snd

/-- The outer loop over a set of meta data arrays. -/
def reindexAll {α : Type} (sorted_indices : List (ℚ × Nat)) : List (List α) → Option (List (List α))
  | [] => some []
  | v :: vs =>
    match reindex sorted_indices v, reindexAll sorted_indices vs with
    | some w, some ws => some (w :: ws)
    | _, _ => none

/-- Modelled from the spec: the settings base class `ChromatogramSettings` is not part of the
sources; it is the m/z of the product (read by `getMZ`) and a key-value store of list-valued
meta values (`metaValueExists`, `getMetaValue`, `setMetaValue`). -/
structure ChromatogramSettings where
  product_mz : ℚ
  meta_values : List (String × List ℚ)
deriving DecidableEq, Repr, Inhabited

/-- Modelled from the spec: the range cache of the base class `RangeManager`, not part of the
sources; `none` is the cleared state. -/
structure RangeManager where
  rt_range : Option (ℚ × ℚ)
  intensity_range : Option (ℚ × ℚ)
deriving DecidableEq, Repr, Inhabited

/-- The chromatogram: the peak container, the two base classes and the members `name_`,
`float_data_arrays_`, `string_data_arrays_` and `integer_data_arrays_`. -/
structure MSChromatogram where
  peaks : List ChromatogramPeak
  ranges : RangeManager
  settings : ChromatogramSettings
  name : String
  float_data_arrays : List (List ℚ)
  string_data_arrays : List (List String)
  integer_data_arrays : List (List Int)
deriving DecidableEq, Repr, Inhabited

namespace MSChromatogram

/-- The content of INV1: every non-empty meta data array has as many entries as there are
peaks. -/
def ArraysAligned (c : MSChromatogram) : Prop :=
  (∀ v ∈ c.float_data_arrays, v ≠ [] → v.length = c.peaks.length) ∧
  (∀ v ∈ c.string_data_arrays, v ≠ [] → v.length = c.peaks.length) ∧
  (∀ v ∈ c.integer_data_arrays, v ≠ [] → v.length = c.peaks.length)

/-- One meta data array after a sort that moved index `s[j]` to index `j`: an untracked (empty)
array stays empty, a tracked one is moved along with the peaks. -/
def Reindexed {α : Type} (s : List Nat) (old new : List α) : Prop :=
  (old = [] ∧ new = []) ∨ new.map some = s.map (fun i => old[i]?)

/-- The correspondence that P1 and INV1 ask a sort to keep: one rearrangement `s` of the indices
explains the new peaks and every new meta data array of the three sets. -/
def KeepsCorrespondence (old new : MSChromatogram) : Prop :=
  ∃ s : List Nat, s.Perm (List.range old.peaks.length) ∧
    new.peaks.map some = s.map (fun i => old.peaks[i]?) ∧
    List.Forall₂ (Reindexed s) old.float_data_arrays new.float_data_arrays ∧
    List.Forall₂ (Reindexed s) old.string_data_arrays new.string_data_arrays ∧
    List.Forall₂ (Reindexed s) old.integer_data_arrays new.integer_data_arrays

/-- Two peaks out of position order with one string array and no float array. -/
def unsortedWithStrings : MSChromatogram :=
  { peaks := [⟨2, 10⟩, ⟨1, 20⟩], ranges := default, settings := default, name := "",
    float_data_arrays := [], string_data_arrays := [["a", "b"]], integer_data_arrays := [] }

/-- Two peaks out of intensity order with one string array, one integer array and no float
array. -/
def unsortedWithStringsAndInts : MSChromatogram :=
  { peaks := [⟨0, 2⟩, ⟨1, 1⟩], ranges := default, settings := default, name := "",
    float_data_arrays := [], string_data_arrays := [["a", "b"]],
    integer_data_arrays := [[10, 20]] }

/-- Three peaks with one array in each of the three sets. -/
def threeWithArrays : MSChromatogram :=
  { peaks := [⟨3, 7⟩, ⟨1, 9⟩, ⟨2, 8⟩], ranges := default, settings := default, name := "",
    float_data_arrays := [[30, 10, 20]], string_data_arrays := [["c", "a", "b"]],
    integer_data_arrays := [[3, 1, 2]] }

/-- The chromatogram `threeWithArrays` with peaks and arrays moved into position order. -/
def threeByPosition : MSChromatogram :=
  { peaks := [⟨1, 9⟩, ⟨2, 8⟩, ⟨3, 7⟩], ranges := default, settings := default, name := "",
    float_data_arrays := [[10, 20, 30]], string_data_arrays := [["a", "b", "c"]],
    integer_data_arrays := [[1, 2, 3]] }

/-- The chromatogram `threeWithArrays` with peaks and arrays moved into ascending order of
intensity. -/
def threeByIntensity : MSChromatogram :=
  { peaks := [⟨3, 7⟩, ⟨2, 8⟩, ⟨1, 9⟩], ranges := default, settings := default, name := "",
    float_data_arrays := [[30, 20, 10]], string_data_arrays := [["c", "b", "a"]],
    integer_data_arrays := [[3, 2, 1]] }

/-- The chromatogram of the examples of `findNearest`: positions 1, 3 and 5. -/
def oneThreeFive : MSChromatogram :=
  { peaks := [⟨1, 0⟩, ⟨3, 0⟩, ⟨5, 0⟩], ranges := default, settings := default, name := "",
    float_data_arrays := [], string_data_arrays := [], integer_data_arrays := [] }

/-- A chromatogram without peaks. -/
def noPeaks : MSChromatogram :=
  { peaks := [], ranges := default, settings := default, name := "",
    float_data_arrays := [], string_data_arrays := [], integer_data_arrays := [] }

/-- The single peak at 1.0001 with intensity 5 of the merge example; the position is the
double that the literal `1.0001` denotes. -/
def peakAt10001 : MSChromatogram :=
  { peaks := [⟨roundToDouble 1.0001, 5⟩], ranges := default, settings := default, name := "",
    float_data_arrays := [], string_data_arrays := [], integer_data_arrays := [] }

/-- The single peak at 1.0004 with intensity 3 of the merge example; the position is the
double that the literal `1.0004` denotes. -/
def peakAt10004 : MSChromatogram :=
  { peaks := [⟨roundToDouble 1.0004, 3⟩], ranges := default, settings := default, name := "",
    float_data_arrays := [], string_data_arrays := [], integer_data_arrays := [] }

/-- Two peaks in position order that lie in the same thousandth, at the doubles that the
literals `1.0001` and `1.0002` denote. -/
def closePair : MSChromatogram :=
  { peaks := [⟨roundToDouble 1.0001, 5⟩, ⟨roundToDouble 1.0002, 1⟩], ranges := default,
    settings := default, name := "",
    float_data_arrays := [], string_data_arrays := [], integer_data_arrays := [] }

/-- The index-based branch shared by `sortByIntensity` and `sortByPosition`: the peaks and
every meta data array are rebuilt from the sorted index list. -/
def applySorting (c : MSChromatogram) (sorted_indices : List (ℚ × Nat)) : Option MSChromatogram :=
  match gather c.peaks (sorted_indices.map Prod.snd),
        reindexAll sorted_indices c.float_data_arrays,
        reindexAll sorted_indices c.string_data_arrays,
        reindexAll sorted_indices c.integer_data_arrays with
  | some tmp, some f, some s, some i =>
    some { c with peaks := tmp, float_data_arrays := f, string_data_arrays := s,
                  integer_data_arrays := i }
  | _, _, _, _ => none

/-- The method `MSChromatogram::sortByIntensity(bool reverse)`. -/
def sortByIntensity (S : StdSort) (c : MSChromatogram) (reverse : Bool) : Option MSChromatogram :=
  if c.float_data_arrays.isEmpty && !c.string_data_arrays.isEmpty
      && !c.integer_data_arrays.isEmpty then
    if reverse then
      some { c with
        peaks := S.sort (fun left right => ChromatogramPeak.IntensityLess right left) c.peaks }
    else
      some { c with peaks := S.sort ChromatogramPeak.IntensityLess c.peaks }
  else
    let sorted_indices := indexPairs ChromatogramPeak.intensity c.peaks 0
    if reverse then
      applySorting c (S.sort pairGreater sorted_indices)
    else
      applySorting c (S.sort pairLess sorted_indices)

/-- The method `MSChromatogram::sortByPosition()`. -/
def sortByPosition (S : StdSort) (c : MSChromatogram) : Option MSChromatogram :=
  if c.float_data_arrays.isEmpty then
    some { c with peaks := S.sort ChromatogramPeak.PositionLess c.peaks }
  else
    let sorted_indices := indexPairs ChromatogramPeak.rt c.peaks 0
    applySorting c (S.sort pairLess sorted_indices)

/-- The loop of `isSorted` over adjacent peaks. -/
def isSortedFrom : List ChromatogramPeak → Bool
  | a :: b :: l => if a.rt > b.rt then false else isSortedFrom (b :: l)
  | _ => true

/-- The method `MSChromatogram::isSorted()`. -/
def isSorted (c : MSChromatogram) : Bool := isSortedFrom c.peaks

end MSChromatogram

/-- The library routine `std::lower_bound` with the comparator `PositionLess`, on the range of
`len` peaks from offset `first`, as the offset of the returned iterator: the halving search by
which the standard libraries implement it on random access iterators; `fuel` bounds the number
of iterations. -/
def lowerBoundSearch (l : List ChromatogramPeak) (rt : ℚ) : Nat → Nat → Nat → Nat
  | 0, first, _ => first
  | fuel + 1, first, len =>
    if len = 0 then first
    else if (l.getD (first + len / 2) default).rt < rt then
      lowerBoundSearch l rt fuel (first + len / 2 + 1) (len - len / 2 - 1)
    else lowerBoundSearch l rt fuel first (len / 2)

/-- The call `std::lower_bound(begin, end, rt, PositionLess())` on a whole vector. -/
def lower_bound (l : List ChromatogramPeak) (rt : ℚ) : Nat :=
  lowerBoundSearch l rt l.length 0 l.length

/-- The library routine `std::upper_bound` with the comparator `PositionLess`, as a halving
search like `lowerBoundSearch`. -/
def upperBoundSearch (l : List ChromatogramPeak) (rt : ℚ) : Nat → Nat → Nat → Nat
  | 0, first, _ => first
  | fuel + 1, first, len =>
    if len = 0 then first
    else if rt < (l.getD (first + len / 2) default).rt then
      upperBoundSearch l rt fuel first (len / 2)
    else upperBoundSearch l rt fuel (first + len / 2 + 1) (len - len / 2 - 1)

/-- The call `std::upper_bound(begin, end, rt, PositionLess())` on a whole vector. -/
def upper_bound (l : List ChromatogramPeak) (rt : ℚ) : Nat :=
  upperBoundSearch l rt l.length 0 l.length

/-- The Returns clause of `std::lower_bound` in the C++ standard: the furthest position such
that every peak before it compares less than the value. On a range in position order this is
the first peak at or after the value, and the offset that the halving search returns. -/
def lowerBoundScan : List ChromatogramPeak → ℚ → Nat
  | [], _ => 0
  | p :: ps, rt => if p.rt < rt then lowerBoundScan ps rt + 1 else 0

/-- The Returns clause of `std::upper_bound` in the C++ standard: the furthest position such
that the value compares less than no peak before it (on a range in position order: the first
peak after the value). -/
def upperBoundScan : List ChromatogramPeak → ℚ → Nat
  | [], _ => 0
  | p :: ps, rt => if rt < p.rt then 0 else upperBoundScan ps rt + 1

/-- The exceptions thrown by the chromatogram. -/
inductive Exception where
  | Precondition (message : String)
deriving DecidableEq, Repr

/-- The library function `round` of C on a double: nearest integer, halfway cases away from
zero (the result is a double again, no rounding error arises). -/
def cRound (x : ℚ) : ℤ := if 0 ≤ x then ⌊x + 1 / 2⌋ else ⌈x - 1 / 2⌉

/-- The expression `round(a->getRT() * 1000.0)` of the lambda `smaller_RT`: the product is the
double nearest to the exact product. -/
def roundedMillis (rt : ℚ) : ℤ := cRound (roundToDouble (rt * 1000))

/-- The lambda `smaller_RT` of `setSumSimilarUnion`. -/
def smaller_RT (a b : ChromatogramPeak) : Bool :=
  decide (roundedMillis a.rt < roundedMillis b.rt)

/-- The loop `while (true)` of the helper `setSumSimilarUnion`, on the ranges `[first1, last1)`
and `[first2, last2)`, with the lambda of its body as the argument `smaller`; the value is the
sequence written to `result`. -/
def setSumSimilarUnionLoop (smaller : ChromatogramPeak → ChromatogramPeak → Bool) :
    List ChromatogramPeak → List ChromatogramPeak → List ChromatogramPeak
  | [], l2 => l2
  | a :: l1, [] => a :: l1
  | a :: l1, b :: l2 =>
    if smaller a b then a :: setSumSimilarUnionLoop smaller l1 (b :: l2)
    else if smaller b a then b :: setSumSimilarUnionLoop smaller (a :: l1) l2
    else
      { a with intensity := a.intensity + b.intensity } :: setSumSimilarUnionLoop smaller l1 l2
termination_by l1 l2 => l1.length + l2.length

/-- The helper `setSumSimilarUnion`: its loop with the lambda `smaller_RT`. -/
def setSumSimilarUnion (l1 l2 : List ChromatogramPeak) : List ChromatogramPeak :=
  setSumSimilarUnionLoop smaller_RT l1 l2

/-- Modelled from the spec: the key `Constants::UserParam::MERGED_CHROMATOGRAM_MZS` of the
list-valued metadata entry that `mergePeaks` extends; the text of the key is not part of the
sources. -/
def MERGED_CHROMATOGRAM_MZS : String := "merged_chromatogram_mzs"

namespace ChromatogramSettings

/-- Modelled from the spec: `metaValueExists` of the key-value metadata store. -/
def metaValueExists (s : ChromatogramSettings) (key : String) : Bool :=
  (s.meta_values.lookup key).isSome

/-- Modelled from the spec: `getMetaValue(key).toDoubleList()` of the key-value metadata
store. -/
def getMetaValue (s : ChromatogramSettings) (key : String) : List ℚ :=
  (s.meta_values.lookup key).getD []

/-- Modelled from the spec: `setMetaValue` of the key-value metadata store, which replaces an
entry or creates it. -/
def setMetaValue (s : ChromatogramSettings) (key : String) (value : List ℚ) :
    ChromatogramSettings :=
  { s with meta_values := (key, value) :: s.meta_values.filter (fun e => e.1 != key) }

end ChromatogramSettings

namespace MSChromatogram

/-- The method `MSChromatogram::getMZ()`. -/
def getMZ (c : MSChromatogram) : ℚ := c.settings.product_mz

/-- The method `MSChromatogram::RTBegin(rt)` on the whole container, as an offset. -/
def RTBegin (c : MSChromatogram) (rt : ℚ) : Nat := lower_bound c.peaks rt

/-- The retention time read through an iterator at offset `i`. -/
def rtAt (c : MSChromatogram) (i : Nat) : ℚ := (c.peaks.getD i default).rt

/-- The offset `i` is the first one in `[b, e)` whose peak has a position with the property
`P`, or `e` when there is none, and from `i` on every peak of `[b, e)` has it. -/
def IsFirstIndexWith (c : MSChromatogram) (P : ℚ → Prop) (b e i : Nat) : Prop :=
  b ≤ i ∧ i ≤ e ∧ (∀ j, b ≤ j → j < i → ¬ P (c.rtAt j)) ∧ (∀ j, i ≤ j → j < e → P (c.rtAt j))

/-- The expression `std::fabs(it->getRT() - rt)` of `findNearest` for an iterator at a peak of
position `x`: the difference is the double nearest to the exact difference. -/
def fabsDiff (x rt : ℚ) : ℚ := |roundToDouble (x - rt)|

/-- The method `MSChromatogram::findNearest(rt)`. -/
def findNearest (c : MSChromatogram) (rt : ℚ) : Except Exception Nat :=
  if c.peaks.isEmpty then
    .error (.Precondition "There must be at least one peak to determine the nearest peak!")
  else
    let it := c.RTBegin rt
    if it = 0 then .ok 0
    else if it = c.peaks.length then .ok (c.peaks.length - 1)
    else
      let it2 := it - 1
      if fabsDiff (c.rtAt it) rt < fabsDiff (c.rtAt it2) rt then .ok it else .ok it2

/-- The object that the reference `other` of `mergePeaks(MSChromatogram& other, ...)` refers
to: the chromatogram on which the method is called (the call `c.mergePeaks(c)`), or another
object, given by its value before the call. -/
inductive OtherRef where
  | sameObject
  | distinctObject (other : MSChromatogram)
deriving DecidableEq, Repr

/-- A read through the reference `other` when the chromatogram of the call has the value
`self`. -/
def OtherRef.deref (r : OtherRef) (self : MSChromatogram) : MSChromatogram :=
  match r with
  | .sameObject => self
  | .distinctObject other => other

/-- The method `MSChromatogram::mergePeaks(other, add_meta)`; the value is the pair of the
chromatogram itself and of the object behind `other` after the call. -/
def mergePeaks (self : MSChromatogram) (other : OtherRef) (add_meta : Bool) :
    MSChromatogram × MSChromatogram :=
  let merged :=
    { self with peaks := setSumSimilarUnion self.peaks (other.deref self).peaks }
  if add_meta then
    let ls :=
      if merged.settings.metaValueExists MERGED_CHROMATOGRAM_MZS then
        merged.settings.getMetaValue MERGED_CHROMATOGRAM_MZS
      else []
    let result :=
      { merged with
        settings := merged.settings.setMetaValue MERGED_CHROMATOGRAM_MZS
          (ls ++ [(other.deref merged).getMZ]) }
    (result, other.deref result)
  else (merged, other.deref merged)

end MSChromatogram

/-- The intensity of a peak looked up by index, 0 when the index is past the end. -/
def optIntensity (a : Option ChromatogramPeak) : ℚ := (a.map ChromatogramPeak.intensity).getD 0

/-- The peaks of the iterator range `[begin, last)` of a container. -/
def iteratorRange (l : List ChromatogramPeak) (begin last : Nat) : List ChromatogramPeak :=
  (l.take last).drop begin

/-- A routine that meets the contract of `std::sort` and is not the one of any library:
insertion sort of the reversed input, which reverses the order of equivalent elements. It
serves to run statements that hold for every conforming routine on a second routine. -/
def reversingStdSort : StdSort where
  sort lt l := List.insertionSort (fun a b => lt b a = false) l.reverse
  perm _ l := (List.perm_insertionSort _ l.reverse).trans (List.reverse_perm l)
  sorted lt l h := insertionStdSort.sorted lt l.reverse h

/-- Modelled from the spec: the default constructor `ChromatogramSettings()` of the settings
base class, not part of the sources: no product m/z and no meta value. -/
def ChromatogramSettings.defaultConstructed : ChromatogramSettings :=
  { product_mz := 0, meta_values := [] }

/-- Modelled from the spec: `clearRanges()` of the base class `RangeManager`, which empties the
range cache. -/
def RangeManager.clearRanges (_r : RangeManager) : RangeManager :=
  { rt_range := none, intensity_range := none }

namespace MSChromatogram

/-- The method `MSChromatogram::RTBegin(begin, rt, end)` on the iterator range
`[begin, last)`, as an offset. -/
def RTBeginRange (c : MSChromatogram) (begin : Nat) (rt : ℚ) (last : Nat) : Nat :=
  begin + lower_bound (iteratorRange c.peaks begin last) rt

/-- The method `MSChromatogram::RTEnd(rt)` on the whole container, as an offset. -/
def RTEnd (c : MSChromatogram) (rt : ℚ) : Nat := upper_bound c.peaks rt

/-- The method `MSChromatogram::RTEnd(begin, rt, end)` on the iterator range `[begin, last)`,
as an offset. -/
def RTEndRange (c : MSChromatogram) (begin : Nat) (rt : ℚ) (last : Nat) : Nat :=
  begin + upper_bound (iteratorRange c.peaks begin last) rt

/-- The method `MSChromatogram::PosBegin(rt)`. -/
def PosBegin (c : MSChromatogram) (rt : ℚ) : Nat := c.RTBegin rt

/-- The method `MSChromatogram::PosBegin(begin, rt, end)`. -/
def PosBeginRange (c : MSChromatogram) (begin : Nat) (rt : ℚ) (last : Nat) : Nat :=
  c.RTBeginRange begin rt last

/-- The method `MSChromatogram::PosEnd(rt)`. -/
def PosEnd (c : MSChromatogram) (rt : ℚ) : Nat := c.RTEnd rt

/-- The method `MSChromatogram::PosEnd(begin, rt, end)`. -/
def PosEndRange (c : MSChromatogram) (begin : Nat) (rt : ℚ) (last : Nat) : Nat :=
  c.RTEndRange begin rt last

/-- The method `MSChromatogram::MZEnd(rt)`. -/
def MZEnd (c : MSChromatogram) (rt : ℚ) : Nat := c.RTEnd rt

/-- The method `MSChromatogram::clear(bool clear_meta_data)`. -/
def clear (c : MSChromatogram) (clear_meta_data : Bool) : MSChromatogram :=
  let cleared := { c with peaks := [] }
  if clear_meta_data then
    { cleared with
      ranges := cleared.ranges.clearRanges
      settings := ChromatogramSettings.defaultConstructed
      name := ""
      float_data_arrays := []
      string_data_arrays := []
      integer_data_arrays := [] }
  else cleared

/-- The intensity read through an iterator at offset `i`. -/
def intensityAt (c : MSChromatogram) (i : Nat) : ℚ := (c.peaks.getD i default).intensity

/-- A stable sort of the peaks by ascending intensity, the reference that the index-based
branch of `sortByIntensity` is compared with: insertion sort, which never moves a peak past a
peak of equal intensity. -/
def stableSortByIntensity (l : List ChromatogramPeak) : List ChromatogramPeak :=
  List.insertionSort (fun a b => a.intensity ≤ b.intensity) l

/-- A stable sort of the peaks by descending intensity. -/
def stableSortByIntensityDescending (l : List ChromatogramPeak) : List ChromatogramPeak :=
  List.insertionSort (fun a b => b.intensity ≤ a.intensity) l

/-- Two peaks at the same position with different intensities, no meta data array. -/
def tiedPositions : MSChromatogram :=
  { peaks := [⟨1, 5⟩, ⟨1, 3⟩], ranges := default, settings := default, name := "",
    float_data_arrays := [], string_data_arrays := [], integer_data_arrays := [] }

/-- Two peaks of the same intensity with one float array. -/
def tiedIntensities : MSChromatogram :=
  { peaks := [⟨0, 5⟩, ⟨1, 5⟩], ranges := default, settings := default, name := "",
    float_data_arrays := [[1, 2]], string_data_arrays := [], integer_data_arrays := [] }

/-- The chromatogram `tiedIntensities` with the two peaks and the two array entries swapped. -/
def tiedIntensitiesSwapped : MSChromatogram :=
  { peaks := [⟨1, 5⟩, ⟨0, 5⟩], ranges := default, settings := default, name := "",
    float_data_arrays := [[2, 1]], string_data_arrays := [], integer_data_arrays := [] }

/-- The chromatogram `unsortedWithStrings` with the two peaks and the two entries of the string
array swapped. -/
def unsortedWithStringsSwapped : MSChromatogram :=
  { peaks := [⟨1, 20⟩, ⟨2, 10⟩], ranges := default, settings := default, name := "",
    float_data_arrays := [], string_data_arrays := [["b", "a"]], integer_data_arrays := [] }

/-- The sum of the intensities of a peak sequence. -/
def totalIntensity (l : List ChromatogramPeak) : ℚ := (l.map ChromatogramPeak.intensity).sum

/-- Two peaks out of intensity order with a float array of one entry only. -/
def shortFloatArray : MSChromatogram :=
  { peaks := [⟨0, 2⟩, ⟨1, 1⟩], ranges := default, settings := default, name := "",
    float_data_arrays := [[7]], string_data_arrays := [], integer_data_arrays := [] }

/-- The peaks at positions 2 and 4, with product m/z 300. -/
def twoFour : MSChromatogram :=
  { peaks := [⟨2, 1⟩, ⟨4, 1⟩], ranges := default,
    settings := { product_mz := 300, meta_values := [] }, name := "",
    float_data_arrays := [], string_data_arrays := [], integer_data_arrays := [] }

/-- A chromatogram with a name, a range cache, settings with one merged m/z already recorded,
and one array in each set. -/
def fullyPopulated : MSChromatogram :=
  { peaks := [⟨1, 9⟩, ⟨2, 8⟩],
    ranges := { rt_range := some (1, 2), intensity_range := some (8, 9) },
    settings := { product_mz := 500, meta_values := [(MERGED_CHROMATOGRAM_MZS, [100])] },
    name := "TIC", float_data_arrays := [[10, 20]], string_data_arrays := [["a", "b"]],
    integer_data_arrays := [[1, 2]] }

/-- Two peaks in position order, at `-2 ^ (-60)` and at 2, both doubles. -/
def nearTie : MSChromatogram :=
  { peaks := [⟨-(1 / 2 ^ 60), 0⟩, ⟨2, 0⟩], ranges := default, settings := default, name := "",
    float_data_arrays := [], string_data_arrays := [], integer_data_arrays := [] }

/-- Seventeen peaks at the same position, with the intensities 0 to 16, and no meta data
array. -/
def seventeenTied : MSChromatogram :=
  { peaks := [⟨1, 0⟩, ⟨1, 1⟩, ⟨1, 2⟩, ⟨1, 3⟩, ⟨1, 4⟩, ⟨1, 5⟩, ⟨1, 6⟩, ⟨1, 7⟩, ⟨1, 8⟩, ⟨1, 9⟩,
      ⟨1, 10⟩, ⟨1, 11⟩, ⟨1, 12⟩, ⟨1, 13⟩, ⟨1, 14⟩, ⟨1, 15⟩, ⟨1, 16⟩],
    ranges := default, settings := default, name := "",
    float_data_arrays := [], string_data_arrays := [], integer_data_arrays := [] }

/-- Three peaks that are not in position order, at 5, 1 and 3. -/
def fiveOneThree : MSChromatogram :=
  { peaks := [⟨5, 0⟩, ⟨1, 0⟩, ⟨3, 0⟩], ranges := default, settings := default, name := "",
    float_data_arrays := [], string_data_arrays := [], integer_data_arrays := [] }

/-- Four peaks that are not in position order, at 1, 5, 0 and 3. -/
def oneFiveZeroThree : MSChromatogram :=
  { peaks := [⟨1, 0⟩, ⟨5, 0⟩, ⟨0, 0⟩, ⟨3, 0⟩], ranges := default, settings := default,
    name := "",
    float_data_arrays := [], string_data_arrays := [], integer_data_arrays := [] }

/-- One peak at position 1 with intensity 5, with one array in each set. -/
def singlePeak : MSChromatogram :=
  { peaks := [⟨1, 5⟩], ranges := default,
    settings := { product_mz := 200, meta_values := [] }, name := "",
    float_data_arrays := [[10]], string_data_arrays := [["a"]], integer_data_arrays := [[1]] }

end MSChromatogram

/-! ## Lemmas on the sorting contract and on the index list -/

theorem strictWeak_of_key {α β : Type} [LinearOrder β] (key : α → β) :
    StrictWeak (fun a b => decide (key a < key b)) := by
  refine ⟨?_, ?_, ?_⟩
  · intro a; simp
  · intro a b c hab hbc
    simp only [decide_eq_true_eq] at *
    exact lt_trans hab hbc
  · intro a b c hab hbc
    simp only [decide_eq_false_iff_not, not_lt] at *
    exact le_trans hbc hab

theorem strictWeak_swap {α : Type} {lt : α → α → Bool} (h : StrictWeak lt) :
    StrictWeak (fun a b => lt b a) :=
  ⟨h.1, fun a b c hab hbc => h.2.1 c b a hbc hab, fun a b c hab hbc => h.2.2 c b a hbc hab⟩

theorem strictWeak_PositionLess : StrictWeak ChromatogramPeak.PositionLess :=
  strictWeak_of_key ChromatogramPeak.rt

theorem strictWeak_IntensityLess : StrictWeak ChromatogramPeak.IntensityLess :=
  strictWeak_of_key ChromatogramPeak.intensity

theorem pairLess_iff (a b : ℚ × Nat) :
    pairLess a b = true ↔ a.1 < b.1 ∨ (a.1 = b.1 ∧ a.2 < b.2) := by
  unfold pairLess
  simp only [Bool.or_eq_true, Bool.and_eq_true, Bool.not_eq_true', decide_eq_true_eq,
    decide_eq_false_iff_not, not_lt]
  constructor
  · rintro (h | ⟨h1, h2⟩)
    · exact Or.inl h
    · rcases lt_or_eq_of_le h1 with h | h
      · exact Or.inl h
      · exact Or.inr ⟨h, h2⟩
  · rintro (h | ⟨h1, h2⟩)
    · exact Or.inl h
    · exact Or.inr ⟨h1.le, h2⟩

theorem pairLess_eq_toLex (a b : ℚ × Nat) : pairLess a b = decide (toLex a < toLex b) := by
  rw [Bool.eq_iff_iff, pairLess_iff, decide_eq_true_eq, Prod.Lex.lt_iff]

theorem strictWeak_pairLess : StrictWeak pairLess := by
  have h := strictWeak_of_key (fun a : ℚ × Nat => toLex a)
  have e : pairLess = (fun a b => decide (toLex a < toLex b)) := by
    funext a b; exact pairLess_eq_toLex a b
  rw [e]; exact h

theorem strictWeak_pairGreater : StrictWeak pairGreater := strictWeak_swap strictWeak_pairLess

/-- On two elements in the wrong order every conforming sort swaps them. -/
theorem StdSort.sort_pair (S : StdSort) {α : Type} (lt : α → α → Bool) (h : StrictWeak lt)
    (a b : α) (hba : lt b a = true) : S.sort lt [a, b] = [b, a] := by
  have hp := S.perm lt [a, b]
  have hs := S.sorted lt [a, b] h
  have hl := hp.length_eq
  match hm : S.sort lt [a, b], hl with
  | [x, y], _ =>
    rw [hm] at hp hs
    have hx : x ∈ [a, b] := hp.subset (by simp)
    have hy : y ∈ [a, b] := hp.subset (by simp)
    have hxy : lt y x = false := by
      simpa using hs
    have ha : a ∈ [x, y] := hp.symm.subset (by simp)
    have hb : b ∈ [x, y] := hp.symm.subset (by simp)
    simp only [List.mem_cons, List.mem_singleton, List.not_mem_nil, or_false] at hx hy ha hb
    rcases hx with rfl | rfl
    · rcases hy with rfl | rfl
      · rcases hb with rfl | rfl <;> rfl
      · rw [hba] at hxy; exact absurd hxy (by decide)
    · rcases hy with rfl | rfl
      · rfl
      · rcases ha with rfl | rfl <;> rfl

theorem isSortedFrom_iff (l : List ChromatogramPeak) :
    MSChromatogram.isSortedFrom l = true ↔ l.Pairwise (fun a b => a.rt ≤ b.rt) := by
  induction l with
  | nil => simp [MSChromatogram.isSortedFrom]
  | cons a l ih =>
    cases l with
    | nil => simp [MSChromatogram.isSortedFrom]
    | cons b l =>
      rw [MSChromatogram.isSortedFrom, List.pairwise_cons]
      by_cases h : a.rt > b.rt
      · simp only [h, if_true]
        constructor
        · intro hf; exact absurd hf (by decide)
        · intro hp
          have := hp.1 b (by simp)
          exact absurd h (not_lt.mpr this)
      · simp only [h, if_false, ih]
        constructor
        · intro hp
          refine ⟨?_, hp⟩
          intro x hx
          rcases List.mem_cons.mp hx with rfl | hx
          · exact not_lt.mp h
          · exact le_trans (not_lt.mp h) ((List.pairwise_cons.mp hp).1 x hx)
        · intro hp; exact hp.2

theorem gather_eq_some {α : Type} (v : List α) (is : List Nat) (xs : List α) :
    gather v is = some xs ↔ xs.map some = is.map (fun i => v[i]?) := by
  induction is generalizing xs with
  | nil => cases xs <;> simp [gather]
  | cons i is ih =>
    rw [gather]
    cases hv : v[i]? with
    | none =>
      simp only [List.map_cons, hv]
      constructor
      · intro h; exact absurd h (by simp)
      · intro h
        cases xs with
        | nil => simp at h
        | cons x xs => simp at h
    | some y =>
      cases hg : gather v is with
      | none =>
        simp only [List.map_cons, hv]
        constructor
        · intro h; exact absurd h (by simp)
        · intro h
          cases xs with
          | nil => simp at h
          | cons x xs =>
            simp only [List.map_cons, List.cons.injEq] at h
            have := (ih xs).mpr h.2
            rw [hg] at this
            exact absurd this (by simp)
      | some ys =>
        have hys := (ih ys).mp hg
        simp only [List.map_cons, hv, Option.some.injEq]
        constructor
        · intro h; subst h; simp [hys]
        · intro h
          cases xs with
          | nil => simp at h
          | cons x xs =>
            simp only [List.map_cons, List.cons.injEq, Option.some.injEq] at h
            have h2 := (ih xs).mpr h.2
            rw [hg] at h2
            simp only [Option.some.injEq] at h2
            rw [h.1, h2]

theorem gather_isSome {α : Type} (v : List α) (is : List Nat) (h : ∀ i ∈ is, i < v.length) :
    ∃ xs, gather v is = some xs := by
  induction is with
  | nil => exact ⟨[], rfl⟩
  | cons i is ih =>
    obtain ⟨xs, hxs⟩ := ih (fun j hj => h j (List.mem_cons_of_mem _ hj))
    have hi : i < v.length := h i (List.mem_cons_self _ _)
    refine ⟨v[i] :: xs, ?_⟩
    rw [gather, hxs, List.getElem?_eq_getElem hi]

theorem map_snd_indexPairs (key : ChromatogramPeak → ℚ) (ps : List ChromatogramPeak) (n : Nat) :
    (indexPairs key ps n).map Prod.snd = List.range' n ps.length := by
  induction ps generalizing n with
  | nil => rfl
  | cons p ps ih => simp [indexPairs, ih, List.range']

theorem length_indexPairs (key : ChromatogramPeak → ℚ) (ps : List ChromatogramPeak) (n : Nat) :
    (indexPairs key ps n).length = ps.length := by
  have := congrArg List.length (map_snd_indexPairs key ps n)
  simpa using this

theorem mem_indexPairs (key : ChromatogramPeak → ℚ) (ps : List ChromatogramPeak) (n : Nat)
    (e : ℚ × Nat) (he : e ∈ indexPairs key ps n) :
    n ≤ e.2 ∧ ∃ p, ps[e.2 - n]? = some p ∧ key p = e.1 := by
  induction ps generalizing n with
  | nil => simp [indexPairs] at he
  | cons p ps ih =>
    rw [indexPairs, List.mem_cons] at he
    rcases he with rfl | he
    · exact ⟨le_refl _, p, by simp, rfl⟩
    · obtain ⟨h1, q, hq, hk⟩ := ih (n + 1) he
      refine ⟨by omega, q, ?_, hk⟩
      have : e.2 - n = (e.2 - (n + 1)) + 1 := by omega
      rw [this, List.getElem?_cons_succ]
      exact hq

theorem map_getElem?_range {α : Type} (v : List α) :
    (List.range v.length).map (fun i => v[i]?) = v.map some := by
  apply List.ext_getElem?
  intro i
  simp only [List.getElem?_map]
  by_cases h : i < v.length
  · simp [List.getElem?_range h, List.getElem?_eq_getElem h]
  · have h1 : (List.range v.length)[i]? = none := by
      rw [List.getElem?_eq_none_iff]; simpa using h
    have h2 : v[i]? = none := by
      rw [List.getElem?_eq_none_iff]; simpa using h
    simp [h1, h2]

/-- Gathering along a permutation of all indices yields a permutation of the vector. -/
theorem gather_perm {α : Type} (v : List α) (is : List Nat) (xs : List α)
    (hp : is.Perm (List.range v.length)) (hg : gather v is = some xs) : xs.Perm v := by
  have h1 := (gather_eq_some v is xs).mp hg
  have h2 : (is.map (fun i => v[i]?)).Perm (v.map some) := by
    rw [← map_getElem?_range]; exact hp.map _
  rw [← h1] at h2
  have h3 := h2.filterMap id
  simpa [List.filterMap_map] using h3

theorem reindex_isSome {α : Type} (sorted_indices : List (ℚ × Nat)) (n : Nat) (v : List α)
    (hl : sorted_indices.length = n) (hi : ∀ e ∈ sorted_indices, e.2 < n)
    (hv : v ≠ [] → v.length = n) : ∃ w, reindex sorted_indices v = some w := by
  unfold reindex
  by_cases h0 : v = []
  · subst h0
    exact ⟨[], by simp [gather]⟩
  · have hvn := hv h0
    rw [if_pos (by omega)]
    apply gather_isSome
    intro i hi'
    obtain ⟨e, he, rfl⟩ := List.mem_map.mp hi'
    have := hi e (List.mem_of_mem_take he)
    omega

theorem reindexAll_isSome {α : Type} (sorted_indices : List (ℚ × Nat)) (n : Nat)
    (vs : List (List α)) (hl : sorted_indices.length = n) (hi : ∀ e ∈ sorted_indices, e.2 < n)
    (hv : ∀ v ∈ vs, v ≠ [] → v.length = n) : ∃ ws, reindexAll sorted_indices vs = some ws := by
  induction vs with
  | nil => exact ⟨[], rfl⟩
  | cons v vs ih =>
    obtain ⟨ws, hws⟩ := ih (fun u hu => hv u (List.mem_cons_of_mem _ hu))
    obtain ⟨w, hw⟩ := reindex_isSome sorted_indices n v hl hi (hv v (List.mem_cons_self _ _))
    exact ⟨w :: ws, by rw [reindexAll, hw, hws]⟩

theorem SortedIndices.snd_perm {key ps si} (h : SortedIndices key ps si) :
    (si.map Prod.snd).Perm (List.range ps.length) := by
  have := List.Perm.map Prod.snd h
  rwa [map_snd_indexPairs, ← List.range_eq_range'] at this

theorem SortedIndices.length_eq {key ps si} (h : SortedIndices key ps si) :
    si.length = ps.length := by
  rw [List.Perm.length_eq h, length_indexPairs]

theorem SortedIndices.lookup {key ps si} (h : SortedIndices key ps si) (e : ℚ × Nat)
    (he : e ∈ si) : ∃ p, ps[e.2]? = some p ∧ key p = e.1 := by
  have := (mem_indexPairs key ps 0 e (List.Perm.subset h he)).2
  simpa using this

theorem SortedIndices.snd_lt {key ps si} (h : SortedIndices key ps si) (e : ℚ × Nat)
    (he : e ∈ si) : e.2 < ps.length := by
  obtain ⟨p, hp, _⟩ := h.lookup e he
  exact (List.getElem?_eq_some_iff.mp hp).1

theorem SortedIndices.keys {key ps si} (h : SortedIndices key ps si) (tmp : List ChromatogramPeak)
    (hg : gather ps (si.map Prod.snd) = some tmp) : tmp.map key = si.map Prod.fst := by
  have h1 := (gather_eq_some _ _ _).mp hg
  have h2 := congrArg (List.map (Option.map key)) h1
  simp only [List.map_map] at h2
  have h3 : List.map (Option.map key ∘ (fun i => ps[i]?) ∘ Prod.snd) si
      = List.map (some ∘ Prod.fst) si := by
    apply List.map_congr_left
    intro e he
    obtain ⟨p, hp, hk⟩ := h.lookup e he
    simp [hp, hk]
  rw [h3] at h2
  have h4 : List.map some (tmp.map key) = List.map some (si.map Prod.fst) := by
    simpa [List.map_map] using h2
  exact (List.map_injective_iff.mpr (Option.some_injective _)) h4

theorem reindexAll_forall₂ {α : Type} (si : List (ℚ × Nat)) (vs ws : List (List α))
    (h : reindexAll si vs = some ws) :
    List.Forall₂ (fun v w => reindex si v = some w) vs ws := by
  induction vs generalizing ws with
  | nil =>
    rw [reindexAll] at h
    simp only [Option.some.injEq] at h
    subst h
    exact List.Forall₂.nil
  | cons v vs ih =>
    rw [reindexAll] at h
    split at h
    · next w ws' hw hws =>
      simp only [Option.some.injEq] at h
      subst h
      exact List.Forall₂.cons hw (ih ws' hws)
    · exact absurd h (by simp)

namespace MSChromatogram

theorem reindex_reindexed {α : Type} (si : List (ℚ × Nat)) (n : Nat) (v w : List α)
    (hl : si.length = n) (hv : v ≠ [] → v.length = n) (h : reindex si v = some w) :
    Reindexed (si.map Prod.snd) v w := by
  unfold reindex at h
  by_cases h0 : v = []
  · subst h0
    left
    simp [gather] at h
    exact ⟨rfl, h⟩
  · right
    have hvn := hv h0
    rw [if_pos (by omega)] at h
    have ht : si.take v.length = si := by
      rw [hvn, ← hl]; exact List.take_length si
    rw [ht] at h
    have := (gather_eq_some v _ w).mp h
    simpa using this

theorem reindexAll_reindexed {α : Type} (si : List (ℚ × Nat)) (n : Nat) (vs ws : List (List α))
    (hl : si.length = n) (hv : ∀ v ∈ vs, v ≠ [] → v.length = n)
    (h : reindexAll si vs = some ws) :
    List.Forall₂ (Reindexed (si.map Prod.snd)) vs ws := by
  have h2 := reindexAll_forall₂ si vs ws h
  clear h
  induction h2 with
  | nil => exact List.Forall₂.nil
  | cons hw _ ih =>
    exact List.Forall₂.cons
      (reindex_reindexed si n _ _ hl (hv _ (List.mem_cons_self _ _)) hw)
      (ih (fun u hu => hv u (List.mem_cons_of_mem _ hu)))

theorem applySorting_peaks (c c' : MSChromatogram) (si : List (ℚ × Nat))
    (h : applySorting c si = some c') : gather c.peaks (si.map Prod.snd) = some c'.peaks := by
  unfold applySorting at h
  split at h
  · next tmp f s i h1 h2 h3 h4 =>
    simp only [Option.some.injEq] at h
    subst h
    exact h1
  · exact absurd h (by simp)

theorem applySorting_isSome (c : MSChromatogram) (key : ChromatogramPeak → ℚ)
    (si : List (ℚ × Nat)) (h : SortedIndices key c.peaks si) (ha : ArraysAligned c) :
    ∃ c', applySorting c si = some c' := by
  obtain ⟨tmp, ht⟩ := gather_isSome c.peaks (si.map Prod.snd) (by
    intro i hi
    obtain ⟨e, he, rfl⟩ := List.mem_map.mp hi
    exact h.snd_lt e he)
  obtain ⟨f, hf⟩ := reindexAll_isSome si c.peaks.length c.float_data_arrays h.length_eq
    h.snd_lt ha.1
  obtain ⟨s, hs⟩ := reindexAll_isSome si c.peaks.length c.string_data_arrays h.length_eq
    h.snd_lt ha.2.1
  obtain ⟨i, hi⟩ := reindexAll_isSome si c.peaks.length c.integer_data_arrays h.length_eq
    h.snd_lt ha.2.2
  exact ⟨_, by rw [applySorting, ht, hf, hs, hi]⟩

theorem pairLess_false_fst (a b : ℚ × Nat) (h : pairLess b a = false) : a.1 ≤ b.1 := by
  by_contra hc
  have : pairLess b a = true := (pairLess_iff b a).mpr (Or.inl (not_le.mp hc))
  rw [h] at this
  exact absurd this (by decide)

/-- The peaks produced by the index-based branch: a rearrangement of the old peaks whose keys
follow the sorted index list. -/
theorem applySorting_spec (S : StdSort) (lt : ℚ × Nat → ℚ × Nat → Bool)
    (key : ChromatogramPeak → ℚ) (c c' : MSChromatogram)
    (h : applySorting c (S.sort lt (indexPairs key c.peaks 0)) = some c') :
    c'.peaks.Perm c.peaks ∧
      c'.peaks.map key = (S.sort lt (indexPairs key c.peaks 0)).map Prod.fst := by
  have hsi : SortedIndices key c.peaks (S.sort lt (indexPairs key c.peaks 0)) := S.perm _ _
  have hg := applySorting_peaks c c' _ h
  exact ⟨gather_perm _ _ _ hsi.snd_perm hg, hsi.keys _ hg⟩

theorem sortByPosition_sorted (S : StdSort) (c c' : MSChromatogram)
    (h : sortByPosition S c = some c') :
    c'.peaks.Perm c.peaks ∧ c'.peaks.Pairwise (fun a b => a.rt ≤ b.rt) := by
  unfold sortByPosition at h
  split at h
  · simp only [Option.some.injEq] at h
    subst h
    refine ⟨S.perm _ _, ?_⟩
    refine (S.sorted _ c.peaks strictWeak_PositionLess).imp ?_
    intro a b hab
    simpa [ChromatogramPeak.PositionLess] using hab
  · obtain ⟨hp, hk⟩ := applySorting_spec S pairLess ChromatogramPeak.rt c c' h
    refine ⟨hp, ?_⟩
    have hs := S.sorted pairLess (indexPairs ChromatogramPeak.rt c.peaks 0) strictWeak_pairLess
    have h2 : ((S.sort pairLess (indexPairs ChromatogramPeak.rt c.peaks 0)).map Prod.fst).Pairwise
        (fun x y => x ≤ y) := by
      rw [List.pairwise_map]
      exact hs.imp (fun {a b} hab => pairLess_false_fst a b hab)
    rw [← hk, List.pairwise_map] at h2
    exact h2

theorem sortByPosition_isSome (S : StdSort) (c : MSChromatogram) (ha : ArraysAligned c) :
    ∃ c', sortByPosition S c = some c' := by
  unfold sortByPosition
  split
  · exact ⟨_, rfl⟩
  · exact applySorting_isSome c ChromatogramPeak.rt _ (S.perm _ _) ha

theorem sortByIntensity_sorted (S : StdSort) (c c' : MSChromatogram) (reverse : Bool)
    (h : sortByIntensity S c reverse = some c') :
    c'.peaks.Perm c.peaks ∧
      (reverse = false → c'.peaks.Pairwise (fun a b => a.intensity ≤ b.intensity)) ∧
      (reverse = true → c'.peaks.Pairwise (fun a b => b.intensity ≤ a.intensity)) := by
  unfold sortByIntensity at h
  split at h
  · cases reverse
    · simp only [Bool.false_eq_true, if_false, Option.some.injEq] at h
      subst h
      refine ⟨S.perm _ _, fun _ => ?_, fun hr => absurd hr (by decide)⟩
      refine (S.sorted _ c.peaks strictWeak_IntensityLess).imp ?_
      intro a b hab
      simpa [ChromatogramPeak.IntensityLess] using hab
    · simp only [if_true, Option.some.injEq] at h
      subst h
      refine ⟨S.perm _ _, fun hr => absurd hr (by decide), fun _ => ?_⟩
      refine (S.sorted _ c.peaks (strictWeak_swap strictWeak_IntensityLess)).imp ?_
      intro a b hab
      simpa [ChromatogramPeak.IntensityLess] using hab
  · cases reverse
    · simp only [Bool.false_eq_true, if_false] at h
      obtain ⟨hp, hk⟩ := applySorting_spec S pairLess ChromatogramPeak.intensity c c' h
      refine ⟨hp, fun _ => ?_, fun hr => absurd hr (by decide)⟩
      have hs := S.sorted pairLess (indexPairs ChromatogramPeak.intensity c.peaks 0)
        strictWeak_pairLess
      have h2 : ((S.sort pairLess (indexPairs ChromatogramPeak.intensity c.peaks 0)).map
          Prod.fst).Pairwise (fun x y => x ≤ y) := by
        rw [List.pairwise_map]
        exact hs.imp (fun {a b} hab => pairLess_false_fst a b hab)
      rw [← hk, List.pairwise_map] at h2
      exact h2
    · simp only [if_true] at h
      obtain ⟨hp, hk⟩ := applySorting_spec S pairGreater ChromatogramPeak.intensity c c' h
      refine ⟨hp, fun hr => absurd hr (by decide), fun _ => ?_⟩
      have hs := S.sorted pairGreater (indexPairs ChromatogramPeak.intensity c.peaks 0)
        strictWeak_pairGreater
      have h2 : ((S.sort pairGreater (indexPairs ChromatogramPeak.intensity c.peaks 0)).map
          Prod.fst).Pairwise (fun x y => y ≤ x) := by
        rw [List.pairwise_map]
        exact hs.imp (fun {a b} hab => pairLess_false_fst b a hab)
      rw [← hk, List.pairwise_map] at h2
      exact h2

theorem sortByIntensity_isSome (S : StdSort) (c : MSChromatogram) (reverse : Bool)
    (ha : ArraysAligned c) : ∃ c', sortByIntensity S c reverse = some c' := by
  unfold sortByIntensity
  split
  · split <;> exact ⟨_, rfl⟩
  · split
    · exact applySorting_isSome c ChromatogramPeak.intensity _ (S.perm _ _) ha
    · exact applySorting_isSome c ChromatogramPeak.intensity _ (S.perm _ _) ha

/-- The index-based branch keeps the correspondence between peaks and array entries when the
arrays are aligned with the peaks. -/
theorem applySorting_keepsCorrespondence (c c' : MSChromatogram) (key : ChromatogramPeak → ℚ)
    (si : List (ℚ × Nat)) (h : SortedIndices key c.peaks si) (ha : ArraysAligned c)
    (happ : applySorting c si = some c') : KeepsCorrespondence c c' := by
  unfold applySorting at happ
  split at happ
  · next tmp f s i h1 h2 h3 h4 =>
    simp only [Option.some.injEq] at happ
    subst happ
    refine ⟨si.map Prod.snd, h.snd_perm, ?_, ?_, ?_, ?_⟩
    · have := (gather_eq_some _ _ _).mp h1
      simpa using this
    · exact reindexAll_reindexed si _ _ _ h.length_eq ha.1 h2
    · exact reindexAll_reindexed si _ _ _ h.length_eq ha.2.1 h3
    · exact reindexAll_reindexed si _ _ _ h.length_eq ha.2.2 h4
  · exact absurd happ (by simp)

/-- With at least one float array and aligned arrays, `sortByPosition` completes and keeps the
correspondence between peaks and array entries. -/
theorem sortByPosition_keepsCorrespondence (S : StdSort) (c : MSChromatogram)
    (hf : c.float_data_arrays ≠ []) (ha : ArraysAligned c) :
    ∃ c', sortByPosition S c = some c' ∧ KeepsCorrespondence c c' := by
  obtain ⟨c', hc⟩ := sortByPosition_isSome S c ha
  refine ⟨c', hc, ?_⟩
  unfold sortByPosition at hc
  have : c.float_data_arrays.isEmpty = false := by
    cases hfa : c.float_data_arrays with
    | nil => exact absurd hfa hf
    | cons _ _ => rfl
  rw [this] at hc
  exact applySorting_keepsCorrespondence c c' ChromatogramPeak.rt _ (S.perm _ _) ha hc

/-- Outside the in-place branch and with aligned arrays, `sortByIntensity` completes and keeps
the correspondence between peaks and array entries. -/
theorem sortByIntensity_keepsCorrespondence (S : StdSort) (c : MSChromatogram) (reverse : Bool)
    (hf : (c.float_data_arrays.isEmpty && !c.string_data_arrays.isEmpty
      && !c.integer_data_arrays.isEmpty) = false) (ha : ArraysAligned c) :
    ∃ c', sortByIntensity S c reverse = some c' ∧ KeepsCorrespondence c c' := by
  obtain ⟨c', hc⟩ := sortByIntensity_isSome S c reverse ha
  refine ⟨c', hc, ?_⟩
  unfold sortByIntensity at hc
  rw [hf] at hc
  cases reverse
  · exact applySorting_keepsCorrespondence c c' ChromatogramPeak.intensity _ (S.perm _ _) ha hc
  · exact applySorting_keepsCorrespondence c c' ChromatogramPeak.intensity _ (S.perm _ _) ha hc

/-! ## The claims on sorting -/

/-- C1 (defect of the code): `sortByPosition` takes the in-place branch as soon as the float
set is empty, also when string or integer arrays are present. On `unsortedWithStrings`, whose
only array has as many entries as there are peaks, every conforming `std::sort` swaps the two
peaks while the string array stays as it was, so no rearrangement of the indices explains both:
the correspondence between peaks and array entries is broken. -/
theorem sortByPosition_breaks_correspondence (S : StdSort) :
    ArraysAligned unsortedWithStrings ∧
    sortByPosition S unsortedWithStrings
      = some { unsortedWithStrings with peaks := [⟨1, 20⟩, ⟨2, 10⟩] } ∧
    ¬ KeepsCorrespondence unsortedWithStrings
        { unsortedWithStrings with peaks := [⟨1, 20⟩, ⟨2, 10⟩] } := by
  refine ⟨?_, ?_, ?_⟩
  · simp [ArraysAligned, unsortedWithStrings]
  · have h := S.sort_pair ChromatogramPeak.PositionLess strictWeak_PositionLess
      ⟨2, 10⟩ ⟨1, 20⟩ (by simp [ChromatogramPeak.PositionLess])
    simp [sortByPosition, unsortedWithStrings, h]
  · rintro ⟨s, hp, hpk, -, hs, -⟩
    have hl := hp.length_eq
    match s, hl with
    | [i, j], _ =>
      have hi : i ∈ List.range 2 := hp.subset (by simp)
      simp only [unsortedWithStrings, List.forall₂_cons, List.forall₂_nil_left_iff,
        Reindexed] at hs
      simp [unsortedWithStrings] at hpk hs
      simp only [List.mem_range] at hi
      interval_cases i
      · simp at hpk
      · simp at hs

/-- C2: for every chromatogram, whenever `sortByPosition` completes, the peaks are
non-decreasing by position and `isSorted()` returns true; and it does complete whenever the
float set is empty or every non-empty meta data array has as many entries as there are peaks
(otherwise the index-based branch may read past the end of an array). -/
theorem sortByPosition_isSorted (S : StdSort) (c : MSChromatogram) :
    ((c.float_data_arrays = [] ∨ ArraysAligned c) → ∃ c', sortByPosition S c = some c') ∧
    (∀ c', sortByPosition S c = some c' →
      c'.peaks.Pairwise (fun a b => a.rt ≤ b.rt) ∧ c'.isSorted = true) := by
  refine ⟨?_, ?_⟩
  · rintro (h | h)
    · exact ⟨_, by rw [sortByPosition, h]; rfl⟩
    · exact sortByPosition_isSome S c h
  · intro c' h
    have hs := (sortByPosition_sorted S c c' h).2
    exact ⟨hs, (isSortedFrom_iff c'.peaks).mpr hs⟩

/-- Witness for C2: on `threeWithArrays` the call completes and the result is sorted. -/
theorem sortByPosition_isSorted_witness :
    ArraysAligned threeWithArrays ∧
    sortByPosition insertionStdSort threeWithArrays = some threeByPosition ∧
    threeByPosition.isSorted = true :=
  ⟨by simp [ArraysAligned, threeWithArrays], by decide,
    ((sortByPosition_isSorted insertionStdSort threeWithArrays).2 threeByPosition
      (by decide)).2⟩

/-- C3 (defect of the code): `sortByIntensity` takes the in-place branch exactly when the float
set is empty and both the string set and the integer set are non-empty. On
`unsortedWithStringsAndInts`, whose arrays have as many entries as there are peaks, every
conforming `std::sort` swaps the two peaks while both arrays stay as they were: the
rearrangement of the peaks is not applied to the arrays. -/
theorem sortByIntensity_breaks_correspondence (S : StdSort) :
    ArraysAligned unsortedWithStringsAndInts ∧
    sortByIntensity S unsortedWithStringsAndInts false
      = some { unsortedWithStringsAndInts with peaks := [⟨1, 1⟩, ⟨0, 2⟩] } ∧
    ¬ KeepsCorrespondence unsortedWithStringsAndInts
        { unsortedWithStringsAndInts with peaks := [⟨1, 1⟩, ⟨0, 2⟩] } := by
  refine ⟨?_, ?_, ?_⟩
  · simp [ArraysAligned, unsortedWithStringsAndInts]
  · have h := S.sort_pair ChromatogramPeak.IntensityLess strictWeak_IntensityLess
      ⟨0, 2⟩ ⟨1, 1⟩ (by simp [ChromatogramPeak.IntensityLess])
    simp [sortByIntensity, unsortedWithStringsAndInts, h]
  · rintro ⟨s, hp, hpk, -, hs, -⟩
    have hl := hp.length_eq
    match s, hl with
    | [i, j], _ =>
      have hi : i ∈ List.range 2 := hp.subset (by simp)
      simp only [unsortedWithStringsAndInts, List.forall₂_cons, List.forall₂_nil_left_iff,
        Reindexed] at hs
      simp [unsortedWithStringsAndInts] at hpk hs
      simp only [List.mem_range] at hi
      interval_cases i
      · simp at hpk
      · simp at hs

/-- C4: for every chromatogram and both values of `reverse`, whenever `sortByIntensity`
completes, the new peak sequence is a permutation of the old one, non-decreasing in intensity
when `reverse` is false and non-increasing when it is true; and it does complete whenever every
non-empty meta data array has as many entries as there are peaks. -/
theorem sortByIntensity_perm_sorted (S : StdSort) (c : MSChromatogram) (reverse : Bool) :
    (ArraysAligned c → ∃ c', sortByIntensity S c reverse = some c') ∧
    (∀ c', sortByIntensity S c reverse = some c' →
      c'.peaks.Perm c.peaks ∧
      (reverse = false → c'.peaks.Pairwise (fun a b => a.intensity ≤ b.intensity)) ∧
      (reverse = true → c'.peaks.Pairwise (fun a b => b.intensity ≤ a.intensity))) :=
  ⟨sortByIntensity_isSome S c reverse, fun c' h => sortByIntensity_sorted S c c' reverse h⟩

/-- Witness for C4: on `threeWithArrays` both calls complete; the ascending result is a
permutation of the peaks in non-decreasing order of intensity, the descending one in
non-increasing order. -/
theorem sortByIntensity_perm_sorted_witness :
    ArraysAligned threeWithArrays ∧
    sortByIntensity insertionStdSort threeWithArrays false = some threeByIntensity ∧
    sortByIntensity insertionStdSort threeWithArrays true = some threeByPosition ∧
    threeByIntensity.peaks.Perm threeWithArrays.peaks ∧
    threeByIntensity.peaks.Pairwise (fun a b => a.intensity ≤ b.intensity) ∧
    threeByPosition.peaks.Pairwise (fun a b => b.intensity ≤ a.intensity) :=
  have h := (sortByIntensity_perm_sorted insertionStdSort threeWithArrays false).2
    threeByIntensity (by decide)
  have h' := (sortByIntensity_perm_sorted insertionStdSort threeWithArrays true).2
    threeByPosition (by decide)
  ⟨by simp [ArraysAligned, threeWithArrays], by decide, by decide, h.1, h.2.1 rfl, h'.2.2 rfl⟩

end MSChromatogram

/-! ## Lemmas on the lower and the upper bound -/

theorem lowerBoundScan_le (l : List ChromatogramPeak) (rt : ℚ) :
    lowerBoundScan l rt ≤ l.length := by
  induction l with
  | nil => simp [lowerBoundScan]
  | cons p ps ih =>
    rw [lowerBoundScan]
    split
    · simp only [List.length_cons]; omega
    · omega

/-- Every peak in front of the offset of the Returns clause lies before the target. -/
theorem lt_of_lt_lowerBoundScan (l : List ChromatogramPeak) (rt : ℚ) (j : Nat)
    (hj : j < lowerBoundScan l rt) : (l.getD j default).rt < rt := by
  induction l generalizing j with
  | nil => simp [lowerBoundScan] at hj
  | cons p ps ih =>
    rw [lowerBoundScan] at hj
    split at hj
    · next hp =>
      cases j with
      | zero => simpa using hp
      | succ j =>
        simp only [List.getD_cons_succ]
        exact ih j (by omega)
    · omega

/-- The peak at the offset of the Returns clause, when there is one, does not lie before the
target. -/
theorem le_at_lowerBoundScan (l : List ChromatogramPeak) (rt : ℚ)
    (h : lowerBoundScan l rt < l.length) : rt ≤ (l.getD (lowerBoundScan l rt) default).rt := by
  induction l with
  | nil => simp at h
  | cons p ps ih =>
    rw [lowerBoundScan] at h ⊢
    split
    · next hp =>
      rw [if_pos hp] at h
      simp only [List.getD_cons_succ]
      exact ih (by simpa using h)
    · next hp =>
      simpa using hp

theorem getD_rt_mono (l : List ChromatogramPeak) (hs : l.Pairwise (fun a b => a.rt ≤ b.rt))
    (i j : Nat) (hij : i ≤ j) (hj : j < l.length) :
    (l.getD i default).rt ≤ (l.getD j default).rt := by
  rcases Nat.eq_or_lt_of_le hij with rfl | hlt
  · exact le_refl _
  · have hi : i < l.length := by omega
    have := (List.pairwise_iff_getElem.mp hs) i j hi hj hlt
    simpa [List.getD_eq_getElem?_getD, List.getElem?_eq_getElem hi,
      List.getElem?_eq_getElem hj] using this

theorem lowerBoundScan_eq_length (l : List ChromatogramPeak) (rt : ℚ)
    (h : ∀ p ∈ l, p.rt < rt) : lowerBoundScan l rt = l.length := by
  induction l with
  | nil => rfl
  | cons p ps ih =>
    rw [lowerBoundScan, if_pos (h p (List.mem_cons_self _ _)),
      ih (fun q hq => h q (List.mem_cons_of_mem _ hq))]
    rfl

theorem upperBoundScan_le (l : List ChromatogramPeak) (rt : ℚ) :
    upperBoundScan l rt ≤ l.length := by
  induction l with
  | nil => simp [upperBoundScan]
  | cons p ps ih =>
    rw [upperBoundScan]
    split
    · omega
    · simp only [List.length_cons]; omega

/-- No peak in front of the offset of the Returns clause lies after the target. -/
theorem le_of_lt_upperBoundScan (l : List ChromatogramPeak) (rt : ℚ) (j : Nat)
    (hj : j < upperBoundScan l rt) : (l.getD j default).rt ≤ rt := by
  induction l generalizing j with
  | nil => simp [upperBoundScan] at hj
  | cons p ps ih =>
    rw [upperBoundScan] at hj
    split at hj
    · omega
    · next hp =>
      cases j with
      | zero => simpa using hp
      | succ j =>
        simp only [List.getD_cons_succ]
        exact ih j (by omega)

/-- The peak at the offset of the Returns clause, when there is one, lies after the target. -/
theorem lt_at_upperBoundScan (l : List ChromatogramPeak) (rt : ℚ)
    (h : upperBoundScan l rt < l.length) : rt < (l.getD (upperBoundScan l rt) default).rt := by
  induction l with
  | nil => simp at h
  | cons p ps ih =>
    rw [upperBoundScan] at h ⊢
    split
    · next hp => simpa using hp
    · next hp =>
      rw [if_neg hp] at h
      simp only [List.getD_cons_succ]
      exact ih (by simpa using h)

theorem lowerBoundScan_unique (l : List ChromatogramPeak) (rt : ℚ) (r : Nat)
    (hr : r ≤ l.length) (h1 : ∀ j, j < r → (l.getD j default).rt < rt)
    (h2 : ∀ j, r ≤ j → j < l.length → rt ≤ (l.getD j default).rt) :
    r = lowerBoundScan l rt := by
  have hle := lowerBoundScan_le l rt
  rcases Nat.lt_trichotomy r (lowerBoundScan l rt) with h | h | h
  · have a := lt_of_lt_lowerBoundScan l rt r h
    have b := h2 r (le_refl _) (by omega)
    exact absurd a (not_lt.mpr b)
  · exact h
  · have a := h1 _ h
    have b := le_at_lowerBoundScan l rt (by omega)
    exact absurd a (not_lt.mpr b)

theorem upperBoundScan_unique (l : List ChromatogramPeak) (rt : ℚ) (r : Nat)
    (hr : r ≤ l.length) (h1 : ∀ j, j < r → (l.getD j default).rt ≤ rt)
    (h2 : ∀ j, r ≤ j → j < l.length → rt < (l.getD j default).rt) :
    r = upperBoundScan l rt := by
  have hle := upperBoundScan_le l rt
  rcases Nat.lt_trichotomy r (upperBoundScan l rt) with h | h | h
  · have a := le_of_lt_upperBoundScan l rt r h
    have b := h2 r (le_refl _) (by omega)
    exact absurd b (not_lt.mpr a)
  · exact h
  · have a := h1 _ h
    have b := lt_at_upperBoundScan l rt (by omega)
    exact absurd b (not_lt.mpr a)

theorem lowerBoundSearch_eq (l : List ChromatogramPeak) (rt : ℚ)
    (hs : l.Pairwise (fun a b => a.rt ≤ b.rt)) (fuel first len : Nat)
    (hf : len ≤ fuel) (hn : first + len ≤ l.length)
    (h1 : ∀ j, j < first → (l.getD j default).rt < rt)
    (h2 : ∀ j, first + len ≤ j → j < l.length → rt ≤ (l.getD j default).rt) :
    lowerBoundSearch l rt fuel first len = lowerBoundScan l rt := by
  induction fuel generalizing first len with
  | zero =>
    have : len = 0 := by omega
    subst this
    exact lowerBoundScan_unique l rt first (by omega) h1 (by simpa using h2)
  | succ fuel ih =>
    rw [lowerBoundSearch]
    by_cases h0 : len = 0
    · rw [if_pos h0]
      subst h0
      exact lowerBoundScan_unique l rt first (by omega) h1 (by simpa using h2)
    · rw [if_neg h0]
      have hhalf : len / 2 < len := Nat.div_lt_self (Nat.pos_of_ne_zero h0) (by decide)
      split
      · next hmid =>
        apply ih
        · omega
        · omega
        · intro j hj
          have := getD_rt_mono l hs j (first + len / 2) (by omega) (by omega)
          exact lt_of_le_of_lt this hmid
        · intro j hj hjn
          exact h2 j (by omega) hjn
      · next hmid =>
        apply ih
        · omega
        · omega
        · exact h1
        · intro j hj hjn
          have := getD_rt_mono l hs (first + len / 2) j hj hjn
          exact le_trans (not_lt.mp hmid) this

theorem upperBoundSearch_eq (l : List ChromatogramPeak) (rt : ℚ)
    (hs : l.Pairwise (fun a b => a.rt ≤ b.rt)) (fuel first len : Nat)
    (hf : len ≤ fuel) (hn : first + len ≤ l.length)
    (h1 : ∀ j, j < first → (l.getD j default).rt ≤ rt)
    (h2 : ∀ j, first + len ≤ j → j < l.length → rt < (l.getD j default).rt) :
    upperBoundSearch l rt fuel first len = upperBoundScan l rt := by
  induction fuel generalizing first len with
  | zero =>
    have : len = 0 := by omega
    subst this
    exact upperBoundScan_unique l rt first (by omega) h1 (by simpa using h2)
  | succ fuel ih =>
    rw [upperBoundSearch]
    by_cases h0 : len = 0
    · rw [if_pos h0]
      subst h0
      exact upperBoundScan_unique l rt first (by omega) h1 (by simpa using h2)
    · rw [if_neg h0]
      have hhalf : len / 2 < len := Nat.div_lt_self (Nat.pos_of_ne_zero h0) (by decide)
      split
      · next hmid =>
        apply ih
        · omega
        · omega
        · exact h1
        · intro j hj hjn
          have := getD_rt_mono l hs (first + len / 2) j hj hjn
          exact lt_of_lt_of_le hmid this
      · next hmid =>
        apply ih
        · omega
        · omega
        · intro j hj
          have := getD_rt_mono l hs j (first + len / 2) (by omega) (by omega)
          exact le_trans this (not_lt.mp hmid)
        · intro j hj hjn
          exact h2 j (by omega) hjn

/-- On a range in position order the halving searches return what the Returns clauses of the
C++ standard say. -/
theorem halving_search_agrees (l : List ChromatogramPeak) (rt : ℚ)
    (hs : l.Pairwise (fun a b => a.rt ≤ b.rt)) :
    lower_bound l rt = lowerBoundScan l rt ∧ upper_bound l rt = upperBoundScan l rt :=
  ⟨lowerBoundSearch_eq l rt hs _ 0 _ (le_refl _) (by omega) (fun j hj => by omega)
      (fun j hj hjn => by omega),
    upperBoundSearch_eq l rt hs _ 0 _ (le_refl _) (by omega) (fun j hj => by omega)
      (fun j hj hjn => by omega)⟩

/-- The halving search stays within its range, in position order or not. -/
theorem lowerBoundSearch_le (l : List ChromatogramPeak) (rt : ℚ) (fuel first len : Nat) :
    lowerBoundSearch l rt fuel first len ≤ first + len := by
  induction fuel generalizing first len with
  | zero => rw [lowerBoundSearch]; omega
  | succ fuel ih =>
    rw [lowerBoundSearch]
    by_cases h0 : len = 0
    · rw [if_pos h0]; omega
    · rw [if_neg h0]
      have hhalf : len / 2 < len := Nat.div_lt_self (Nat.pos_of_ne_zero h0) (by decide)
      split
      · have := ih (first + len / 2 + 1) (len - len / 2 - 1)
        omega
      · have := ih first (len / 2)
        omega

theorem upperBoundSearch_le (l : List ChromatogramPeak) (rt : ℚ) (fuel first len : Nat) :
    upperBoundSearch l rt fuel first len ≤ first + len := by
  induction fuel generalizing first len with
  | zero => rw [upperBoundSearch]; omega
  | succ fuel ih =>
    rw [upperBoundSearch]
    by_cases h0 : len = 0
    · rw [if_pos h0]; omega
    · rw [if_neg h0]
      have hhalf : len / 2 < len := Nat.div_lt_self (Nat.pos_of_ne_zero h0) (by decide)
      split
      · have := ih first (len / 2)
        omega
      · have := ih (first + len / 2 + 1) (len - len / 2 - 1)
        omega

/-- The lower bound is an offset of the vector, in position order or not. -/
theorem lower_bound_le (l : List ChromatogramPeak) (rt : ℚ) : lower_bound l rt ≤ l.length := by
  have := lowerBoundSearch_le l rt l.length 0 l.length
  unfold lower_bound
  omega

theorem upper_bound_le (l : List ChromatogramPeak) (rt : ℚ) : upper_bound l rt ≤ l.length := by
  have := upperBoundSearch_le l rt l.length 0 l.length
  unfold upper_bound
  omega

/-- Every peak in front of the lower bound of a range in position order lies before the
target. -/
theorem lt_of_lt_lower_bound (l : List ChromatogramPeak) (rt : ℚ)
    (hs : l.Pairwise (fun a b => a.rt ≤ b.rt)) (j : Nat)
    (hj : j < lower_bound l rt) : (l.getD j default).rt < rt := by
  rw [(halving_search_agrees l rt hs).1] at hj
  exact lt_of_lt_lowerBoundScan l rt j hj

/-- The peak at the lower bound of a range in position order, when there is one, does not lie
before the target. -/
theorem le_at_lower_bound (l : List ChromatogramPeak) (rt : ℚ)
    (hs : l.Pairwise (fun a b => a.rt ≤ b.rt))
    (h : lower_bound l rt < l.length) : rt ≤ (l.getD (lower_bound l rt) default).rt := by
  rw [(halving_search_agrees l rt hs).1] at h ⊢
  exact le_at_lowerBoundScan l rt h

theorem lower_bound_eq_length (l : List ChromatogramPeak) (rt : ℚ)
    (hs : l.Pairwise (fun a b => a.rt ≤ b.rt))
    (h : ∀ p ∈ l, p.rt < rt) : lower_bound l rt = l.length := by
  rw [(halving_search_agrees l rt hs).1]
  exact lowerBoundScan_eq_length l rt h

/-- No peak in front of the upper bound of a range in position order lies after the target. -/
theorem le_of_lt_upper_bound (l : List ChromatogramPeak) (rt : ℚ)
    (hs : l.Pairwise (fun a b => a.rt ≤ b.rt)) (j : Nat)
    (hj : j < upper_bound l rt) : (l.getD j default).rt ≤ rt := by
  rw [(halving_search_agrees l rt hs).2] at hj
  exact le_of_lt_upperBoundScan l rt j hj

/-- The peak at the upper bound of a range in position order, when there is one, lies after
the target. -/
theorem lt_at_upper_bound (l : List ChromatogramPeak) (rt : ℚ)
    (hs : l.Pairwise (fun a b => a.rt ≤ b.rt))
    (h : upper_bound l rt < l.length) : rt < (l.getD (upper_bound l rt) default).rt := by
  rw [(halving_search_agrees l rt hs).2] at h ⊢
  exact lt_at_upperBoundScan l rt h

/-! ## Lemmas on the rounding of doubles -/

theorem floor_le_roundHalfEven (x : ℚ) : ⌊x⌋ ≤ roundHalfEven x := by
  unfold roundHalfEven
  split_ifs <;> omega

theorem roundHalfEven_le_floor_add_one (x : ℚ) : roundHalfEven x ≤ ⌊x⌋ + 1 := by
  unfold roundHalfEven
  split_ifs <;> omega

theorem roundHalfEven_intCast (n : ℤ) : roundHalfEven (n : ℚ) = n := by
  unfold roundHalfEven
  simp

theorem roundHalfEven_mono {x y : ℚ} (h : x ≤ y) : roundHalfEven x ≤ roundHalfEven y := by
  have hf : ⌊x⌋ ≤ ⌊y⌋ := Int.floor_mono h
  rcases lt_or_eq_of_le hf with hlt | heq
  · calc roundHalfEven x ≤ ⌊x⌋ + 1 := roundHalfEven_le_floor_add_one x
      _ ≤ ⌊y⌋ := hlt
      _ ≤ roundHalfEven y := floor_le_roundHalfEven y
  · unfold roundHalfEven
    rw [← heq]
    have hxy : x - ⌊x⌋ ≤ y - ⌊x⌋ := by linarith
    split_ifs <;> first | omega | (exfalso; linarith)

theorem two_pow_mul_zpow (k : ℕ) (e f : ℤ) (h : e + k = f) :
    (((2 ^ k : ℤ) : ℚ)) * 2 ^ e = 2 ^ f := by
  rw [← h, zpow_add₀ (by norm_num : (2 : ℚ) ≠ 0), zpow_natCast]
  push_cast
  ring

theorem ulp_pos (y : ℚ) : 0 < ulp y := zpow_pos (by norm_num) _

theorem binade_mono {x y : ℚ} (hx : 0 < x) (h : x ≤ y) : binade x ≤ binade y :=
  max_le_max (Int.log_mono_right hx h) (le_refl _)

theorem lt_two_zpow_binade (y : ℚ) : y < 2 ^ (binade y + 1) := by
  have h := Int.lt_zpow_succ_log_self (b := 2) (by norm_num) y
  refine lt_of_lt_of_le h ?_
  have : Int.log 2 y + 1 ≤ binade y + 1 := by
    unfold binade; have := le_max_left (Int.log 2 y) (-1022); omega
  exact_mod_cast zpow_le_zpow_right₀ (by norm_num : (1 : ℚ) ≤ 2) this

theorem two_zpow_binade_le (y : ℚ) (hy : 0 < y) (h : -1022 < binade y) : 2 ^ binade y ≤ y := by
  have e : binade y = Int.log 2 y := by
    unfold binade at h ⊢
    rcases max_cases (Int.log 2 y) (-1022) with ⟨h1, _⟩ | ⟨h1, _⟩
    · exact h1
    · rw [h1] at h; exact absurd h (lt_irrefl _)
  rw [e]
  exact_mod_cast Int.zpow_log_le_self (b := 2) (by norm_num) hy

theorem roundPos_nonneg (y : ℚ) (hy : 0 ≤ y) : 0 ≤ roundPos y := by
  unfold roundPos
  refine le_min ?_ (by positivity)
  have h0 : (0 : ℤ) ≤ roundHalfEven (y / ulp y) := by
    have := roundHalfEven_mono (div_nonneg hy (ulp_pos y).le)
    rw [show roundHalfEven 0 = 0 from roundHalfEven_intCast 0] at this
    exact this
  have : (0 : ℚ) ≤ (roundHalfEven (y / ulp y) : ℚ) := by exact_mod_cast h0
  exact mul_nonneg this (ulp_pos y).le

theorem roundPos_zero : roundPos 0 = 0 := by
  unfold roundPos
  simp [show roundHalfEven 0 = 0 from roundHalfEven_intCast 0]

/-- Rounding to the nearest double is monotone on the non-negative numbers. Within one binade
it is the rounding of the significand; numbers of different binades are separated by a power
of two, which is a double of both binades. -/
theorem roundPos_mono {x y : ℚ} (hx : 0 ≤ x) (h : x ≤ y) : roundPos x ≤ roundPos y := by
  rcases eq_or_lt_of_le hx with h0 | hpos
  · rw [← h0, roundPos_zero]; exact roundPos_nonneg y (le_trans hx h)
  have hy : 0 < y := lt_of_lt_of_le hpos h
  have hb := binade_mono hpos h
  unfold roundPos
  refine min_le_min ?_ (le_refl _)
  rcases eq_or_lt_of_le hb with heq | hlt
  · have hu : ulp x = ulp y := by unfold ulp; rw [heq]
    rw [hu]
    have := roundHalfEven_mono (div_le_div_of_nonneg_right h (ulp_pos y).le)
    have h2 : (roundHalfEven (x / ulp y) : ℚ) ≤ roundHalfEven (y / ulp y) := by
      exact_mod_cast this
    exact mul_le_mul_of_nonneg_right h2 (ulp_pos y).le
  · have ex : (((2 ^ 53 : ℤ) : ℚ)) * ulp x = 2 ^ (binade x + 1) :=
      two_pow_mul_zpow _ _ _ (by push_cast; ring)
    have ey : (((2 ^ 52 : ℤ) : ℚ)) * ulp y = 2 ^ (binade y) :=
      two_pow_mul_zpow _ _ _ (by push_cast; ring)
    have h1 : (roundHalfEven (x / ulp x) : ℚ) * ulp x ≤ 2 ^ (binade x + 1) := by
      have hx1 : x / ulp x ≤ ((2 ^ 53 : ℤ) : ℚ) := by
        rw [div_le_iff₀ (ulp_pos x), ex]
        exact (lt_two_zpow_binade x).le
      have := roundHalfEven_mono hx1
      rw [roundHalfEven_intCast] at this
      have h2 : (roundHalfEven (x / ulp x) : ℚ) ≤ ((2 ^ 53 : ℤ) : ℚ) := by exact_mod_cast this
      rw [← ex]
      exact mul_le_mul_of_nonneg_right h2 (ulp_pos x).le
    have h2 : (2 : ℚ) ^ binade y ≤ (roundHalfEven (y / ulp y) : ℚ) * ulp y := by
      have hby : -1022 < binade y := by
        have : -1022 ≤ binade x := le_max_right _ _
        omega
      have hy1 : (((2 ^ 52 : ℤ) : ℚ)) ≤ y / ulp y := by
        rw [le_div_iff₀ (ulp_pos y), ey]
        exact two_zpow_binade_le y hy hby
      have := roundHalfEven_mono hy1
      rw [roundHalfEven_intCast] at this
      have h3 : ((2 ^ 52 : ℤ) : ℚ) ≤ (roundHalfEven (y / ulp y) : ℚ) := by exact_mod_cast this
      rw [← ey]
      exact mul_le_mul_of_nonneg_right h3 (ulp_pos y).le
    have h3 : (2 : ℚ) ^ (binade x + 1) ≤ 2 ^ binade y :=
      zpow_le_zpow_right₀ (by norm_num : (1 : ℚ) ≤ 2) (by omega)
    exact le_trans h1 (le_trans h3 h2)

theorem roundToDouble_zero : roundToDouble 0 = 0 := by
  simp [roundToDouble, roundPos_zero]

theorem roundToDouble_neg (y : ℚ) : roundToDouble (-y) = -roundToDouble y := by
  unfold roundToDouble
  rcases lt_trichotomy y 0 with h | h | h
  · rw [if_pos (by linarith), if_neg (by linarith)]; simp
  · subst h; simp [roundPos_zero]
  · rw [if_neg (by linarith), if_pos (by linarith)]; simp

/-- Rounding to the nearest double is monotone. -/
theorem roundToDouble_mono {x y : ℚ} (h : x ≤ y) : roundToDouble x ≤ roundToDouble y := by
  unfold roundToDouble
  by_cases hx : 0 ≤ x
  · rw [if_pos hx, if_pos (le_trans hx h)]
    exact roundPos_mono hx h
  · rw [if_neg hx]
    by_cases hy : 0 ≤ y
    · rw [if_pos hy]
      have := roundPos_nonneg (-x) (by linarith)
      have := roundPos_nonneg y hy
      linarith
    · rw [if_neg hy]
      have := roundPos_mono (x := -y) (y := -x) (by linarith) (by linarith)
      linarith

theorem roundToDouble_nonneg {y : ℚ} (h : 0 ≤ y) : 0 ≤ roundToDouble y := by
  have := roundToDouble_mono h
  rwa [roundToDouble_zero] at this

/-- The absolute value of a rounded number is the rounded absolute value. -/
theorem abs_roundToDouble (y : ℚ) : |roundToDouble y| = roundToDouble |y| := by
  rcases le_total 0 y with h | h
  · rw [abs_of_nonneg h, abs_of_nonneg (roundToDouble_nonneg h)]
  · rw [abs_of_nonpos h, roundToDouble_neg]
    have : roundToDouble y ≤ 0 := by
      have := roundToDouble_mono h
      rwa [roundToDouble_zero] at this
    rw [abs_of_nonpos this]

theorem binade_eq (y : ℚ) (e : ℤ) (he : -1022 ≤ e) (h1 : 2 ^ e ≤ y) (h2 : y < 2 ^ (e + 1)) :
    binade y = e := by
  have hy : 0 < y := lt_of_lt_of_le (zpow_pos (by norm_num) e) h1
  have hl : Int.log 2 y = e := by
    apply le_antisymm
    · have := (Int.lt_zpow_iff_log_lt (b := 2) (by norm_num) hy).mp (by exact_mod_cast h2)
      omega
    · exact (Int.zpow_le_iff_le_log (b := 2) (by norm_num) hy).mp (by exact_mod_cast h1)
  unfold binade
  rw [hl]
  exact max_eq_left he

/-- The double nearest to a positive number of the binade `e`. -/
theorem roundToDouble_of_pos (y : ℚ) (e : ℤ) (he : -1022 ≤ e) (h1 : 2 ^ e ≤ y)
    (h2 : y < 2 ^ (e + 1)) :
    roundToDouble y
      = min ((roundHalfEven (y / 2 ^ (e - 52)) : ℚ) * 2 ^ (e - 52)) (2 ^ 1024) := by
  have hy : 0 < y := lt_of_lt_of_le (zpow_pos (by norm_num) e) h1
  unfold roundToDouble roundPos ulp
  rw [if_pos hy.le, binade_eq y e he h1 h2]

/-- The double nearest to a negative number whose absolute value is of the binade `e`. -/
theorem roundToDouble_of_neg (y : ℚ) (e : ℤ) (he : -1022 ≤ e) (h1 : 2 ^ e ≤ -y)
    (h2 : -y < 2 ^ (e + 1)) :
    roundToDouble y
      = -min ((roundHalfEven (-y / 2 ^ (e - 52)) : ℚ) * 2 ^ (e - 52)) (2 ^ 1024) := by
  have hy : 0 < -y := lt_of_lt_of_le (zpow_pos (by norm_num) e) h1
  unfold roundToDouble roundPos ulp
  rw [if_neg (by linarith), binade_eq (-y) e he h1 h2]

/-! ## Lemmas on `findNearest` -/

namespace MSChromatogram

theorem findNearest_eq (c : MSChromatogram) (rt : ℚ) (hne : c.peaks ≠ []) :
    findNearest c rt =
      if c.RTBegin rt = 0 then .ok 0
      else if c.RTBegin rt = c.peaks.length then .ok (c.peaks.length - 1)
      else if fabsDiff (c.rtAt (c.RTBegin rt)) rt < fabsDiff (c.rtAt (c.RTBegin rt - 1)) rt then
        .ok (c.RTBegin rt)
      else .ok (c.RTBegin rt - 1) := by
  unfold findNearest
  have : c.peaks.isEmpty = false := by
    cases h : c.peaks with
    | nil => exact absurd h hne
    | cons _ _ => rfl
  simp [this]

/-- The computed distance is the double nearest to the exact distance. -/
theorem fabsDiff_eq (x rt : ℚ) : fabsDiff x rt = roundToDouble |x - rt| :=
  abs_roundToDouble _

/-- A peak that is at most as far from the target as another peak has at most the computed
distance of that peak. -/
theorem fabsDiff_mono {x y rt : ℚ} (h : |x - rt| ≤ |y - rt|) :
    fabsDiff x rt ≤ fabsDiff y rt := by
  rw [fabsDiff_eq, fabsDiff_eq]
  exact roundToDouble_mono h

theorem roundToDouble_one : roundToDouble 1 = 1 := by
  rw [roundToDouble_of_pos _ 0 (by norm_num) (by norm_num) (by norm_num)]
  norm_num [roundHalfEven]

/-- On a chromatogram in position order the first peak is nearest to a target at or before
it, the last peak to a target beyond it, and otherwise one of the two peaks around the lower
bound is nearest, in exact distance. -/
theorem nearest_among_candidates (c : MSChromatogram) (rt : ℚ)
    (hs : c.peaks.Pairwise (fun a b => a.rt ≤ b.rt)) (j : Nat) (hj : j < c.peaks.length) :
    (c.RTBegin rt = 0 → |c.rtAt 0 - rt| ≤ |c.rtAt j - rt|) ∧
    (c.RTBegin rt = c.peaks.length →
      |c.rtAt (c.peaks.length - 1) - rt| ≤ |c.rtAt j - rt|) ∧
    (0 < c.RTBegin rt → c.RTBegin rt < c.peaks.length →
      |c.rtAt (c.RTBegin rt) - rt| ≤ |c.rtAt j - rt| ∨
      |c.rtAt (c.RTBegin rt - 1) - rt| ≤ |c.rtAt j - rt|) := by
  have hle := lower_bound_le c.peaks rt
  unfold RTBegin rtAt
  refine ⟨?_, ?_, ?_⟩
  · intro h0
    have h1 := le_at_lower_bound c.peaks rt hs (by omega)
    rw [h0] at h1
    have h2 := getD_rt_mono c.peaks hs 0 j (Nat.zero_le _) hj
    rw [abs_of_nonneg (by linarith), abs_of_nonneg (by linarith)]
    linarith
  · intro hn
    have h1 := lt_of_lt_lower_bound c.peaks rt hs (c.peaks.length - 1) (by omega)
    have h2 := lt_of_lt_lower_bound c.peaks rt hs j (by omega)
    have h3 := getD_rt_mono c.peaks hs j (c.peaks.length - 1) (by omega) (by omega)
    rw [abs_of_neg (by linarith), abs_of_neg (by linarith)]
    linarith
  · intro h0 hlt
    have ha := le_at_lower_bound c.peaks rt hs hlt
    have hb := lt_of_lt_lower_bound c.peaks rt hs (lower_bound c.peaks rt - 1) (by omega)
    by_cases hjl : j < lower_bound c.peaks rt
    · right
      have h2 := lt_of_lt_lower_bound c.peaks rt hs j hjl
      have h3 := getD_rt_mono c.peaks hs j (lower_bound c.peaks rt - 1) (by omega) (by omega)
      rw [abs_of_neg (by linarith), abs_of_neg (by linarith)]
      linarith
    · left
      have h3 := getD_rt_mono c.peaks hs (lower_bound c.peaks rt) j (by omega) hj
      rw [abs_of_nonneg (by linarith), abs_of_nonneg (by linarith)]
      linarith

/-- On a non-empty chromatogram in position order `findNearest` returns an index whose computed
distance to the target is the least one. -/
theorem findNearest_least_fabsDiff (c : MSChromatogram) (rt : ℚ) (hne : c.peaks ≠ [])
    (hs : c.isSorted = true) :
    ∃ i, findNearest c rt = .ok i ∧ i < c.peaks.length ∧
      ∀ j, j < c.peaks.length → fabsDiff (c.rtAt i) rt ≤ fabsDiff (c.rtAt j) rt := by
  have hpw := (isSortedFrom_iff c.peaks).mp hs
  have hlen : 0 < c.peaks.length := List.length_pos.mpr hne
  have hle : c.RTBegin rt ≤ c.peaks.length := lower_bound_le c.peaks rt
  rw [findNearest_eq c rt hne]
  by_cases h0 : c.RTBegin rt = 0
  · rw [if_pos h0]
    exact ⟨0, rfl, hlen, fun j hj =>
      fabsDiff_mono ((nearest_among_candidates c rt hpw j hj).1 h0)⟩
  · rw [if_neg h0]
    by_cases hn : c.RTBegin rt = c.peaks.length
    · rw [if_pos hn]
      exact ⟨c.peaks.length - 1, rfl, by omega, fun j hj =>
        fabsDiff_mono ((nearest_among_candidates c rt hpw j hj).2.1 hn)⟩
    · rw [if_neg hn]
      have key : ∀ j, j < c.peaks.length →
          fabsDiff (c.rtAt (c.RTBegin rt)) rt ≤ fabsDiff (c.rtAt j) rt ∨
          fabsDiff (c.rtAt (c.RTBegin rt - 1)) rt ≤ fabsDiff (c.rtAt j) rt := by
        intro j hj
        rcases (nearest_among_candidates c rt hpw j hj).2.2 (by omega) (by omega) with h | h
        · exact Or.inl (fabsDiff_mono h)
        · exact Or.inr (fabsDiff_mono h)
      split
      · next hcmp =>
        refine ⟨_, rfl, by omega, ?_⟩
        intro j hj
        rcases key j hj with h | h
        · exact h
        · exact le_trans (le_of_lt hcmp) h
      · next hcmp =>
        refine ⟨_, rfl, by omega, ?_⟩
        intro j hj
        rcases key j hj with h | h
        · exact le_trans (not_lt.mp hcmp) h
        · exact h

/-- On vectors that are not in position order the halving search and `findNearest` return what
the compiled code returns: on the positions 5, 1, 3 the target 2 gives the offset 2 and the
index 1, on the positions 1, 5, 0, 3 it gives the offset 3 and the index 3. -/
theorem findNearest_unsorted_examples :
    fiveOneThree.RTBegin 2 = 2 ∧ findNearest fiveOneThree 2 = .ok 1 ∧
    oneFiveZeroThree.RTBegin 2 = 3 ∧ findNearest oneFiveZeroThree 2 = .ok 3 := by
  have hb1 : fiveOneThree.RTBegin 2 = 2 := by decide
  have hb2 : oneFiveZeroThree.RTBegin 2 = 3 := by decide
  have h2 : roundToDouble 2 = 2 := by
    rw [roundToDouble_of_pos _ 1 (by norm_num) (by norm_num) (by norm_num)]
    norm_num [roundHalfEven]
  refine ⟨hb1, ?_, hb2, ?_⟩
  · have e1 : fabsDiff (fiveOneThree.rtAt 2) 2 = 1 := by
      have e : fiveOneThree.rtAt 2 - 2 = 1 := by norm_num [rtAt, fiveOneThree]
      rw [fabsDiff, e, roundToDouble_one]
      norm_num
    have e2 : fabsDiff (fiveOneThree.rtAt (2 - 1)) 2 = 1 := by
      have e : fiveOneThree.rtAt (2 - 1) - 2 = -1 := by norm_num [rtAt, fiveOneThree]
      rw [fabsDiff, e, roundToDouble_neg, roundToDouble_one]
      norm_num
    rw [findNearest_eq fiveOneThree 2 (by decide), hb1, if_neg (by decide),
      if_neg (by decide), e1, e2, if_neg (lt_irrefl _)]
  · have e1 : fabsDiff (oneFiveZeroThree.rtAt 3) 2 = 1 := by
      have e : oneFiveZeroThree.rtAt 3 - 2 = 1 := by norm_num [rtAt, oneFiveZeroThree]
      rw [fabsDiff, e, roundToDouble_one]
      norm_num
    have e2 : fabsDiff (oneFiveZeroThree.rtAt (3 - 1)) 2 = 2 := by
      have e : oneFiveZeroThree.rtAt (3 - 1) - 2 = -2 := by norm_num [rtAt, oneFiveZeroThree]
      rw [fabsDiff, e, roundToDouble_neg, h2]
      norm_num
    rw [findNearest_eq oneFiveZeroThree 2 (by decide), hb2, if_neg (by decide),
      if_neg (by decide), e1, e2, if_pos (by norm_num)]

/-! ## The claims on `findNearest` -/

/-- C5, as stated, fails: the peaks at `-2 ^ (-60)` and at 2 are in position order and both
positions are doubles. For the target 1 the search lands on the peak at 2, whose distance is 1;
the distance `1 + 2 ^ (-60)` of the peak in front is computed as the double 1 as well, the
comparison `<` of the two computed distances fails, and `findNearest` returns index 0, although
the peak at index 1 is strictly nearer. -/
theorem findNearest_nearest_counterexample :
    nearTie.peaks ≠ [] ∧ nearTie.isSorted = true ∧
    roundToDouble (nearTie.rtAt 0) = nearTie.rtAt 0 ∧
    roundToDouble (nearTie.rtAt 1) = nearTie.rtAt 1 ∧
    nearTie.RTBegin 1 = 1 ∧
    fabsDiff (nearTie.rtAt 1) 1 = 1 ∧ fabsDiff (nearTie.rtAt 0) 1 = 1 ∧
    findNearest nearTie 1 = .ok 0 ∧
    |nearTie.rtAt 1 - 1| < |nearTie.rtAt 0 - 1| ∧
    ¬ (∀ j, j < nearTie.peaks.length → |nearTie.rtAt 0 - 1| ≤ |nearTie.rtAt j - 1|) := by
  have hb : nearTie.RTBegin 1 = 1 := by
    norm_num [RTBegin, lower_bound, lowerBoundSearch, nearTie]
  have h1 : fabsDiff (nearTie.rtAt 1) 1 = 1 := by
    have e : nearTie.rtAt 1 - 1 = 1 := by norm_num [rtAt, nearTie]
    rw [fabsDiff, e, roundToDouble_one]
    norm_num
  have h0 : fabsDiff (nearTie.rtAt 0) 1 = 1 := by
    have e : nearTie.rtAt 0 - 1 = -(1 / 2 ^ 60) - 1 := by norm_num [rtAt, nearTie]
    rw [fabsDiff, e, roundToDouble_of_neg _ 0 (by norm_num) (by norm_num) (by norm_num)]
    norm_num [roundHalfEven]
  have hlt : |nearTie.rtAt 1 - 1| < |nearTie.rtAt 0 - 1| := by
    norm_num [rtAt, nearTie, abs_of_neg]
  refine ⟨by simp [nearTie], by norm_num [isSorted, isSortedFrom, nearTie], ?_, ?_, hb, h1, h0,
    ?_, hlt, ?_⟩
  · have e : nearTie.rtAt 0 = -(1 / 2 ^ 60) := by norm_num [rtAt, nearTie]
    rw [e, roundToDouble_of_neg _ (-60) (by norm_num) (by norm_num) (by norm_num)]
    norm_num [roundHalfEven]
  · have e : nearTie.rtAt 1 = 2 := by norm_num [rtAt, nearTie]
    rw [e, roundToDouble_of_pos _ 1 (by norm_num) (by norm_num) (by norm_num)]
    norm_num [roundHalfEven]
  · rw [findNearest_eq nearTie 1 (by simp [nearTie]), hb, h1]
    have e : fabsDiff (nearTie.rtAt (1 - 1)) 1 = 1 := h0
    rw [e]
    simp [nearTie]
  · intro h
    exact absurd (h 1 (by simp [nearTie])) (not_le.mpr hlt)

/-- C5, amended: on a non-empty chromatogram sorted by position, `findNearest(rt)` returns an
index of the chromatogram at which the computed distance `fabs(position - rt)`, the absolute
value of the difference rounded to a double, is the least one; a peak that is strictly nearer
to the target in exact terms has the same computed distance as the returned peak; and when
every difference `position - rt` is a double, so that no rounding takes place, no peak is
nearer to the target than the returned one. -/
theorem findNearest_least_computed_distance (c : MSChromatogram) (rt : ℚ)
    (hne : c.peaks ≠ []) (hs : c.isSorted = true) :
    ∃ i, findNearest c rt = .ok i ∧ i < c.peaks.length ∧
      (∀ j, j < c.peaks.length → fabsDiff (c.rtAt i) rt ≤ fabsDiff (c.rtAt j) rt) ∧
      (∀ j, j < c.peaks.length → |c.rtAt j - rt| < |c.rtAt i - rt| →
        fabsDiff (c.rtAt j) rt = fabsDiff (c.rtAt i) rt) ∧
      ((∀ j, j < c.peaks.length → roundToDouble (c.rtAt j - rt) = c.rtAt j - rt) →
        ∀ j, j < c.peaks.length → |c.rtAt i - rt| ≤ |c.rtAt j - rt|) := by
  obtain ⟨i, hi, hlt, hmin⟩ := findNearest_least_fabsDiff c rt hne hs
  refine ⟨i, hi, hlt, hmin, ?_, ?_⟩
  · intro j hj hnear
    exact le_antisymm (fabsDiff_mono hnear.le) (hmin j hj)
  · intro hexact j hj
    have h := hmin j hj
    unfold fabsDiff at h
    rwa [hexact i hlt, hexact j hj] at h

/-- Witness for C5 as amended: the chromatogram with positions 1, 3, 5 and the target 2, for
which the three differences -1, 1 and 3 are doubles, so that the returned peak is a nearest
one. -/
theorem findNearest_least_computed_distance_witness :
    oneThreeFive.peaks ≠ [] ∧ oneThreeFive.isSorted = true ∧
    (∀ j, j < oneThreeFive.peaks.length →
      roundToDouble (oneThreeFive.rtAt j - 2) = oneThreeFive.rtAt j - 2) ∧
    ∃ i, findNearest oneThreeFive 2 = .ok i ∧ i < oneThreeFive.peaks.length ∧
      (∀ j, j < oneThreeFive.peaks.length →
        fabsDiff (oneThreeFive.rtAt i) 2 ≤ fabsDiff (oneThreeFive.rtAt j) 2) ∧
      (∀ j, j < oneThreeFive.peaks.length →
        |oneThreeFive.rtAt i - 2| ≤ |oneThreeFive.rtAt j - 2|) :=
  have hex : ∀ j, j < oneThreeFive.peaks.length →
      roundToDouble (oneThreeFive.rtAt j - 2) = oneThreeFive.rtAt j - 2 := by
    intro j hj
    have hj3 : j < 3 := hj
    interval_cases j
    · have e : oneThreeFive.rtAt 0 - 2 = -1 := by norm_num [rtAt, oneThreeFive]
      rw [e, roundToDouble_neg, roundToDouble_one]
    · have e : oneThreeFive.rtAt 1 - 2 = 1 := by norm_num [rtAt, oneThreeFive]
      rw [e, roundToDouble_one]
    · have e : oneThreeFive.rtAt 2 - 2 = 3 := by norm_num [rtAt, oneThreeFive]
      rw [e, roundToDouble_of_pos _ 1 (by norm_num) (by norm_num) (by norm_num)]
      norm_num [roundHalfEven]
  ⟨by decide, by decide, hex,
    match findNearest_least_computed_distance oneThreeFive 2 (by decide) (by decide) with
    | ⟨i, hi, hlt, hmin, _, hexact⟩ => ⟨i, hi, hlt, hmin, hexact hex⟩⟩

/-- C6, as stated, fails: with positions 1, 3, 5 and target 2 the search lands on the interior
index 1, the peaks at 1 and 3 are both at distance 1, and `findNearest` returns 0, the
predecessor, not 1. -/
theorem findNearest_tie_counterexample :
    oneThreeFive.isSorted = true ∧ oneThreeFive.RTBegin 2 = 1 ∧
    |oneThreeFive.rtAt 1 - 2| = |oneThreeFive.rtAt 0 - 2| ∧
    findNearest oneThreeFive 2 = .ok 0 ∧ findNearest oneThreeFive 2 ≠ .ok 1 := by
  have hb : oneThreeFive.RTBegin 2 = 1 := by decide
  have ht : |oneThreeFive.rtAt 1 - 2| = |oneThreeFive.rtAt 0 - 2| := by
    norm_num [oneThreeFive, rtAt]
  have h : findNearest oneThreeFive 2 = .ok 0 := by
    rw [findNearest_eq oneThreeFive 2 (by decide), hb, if_neg (by decide), if_neg (by decide),
      if_neg (not_lt.mpr (fabsDiff_mono (le_of_eq ht.symm)))]
  refine ⟨by decide, hb, ht, h, ?_⟩
  rw [h]
  intro hc
  cases hc

/-- C6, amended: on a chromatogram sorted by position in which the lower-bound search lands on
an interior element, the found element is at or after the target and its predecessor before
it; when the two are at exactly the same absolute distance from the target, or the predecessor
is nearer, `findNearest` returns the predecessor; it returns the found element only if that one
is strictly nearer, namely exactly when the computed distance of the found element, the
absolute value of a rounded difference, is strictly less than that of the predecessor; it
returns one of the two. For positions 1, 3, 5, `findNearest(2)` returns 0. -/
theorem findNearest_tie_prefers_predecessor :
    (∀ (c : MSChromatogram) (rt : ℚ), c.isSorted = true →
      0 < c.RTBegin rt → c.RTBegin rt < c.peaks.length →
      (rt ≤ c.rtAt (c.RTBegin rt) ∧ c.rtAt (c.RTBegin rt - 1) < rt) ∧
      (|c.rtAt (c.RTBegin rt) - rt| = |c.rtAt (c.RTBegin rt - 1) - rt| →
        findNearest c rt = .ok (c.RTBegin rt - 1)) ∧
      (|c.rtAt (c.RTBegin rt - 1) - rt| < |c.rtAt (c.RTBegin rt) - rt| →
        findNearest c rt = .ok (c.RTBegin rt - 1)) ∧
      (findNearest c rt = .ok (c.RTBegin rt) →
        |c.rtAt (c.RTBegin rt) - rt| < |c.rtAt (c.RTBegin rt - 1) - rt|) ∧
      (findNearest c rt = .ok (c.RTBegin rt) ↔
        fabsDiff (c.rtAt (c.RTBegin rt)) rt < fabsDiff (c.rtAt (c.RTBegin rt - 1)) rt) ∧
      (findNearest c rt = .ok (c.RTBegin rt) ∨ findNearest c rt = .ok (c.RTBegin rt - 1))) ∧
    findNearest oneThreeFive 2 = .ok 0 := by
  have hgen : ∀ (c : MSChromatogram) (rt : ℚ), 0 < c.RTBegin rt →
      c.RTBegin rt < c.peaks.length →
      (|c.rtAt (c.RTBegin rt - 1) - rt| ≤ |c.rtAt (c.RTBegin rt) - rt| →
        findNearest c rt = .ok (c.RTBegin rt - 1)) ∧
      (findNearest c rt = .ok (c.RTBegin rt) ↔
        fabsDiff (c.rtAt (c.RTBegin rt)) rt < fabsDiff (c.rtAt (c.RTBegin rt - 1)) rt) := by
    intro c rt h0 h1
    have hne : c.peaks ≠ [] := by
      intro h; rw [h] at h1; simp at h1
    rw [findNearest_eq c rt hne, if_neg (by omega), if_neg (by omega)]
    refine ⟨?_, ?_⟩
    · intro h
      rw [if_neg (not_lt.mpr (fabsDiff_mono h))]
    · constructor
      · intro h
        by_contra hc
        rw [if_neg hc] at h
        have : c.RTBegin rt - 1 = c.RTBegin rt := by
          simpa using h
        omega
      · intro h
        rw [if_pos h]
  refine ⟨?_, ?_⟩
  · intro c rt hs h0 h1
    have hpw := (isSortedFrom_iff c.peaks).mp hs
    obtain ⟨hpred, hiff⟩ := hgen c rt h0 h1
    refine ⟨⟨le_at_lower_bound c.peaks rt hpw h1,
      lt_of_lt_lower_bound c.peaks rt hpw (c.RTBegin rt - 1) (by unfold RTBegin at h0 ⊢; omega)⟩,
      fun h => hpred (le_of_eq h.symm), fun h => hpred (le_of_lt h), ?_, hiff, ?_⟩
    · intro h
      by_contra hc
      have h2 := hpred (not_lt.mp hc)
      rw [h] at h2
      have : c.RTBegin rt = c.RTBegin rt - 1 := by
        simpa using h2
      omega
    · by_cases hc : fabsDiff (c.rtAt (c.RTBegin rt)) rt < fabsDiff (c.rtAt (c.RTBegin rt - 1)) rt
      · exact Or.inl (hiff.mpr hc)
      · right
        have hne : c.peaks ≠ [] := by
          intro h; rw [h] at h1; simp at h1
        rw [findNearest_eq c rt hne, if_neg (by omega), if_neg (by omega), if_neg hc]
  · have hb : oneThreeFive.RTBegin 2 = 1 := by decide
    have := (hgen oneThreeFive 2 (by decide) (by decide)).1
      (by norm_num [oneThreeFive, rtAt, RTBegin, lower_bound, lowerBoundSearch])
    rw [this, hb]

/-- Witness for C6 as amended: the tie at target 2 between the peaks at 1 and 3. -/
theorem findNearest_tie_prefers_predecessor_witness :
    oneThreeFive.isSorted = true ∧
    0 < oneThreeFive.RTBegin 2 ∧ oneThreeFive.RTBegin 2 < oneThreeFive.peaks.length ∧
    |oneThreeFive.rtAt (oneThreeFive.RTBegin 2) - 2|
      = |oneThreeFive.rtAt (oneThreeFive.RTBegin 2 - 1) - 2| ∧
    findNearest oneThreeFive 2 = .ok (oneThreeFive.RTBegin 2 - 1) :=
  ⟨by decide, by decide, by decide,
    by norm_num [oneThreeFive, RTBegin, lower_bound, lowerBoundSearch, rtAt],
    (findNearest_tie_prefers_predecessor.1 oneThreeFive 2 (by decide) (by decide)
      (by decide)).2.1
      (by norm_num [oneThreeFive, RTBegin, lower_bound, lowerBoundSearch, rtAt])⟩

/-- C7: `findNearest` raises the Precondition error if and only if the chromatogram has no
peaks: without peaks it raises for every target, with at least one peak it returns an index of
the chromatogram. -/
theorem findNearest_raises_iff_empty (c : MSChromatogram) (rt : ℚ) :
    ((∃ e, findNearest c rt = .error e) ↔ c.peaks = []) ∧
    (c.peaks = [] → findNearest c rt = .error
      (.Precondition "There must be at least one peak to determine the nearest peak!")) ∧
    (c.peaks ≠ [] → ∃ i, i < c.peaks.length ∧ findNearest c rt = .ok i) := by
  have hempty : c.peaks = [] → findNearest c rt = .error
      (.Precondition "There must be at least one peak to determine the nearest peak!") := by
    intro h
    simp [findNearest, h]
  have hok : c.peaks ≠ [] → ∃ i, i < c.peaks.length ∧ findNearest c rt = .ok i := by
    intro hne
    have hlen : 0 < c.peaks.length := List.length_pos.mpr hne
    have hle : c.RTBegin rt ≤ c.peaks.length := lower_bound_le c.peaks rt
    rw [findNearest_eq c rt hne]
    split
    · exact ⟨0, hlen, rfl⟩
    · split
      · exact ⟨_, by omega, rfl⟩
      · split
        · exact ⟨_, by omega, rfl⟩
        · exact ⟨_, by omega, rfl⟩
  refine ⟨⟨?_, fun h => ⟨_, hempty h⟩⟩, hempty, hok⟩
  rintro ⟨e, he⟩
  by_contra hne
  obtain ⟨i, _, hi⟩ := hok hne
  rw [hi] at he
  cases he

/-- Witness for C7: an error without peaks, an index with the peaks at 1, 3, 5. -/
theorem findNearest_raises_iff_empty_witness :
    findNearest noPeaks 4 = .error
      (.Precondition "There must be at least one peak to determine the nearest peak!") ∧
    ∃ i, i < oneThreeFive.peaks.length ∧ findNearest oneThreeFive 4 = .ok i :=
  ⟨(findNearest_raises_iff_empty noPeaks 4).2.1 rfl,
    (findNearest_raises_iff_empty oneThreeFive 4).2.2 (by decide)⟩

/-- C8: on a non-empty chromatogram sorted by position, a target at or before the first
position gives index 0 and a target beyond the last position gives the last index. For
positions 1, 3, 5: `findNearest(0) = 0`, `findNearest(6) = 2` and `findNearest(2.9) = 1`, for
the number 2.9 as well as for the double that the literal `2.9` denotes. -/
theorem findNearest_boundary :
    (∀ (c : MSChromatogram) (rt : ℚ), c.peaks ≠ [] → c.isSorted = true →
      (rt ≤ c.rtAt 0 → findNearest c rt = .ok 0) ∧
      (c.rtAt (c.peaks.length - 1) < rt → findNearest c rt = .ok (c.peaks.length - 1))) ∧
    findNearest oneThreeFive 0 = .ok 0 ∧ findNearest oneThreeFive 6 = .ok 2 ∧
    findNearest oneThreeFive 2.9 = .ok 1 ∧
    findNearest oneThreeFive (roundToDouble 2.9) = .ok 1 := by
  refine ⟨?_, ?_, ?_, ?_, ?_⟩
  · intro c rt hne hs
    have hpw := (isSortedFrom_iff c.peaks).mp hs
    have hlen : 0 < c.peaks.length := List.length_pos.mpr hne
    rw [findNearest_eq c rt hne]
    constructor
    · intro h
      have : c.RTBegin rt = 0 := by
        unfold RTBegin
        rw [(halving_search_agrees c.peaks rt hpw).1]
        unfold rtAt at h
        cases hp : c.peaks with
        | nil => rfl
        | cons p ps =>
          rw [hp] at h
          simp only [List.getD_cons_zero] at h
          rw [lowerBoundScan, if_neg (not_lt.mpr h)]
      rw [if_pos this]
    · intro h
      have hall : ∀ p ∈ c.peaks, p.rt < rt := by
        intro p hp
        obtain ⟨j, hj, rfl⟩ := List.getElem_of_mem hp
        have := getD_rt_mono c.peaks hpw j (c.peaks.length - 1) (by omega) (by omega)
        have e : (c.peaks.getD j default).rt = c.peaks[j].rt := by
          simp [List.getD_eq_getElem?_getD, List.getElem?_eq_getElem hj]
        rw [e] at this
        exact lt_of_le_of_lt this h
      have : c.RTBegin rt = c.peaks.length := lower_bound_eq_length c.peaks rt hpw hall
      rw [if_neg (by omega), if_pos this]
  · norm_num [findNearest, oneThreeFive, RTBegin, lower_bound, lowerBoundSearch, rtAt]
  · norm_num [findNearest, oneThreeFive, RTBegin, lower_bound, lowerBoundSearch, rtAt]
  · have hb : oneThreeFive.RTBegin 2.9 = 1 := by
      norm_num [RTBegin, lower_bound, lowerBoundSearch, oneThreeFive]
    have hcmp : fabsDiff (oneThreeFive.rtAt 1) 2.9 < fabsDiff (oneThreeFive.rtAt (1 - 1)) 2.9 := by
      have e1 : oneThreeFive.rtAt 1 - 2.9 = 1 / 10 := by norm_num [rtAt, oneThreeFive]
      have e0 : oneThreeFive.rtAt (1 - 1) - 2.9 = -(19 / 10) := by norm_num [rtAt, oneThreeFive]
      rw [fabsDiff, fabsDiff, e1, e0,
        roundToDouble_of_pos _ (-4) (by norm_num) (by norm_num) (by norm_num),
        roundToDouble_of_neg _ 0 (by norm_num) (by norm_num) (by norm_num)]
      norm_num [roundHalfEven, abs_div]
    rw [findNearest_eq oneThreeFive 2.9 (by decide), hb, if_neg (by decide),
      if_neg (by decide), if_pos hcmp]
  · have hd : roundToDouble 2.9 = 6530219459687219 / 2251799813685248 := by
      rw [roundToDouble_of_pos _ 1 (by norm_num) (by norm_num) (by norm_num)]
      norm_num [roundHalfEven]
    rw [hd]
    have hb : oneThreeFive.RTBegin (6530219459687219 / 2251799813685248) = 1 := by
      norm_num [RTBegin, lower_bound, lowerBoundSearch, oneThreeFive]
    have hcmp : fabsDiff (oneThreeFive.rtAt 1) (6530219459687219 / 2251799813685248)
        < fabsDiff (oneThreeFive.rtAt (1 - 1)) (6530219459687219 / 2251799813685248) := by
      have e1 : oneThreeFive.rtAt 1 - 6530219459687219 / 2251799813685248
          = 225179981368525 / 2251799813685248 := by norm_num [rtAt, oneThreeFive]
      have e0 : oneThreeFive.rtAt (1 - 1) - 6530219459687219 / 2251799813685248
          = -(4278419646001971 / 2251799813685248) := by norm_num [rtAt, oneThreeFive]
      rw [fabsDiff, fabsDiff, e1, e0,
        roundToDouble_of_pos _ (-4) (by norm_num) (by norm_num) (by norm_num),
        roundToDouble_of_neg _ 0 (by norm_num) (by norm_num) (by norm_num)]
      norm_num [roundHalfEven, abs_div]
    rw [findNearest_eq oneThreeFive _ (by decide), hb, if_neg (by decide),
      if_neg (by decide), if_pos hcmp]

/-- Witness for C8: the targets 1 and 7 on the chromatogram with positions 1, 3, 5. -/
theorem findNearest_boundary_witness :
    oneThreeFive.peaks ≠ [] ∧ oneThreeFive.isSorted = true ∧
    (1 : ℚ) ≤ oneThreeFive.rtAt 0 ∧ findNearest oneThreeFive 1 = .ok 0 ∧
    oneThreeFive.rtAt (oneThreeFive.peaks.length - 1) < 7 ∧
    findNearest oneThreeFive 7 = .ok (oneThreeFive.peaks.length - 1) :=
  ⟨by decide, by decide, by decide,
    ((findNearest_boundary.1 oneThreeFive 1 (by decide) (by decide)).1 (by decide)),
    by decide,
    ((findNearest_boundary.1 oneThreeFive 7 (by decide) (by decide)).2 (by decide))⟩

end MSChromatogram

/-! ## Lemmas on the merge -/

theorem setSumSimilarUnion_nil_left (l2 : List ChromatogramPeak) :
    setSumSimilarUnion [] l2 = l2 := by
  rw [setSumSimilarUnion, setSumSimilarUnionLoop]

theorem setSumSimilarUnion_cons_nil (a : ChromatogramPeak) (l1 : List ChromatogramPeak) :
    setSumSimilarUnion (a :: l1) [] = a :: l1 := by
  rw [setSumSimilarUnion, setSumSimilarUnionLoop]

/-- One iteration of the loop of `setSumSimilarUnion` with a peak on both sides. -/
theorem setSumSimilarUnion_cons_cons (a b : ChromatogramPeak) (l1 l2 : List ChromatogramPeak) :
    setSumSimilarUnion (a :: l1) (b :: l2) =
      if smaller_RT a b then a :: setSumSimilarUnion l1 (b :: l2)
      else if smaller_RT b a then b :: setSumSimilarUnion (a :: l1) l2
      else { a with intensity := a.intensity + b.intensity } :: setSumSimilarUnion l1 l2 := by
  simp only [setSumSimilarUnion]
  rw [setSumSimilarUnionLoop]

/-- Induction along the iterations of the loop of `setSumSimilarUnion`. -/
theorem setSumSimilarUnion_induct
    (motive : List ChromatogramPeak → List ChromatogramPeak → Prop)
    (case1 : ∀ l2, motive [] l2)
    (case2 : ∀ a l1, motive (a :: l1) [])
    (case3 : ∀ a l1 b l2, smaller_RT a b = true → motive l1 (b :: l2) →
      motive (a :: l1) (b :: l2))
    (case4 : ∀ a l1 b l2, ¬ smaller_RT a b = true → smaller_RT b a = true →
      motive (a :: l1) l2 → motive (a :: l1) (b :: l2))
    (case5 : ∀ a l1 b l2, ¬ smaller_RT a b = true → ¬ smaller_RT b a = true →
      motive l1 l2 → motive (a :: l1) (b :: l2))
    (l1 l2 : List ChromatogramPeak) : motive l1 l2 :=
  setSumSimilarUnionLoop.induct smaller_RT motive case1 case2 case3 case4 case5 l1 l2

theorem cRound_mono {x y : ℚ} (h : x ≤ y) : cRound x ≤ cRound y := by
  unfold cRound
  by_cases hx : 0 ≤ x
  · have hy : 0 ≤ y := le_trans hx h
    rw [if_pos hx, if_pos hy]
    exact Int.floor_mono (by linarith)
  · rw [if_neg hx]
    by_cases hy : 0 ≤ y
    · rw [if_pos hy]
      have h1 : ⌈x - 1 / 2⌉ ≤ 0 := Int.ceil_le.mpr (by push_cast; linarith)
      have h2 : 0 ≤ ⌊y + 1 / 2⌋ := Int.le_floor.mpr (by push_cast; linarith)
      exact le_trans h1 h2
    · rw [if_neg hy]
      exact Int.ceil_mono (by linarith)

/-- The computed key that `smaller_RT` compares. -/
theorem smaller_RT_iff (a b : ChromatogramPeak) :
    smaller_RT a b = true ↔ roundedMillis a.rt < roundedMillis b.rt := by
  simp [smaller_RT]

/-- The computed key `round(rt * 1000.0)` is monotone in the position. -/
theorem roundedMillis_mono {x y : ℚ} (h : x ≤ y) : roundedMillis x ≤ roundedMillis y :=
  cRound_mono (roundToDouble_mono (by linarith))

theorem rt_lt_of_key_lt (a b : ChromatogramPeak)
    (h : roundedMillis a.rt < roundedMillis b.rt) : a.rt < b.rt := by
  by_contra hc
  exact absurd (roundedMillis_mono (not_lt.mp hc)) (not_le.mpr h)

theorem key_le_of_rt_le (a b : ChromatogramPeak) (h : a.rt ≤ b.rt) :
    roundedMillis a.rt ≤ roundedMillis b.rt :=
  roundedMillis_mono h

/-- Every peak written by the merge carries the position of a peak of one of the inputs. -/
theorem rt_mem_setSumSimilarUnion (l1 l2 : List ChromatogramPeak) (x : ChromatogramPeak)
    (hx : x ∈ setSumSimilarUnion l1 l2) :
    ∃ p, (p ∈ l1 ∨ p ∈ l2) ∧ p.rt = x.rt := by
  induction l1, l2 using setSumSimilarUnion_induct with
  | case1 l2 =>
    rw [setSumSimilarUnion_nil_left] at hx
    exact ⟨x, Or.inr hx, rfl⟩
  | case2 a l1 =>
    rw [setSumSimilarUnion_cons_nil] at hx
    exact ⟨x, Or.inl hx, rfl⟩
  | case3 a l1 b l2 hab ih =>
    rw [setSumSimilarUnion_cons_cons, if_pos hab, List.mem_cons] at hx
    rcases hx with rfl | hx
    · exact ⟨x, Or.inl (List.mem_cons_self _ _), rfl⟩
    · obtain ⟨p, hp, hpx⟩ := ih hx
      rcases hp with hp | hp
      · exact ⟨p, Or.inl (List.mem_cons_of_mem _ hp), hpx⟩
      · exact ⟨p, Or.inr hp, hpx⟩
  | case4 a l1 b l2 hab hba ih =>
    rw [setSumSimilarUnion_cons_cons, if_neg hab, if_pos hba, List.mem_cons] at hx
    rcases hx with rfl | hx
    · exact ⟨x, Or.inr (List.mem_cons_self _ _), rfl⟩
    · obtain ⟨p, hp, hpx⟩ := ih hx
      rcases hp with hp | hp
      · exact ⟨p, Or.inl hp, hpx⟩
      · exact ⟨p, Or.inr (List.mem_cons_of_mem _ hp), hpx⟩
  | case5 a l1 b l2 hab hba ih =>
    rw [setSumSimilarUnion_cons_cons, if_neg hab, if_neg hba, List.mem_cons] at hx
    rcases hx with rfl | hx
    · exact ⟨a, Or.inl (List.mem_cons_self _ _), rfl⟩
    · obtain ⟨p, hp, hpx⟩ := ih hx
      rcases hp with hp | hp
      · exact ⟨p, Or.inl (List.mem_cons_of_mem _ hp), hpx⟩
      · exact ⟨p, Or.inr (List.mem_cons_of_mem _ hp), hpx⟩

/-- The merge of two sequences with strictly increasing computed keys has strictly increasing
computed keys. -/
theorem setSumSimilarUnion_pairwise (l1 l2 : List ChromatogramPeak)
    (h1 : l1.Pairwise (fun a b => roundedMillis a.rt < roundedMillis b.rt))
    (h2 : l2.Pairwise (fun a b => roundedMillis a.rt < roundedMillis b.rt)) :
    (setSumSimilarUnion l1 l2).Pairwise
      (fun a b => roundedMillis a.rt < roundedMillis b.rt) := by
  induction l1, l2 using setSumSimilarUnion_induct with
  | case1 l2 => rw [setSumSimilarUnion_nil_left]; exact h2
  | case2 a l1 => rw [setSumSimilarUnion_cons_nil]; exact h1
  | case3 a l1 b l2 hab ih =>
    rw [setSumSimilarUnion_cons_cons, if_pos hab, List.pairwise_cons]
    refine ⟨?_, ih (List.pairwise_cons.mp h1).2 h2⟩
    intro x hx
    obtain ⟨p, hp, hpx⟩ := rt_mem_setSumSimilarUnion _ _ x hx
    rw [← hpx]
    have hab' := (smaller_RT_iff a b).mp hab
    rcases hp with hp | hp
    · exact (List.pairwise_cons.mp h1).1 p hp
    · rcases List.mem_cons.mp hp with rfl | hp
      · exact hab'
      · exact lt_trans hab' ((List.pairwise_cons.mp h2).1 p hp)
  | case4 a l1 b l2 hab hba ih =>
    rw [setSumSimilarUnion_cons_cons, if_neg hab, if_pos hba, List.pairwise_cons]
    refine ⟨?_, ih h1 (List.pairwise_cons.mp h2).2⟩
    intro x hx
    obtain ⟨p, hp, hpx⟩ := rt_mem_setSumSimilarUnion _ _ x hx
    rw [← hpx]
    have hba' := (smaller_RT_iff b a).mp hba
    rcases hp with hp | hp
    · rcases List.mem_cons.mp hp with rfl | hp
      · exact hba'
      · exact lt_trans hba' ((List.pairwise_cons.mp h1).1 p hp)
    · exact (List.pairwise_cons.mp h2).1 p hp
  | case5 a l1 b l2 hab hba ih =>
    rw [setSumSimilarUnion_cons_cons, if_neg hab, if_neg hba, List.pairwise_cons]
    refine ⟨?_, ih (List.pairwise_cons.mp h1).2 (List.pairwise_cons.mp h2).2⟩
    intro x hx
    obtain ⟨p, hp, hpx⟩ := rt_mem_setSumSimilarUnion _ _ x hx
    rw [← hpx]
    have hab' : ¬ roundedMillis a.rt < roundedMillis b.rt :=
      fun h => hab ((smaller_RT_iff a b).mpr h)
    have hba' : ¬ roundedMillis b.rt < roundedMillis a.rt :=
      fun h => hba ((smaller_RT_iff b a).mpr h)
    have heq : roundedMillis a.rt = roundedMillis b.rt :=
      le_antisymm (not_lt.mp hba') (not_lt.mp hab')
    rcases hp with hp | hp
    · exact (List.pairwise_cons.mp h1).1 p hp
    · show roundedMillis a.rt < roundedMillis p.rt
      rw [heq]
      exact (List.pairwise_cons.mp h2).1 p hp

/-- A sequence in position order whose computed keys are pairwise distinct has strictly
increasing computed keys. -/
theorem pairwise_key_of_sorted (l : List ChromatogramPeak)
    (hs : l.Pairwise (fun a b => a.rt ≤ b.rt))
    (hd : (l.map (fun p => roundedMillis p.rt)).Nodup) :
    l.Pairwise (fun a b => roundedMillis a.rt < roundedMillis b.rt) := by
  have hd' : l.Pairwise (fun a b => roundedMillis a.rt ≠ roundedMillis b.rt) := by
    rw [List.Nodup, List.pairwise_map] at hd
    exact hd
  exact (hs.and hd').imp (fun {a b} h => lt_of_le_of_ne (key_le_of_rt_le a b h.1) h.2)

/-- The doubles that the literals `1.0001`, `1.0002` and `1.0004` denote. -/
theorem roundToDouble_literals :
    roundToDouble 1.0001 = 4504049987333233 / 4503599627370496 ∧
    roundToDouble 1.0002 = 2252250173647985 / 2251799813685248 ∧
    roundToDouble 1.0004 = 1126350266805361 / 1125899906842624 := by
  refine ⟨?_, ?_, ?_⟩
  · rw [roundToDouble_of_pos _ 0 (by norm_num) (by norm_num) (by norm_num)]
    norm_num [roundHalfEven]
  · rw [roundToDouble_of_pos _ 0 (by norm_num) (by norm_num) (by norm_num)]
    norm_num [roundHalfEven]
  · rw [roundToDouble_of_pos _ 0 (by norm_num) (by norm_num) (by norm_num)]
    norm_num [roundHalfEven]

/-- The computed key of the doubles that the literals `1.0001`, `1.0002` and `1.0004` denote
is 1000. -/
theorem roundedMillis_literals :
    roundedMillis (roundToDouble 1.0001) = 1000 ∧ roundedMillis (roundToDouble 1.0002) = 1000 ∧
    roundedMillis (roundToDouble 1.0004) = 1000 := by
  obtain ⟨h1, h2, h4⟩ := roundToDouble_literals
  refine ⟨?_, ?_, ?_⟩
  · rw [h1, roundedMillis, roundToDouble_of_pos _ 9 (by norm_num) (by norm_num) (by norm_num)]
    norm_num [roundHalfEven, cRound]
  · rw [h2, roundedMillis, roundToDouble_of_pos _ 9 (by norm_num) (by norm_num) (by norm_num)]
    norm_num [roundHalfEven, cRound]
  · rw [h4, roundedMillis, roundToDouble_of_pos _ 9 (by norm_num) (by norm_num) (by norm_num)]
    norm_num [roundHalfEven, cRound]

/-- When the product `rt * 1000.0` is computed without rounding error, the computed key is the
exactly rounded product. -/
theorem roundedMillis_of_exact (rt : ℚ) (h : roundToDouble (rt * 1000) = rt * 1000) :
    roundedMillis rt = cRound (rt * 1000) := by
  rw [roundedMillis, h]

/-- The computed key is not the exact one: the double that the literal `1.0005` denotes lies
below 1.0005, so that the exact product with 1000 rounds to 1000, but the product is computed
as the double 1000.5 and the key is 1001. -/
theorem roundedMillis_literal_10005 :
    roundToDouble 1.0005 = 4505851427184181 / 4503599627370496 ∧
    roundToDouble 1.0005 < 1.0005 ∧
    cRound (roundToDouble 1.0005 * 1000) = 1000 ∧
    roundToDouble (roundToDouble 1.0005 * 1000) = 1000.5 ∧
    roundedMillis (roundToDouble 1.0005) = 1001 := by
  have h : roundToDouble 1.0005 = 4505851427184181 / 4503599627370496 := by
    rw [roundToDouble_of_pos _ 0 (by norm_num) (by norm_num) (by norm_num)]
    norm_num [roundHalfEven]
  have hp : roundToDouble (roundToDouble 1.0005 * 1000) = 1000.5 := by
    rw [h, roundToDouble_of_pos _ 9 (by norm_num) (by norm_num) (by norm_num)]
    norm_num [roundHalfEven]
  refine ⟨h, ?_, ?_, hp, ?_⟩
  · rw [h]; norm_num
  · rw [h]; norm_num [cRound]
  · rw [roundedMillis, hp]; norm_num [cRound]

/-- The computed key of a small integer position `n` is `1000 * n`; stated for the positions
of the examples. -/
theorem roundedMillis_small :
    roundedMillis 1 = 1000 ∧ roundedMillis 2 = 2000 ∧ roundedMillis 3 = 3000 ∧
    roundedMillis 4 = 4000 ∧ roundedMillis 5 = 5000 := by
  refine ⟨?_, ?_, ?_, ?_, ?_⟩
  · rw [roundedMillis, roundToDouble_of_pos _ 9 (by norm_num) (by norm_num) (by norm_num)]
    norm_num [roundHalfEven, cRound]
  · rw [roundedMillis, roundToDouble_of_pos _ 10 (by norm_num) (by norm_num) (by norm_num)]
    norm_num [roundHalfEven, cRound]
  · rw [roundedMillis, roundToDouble_of_pos _ 11 (by norm_num) (by norm_num) (by norm_num)]
    norm_num [roundHalfEven, cRound]
  · rw [roundedMillis, roundToDouble_of_pos _ 11 (by norm_num) (by norm_num) (by norm_num)]
    norm_num [roundHalfEven, cRound]
  · rw [roundedMillis, roundToDouble_of_pos _ 12 (by norm_num) (by norm_num) (by norm_num)]
    norm_num [roundHalfEven, cRound]

/-- The computed key of the doubles that the literals `1.001` and `1.0014` denote is 1001. -/
theorem roundedMillis_literals_1001 :
    roundedMillis (roundToDouble 1.001) = 1001 ∧ roundedMillis (roundToDouble 1.0014) = 1001 := by
  have h1 : roundToDouble 1.001 = 2254051613498933 / 2251799813685248 := by
    rw [roundToDouble_of_pos _ 0 (by norm_num) (by norm_num) (by norm_num)]
    norm_num [roundHalfEven]
  have h2 : roundToDouble 1.0014 = 4509904666848815 / 4503599627370496 := by
    rw [roundToDouble_of_pos _ 0 (by norm_num) (by norm_num) (by norm_num)]
    norm_num [roundHalfEven]
  refine ⟨?_, ?_⟩
  · rw [h1, roundedMillis, roundToDouble_of_pos _ 9 (by norm_num) (by norm_num) (by norm_num)]
    norm_num [roundHalfEven, cRound]
  · rw [h2, roundedMillis, roundToDouble_of_pos _ 9 (by norm_num) (by norm_num) (by norm_num)]
    norm_num [roundHalfEven, cRound]

/-- A product that overflows is `+∞`: the positions `2 ^ 1020` and `2 ^ 1021`, both doubles,
have the same computed key. -/
theorem roundedMillis_overflow :
    roundToDouble (2 ^ 1020 * 1000) = 2 ^ 1024 ∧ roundToDouble (2 ^ 1021 * 1000) = 2 ^ 1024 ∧
    roundedMillis (2 ^ 1020) = roundedMillis (2 ^ 1021) := by
  have h1 : roundToDouble (2 ^ 1020 * 1000) = 2 ^ 1024 := by
    rw [roundToDouble_of_pos _ 1029 (by norm_num) (by norm_num) (by norm_num)]
    norm_num [roundHalfEven]
  have h2 : roundToDouble (2 ^ 1021 * 1000) = 2 ^ 1024 := by
    rw [roundToDouble_of_pos _ 1030 (by norm_num) (by norm_num) (by norm_num)]
    norm_num [roundHalfEven]
  refine ⟨h1, h2, ?_⟩
  rw [roundedMillis, roundedMillis, h1, h2]

/-- The merge follows the computed keys. The double of the literal `1.0005` has the key 1001:
it is not merged with a peak at 1, whose key is 1000, although the exactly rounded products are
both 1000; it is merged with the peak at 1.001; and the peak at 1.0014 absorbs it and is
written in front of the peak at 1.001, which has the same key. -/
theorem setSumSimilarUnion_computed_keys :
    setSumSimilarUnion [⟨roundToDouble 1.0005, 1⟩] [⟨1, 1⟩]
      = [⟨1, 1⟩, ⟨roundToDouble 1.0005, 1⟩] ∧
    setSumSimilarUnion [⟨roundToDouble 1.0005, 1⟩] [⟨roundToDouble 1.001, 1⟩]
      = [⟨roundToDouble 1.0005, 2⟩] ∧
    setSumSimilarUnion [⟨roundToDouble 1.0014, 1⟩]
        [⟨roundToDouble 1.0005, 1⟩, ⟨roundToDouble 1.001, 1⟩]
      = [⟨roundToDouble 1.0014, 2⟩, ⟨roundToDouble 1.001, 1⟩] := by
  have k5 := roundedMillis_literal_10005.2.2.2.2
  obtain ⟨k10, k14⟩ := roundedMillis_literals_1001
  have k1 := roundedMillis_small.1
  refine ⟨?_, ?_, ?_⟩
  · rw [setSumSimilarUnion_cons_cons, if_neg (by simp [smaller_RT, k1, k5]),
      if_pos (by simp [smaller_RT, k1, k5]), setSumSimilarUnion_cons_nil]
  · rw [setSumSimilarUnion_cons_cons, if_neg (by simp [smaller_RT, k10, k5]),
      if_neg (by simp [smaller_RT, k10, k5]), setSumSimilarUnion_nil_left]
    norm_num
  · rw [setSumSimilarUnion_cons_cons, if_neg (by simp [smaller_RT, k14, k5]),
      if_neg (by simp [smaller_RT, k14, k5]), setSumSimilarUnion_nil_left]
    norm_num

namespace MSChromatogram

theorem mergePeaks_peaks (self : MSChromatogram) (other : OtherRef) (add_meta : Bool) :
    (mergePeaks self other add_meta).1.peaks
      = setSumSimilarUnion self.peaks (other.deref self).peaks := by
  unfold mergePeaks
  cases add_meta <;> simp

/-! ## The claims on merging -/

/-- C9, as stated, fails: the single peak at 1.0004 and the pair of peaks at 1.0001 and 1.0002
(the doubles that these literals denote) are each in position order with pairwise distinct
positions, yet the merge writes the peak at 1.0004 (which absorbs the one at 1.0001) in front
of the peak at 1.0002. -/
theorem mergePeaks_sorted_counterexample :
    peakAt10004.isSorted = true ∧ closePair.isSorted = true ∧
    (peakAt10004.peaks.map ChromatogramPeak.rt).Nodup ∧
    (closePair.peaks.map ChromatogramPeak.rt).Nodup ∧
    roundToDouble 1.0002 < roundToDouble 1.0004 ∧
    (mergePeaks peakAt10004 (.distinctObject closePair) false).1.peaks
      = [⟨roundToDouble 1.0004, 8⟩, ⟨roundToDouble 1.0002, 1⟩] ∧
    (mergePeaks peakAt10004 (.distinctObject closePair) false).1.isSorted = false := by
  obtain ⟨h1, h2, h4⟩ := roundToDouble_literals
  obtain ⟨k1, k2, k4⟩ := roundedMillis_literals
  have h12 : roundToDouble 1.0001 < roundToDouble 1.0002 := by rw [h1, h2]; norm_num
  have h24 : roundToDouble 1.0002 < roundToDouble 1.0004 := by rw [h2, h4]; norm_num
  have h : (mergePeaks peakAt10004 (.distinctObject closePair) false).1.peaks
      = [⟨roundToDouble 1.0004, 8⟩, ⟨roundToDouble 1.0002, 1⟩] := by
    rw [mergePeaks_peaks]
    simp only [peakAt10004, closePair, OtherRef.deref]
    rw [setSumSimilarUnion_cons_cons, if_neg (by simp [smaller_RT, k1, k4]),
      if_neg (by simp [smaller_RT, k1, k4]), setSumSimilarUnion_nil_left]
    norm_num
  refine ⟨?_, ?_, ?_, ?_, h24, h, ?_⟩
  · simp [isSorted, isSortedFrom, peakAt10004]
  · simp [isSorted, isSortedFrom, closePair, not_lt.mpr h12.le]
  · simp [peakAt10004]
  · simp [closePair, h12.ne]
  · rw [isSorted, h]
    simp [isSortedFrom, h24]

/-- C9, amended: when both chromatograms are sorted ascending by position and each has
pairwise distinct values of `round(position * 1000.0)` as the merge computes them in double
arithmetic (the two may share such values), the peaks after `mergePeaks` are sorted ascending
by position, for both values of `add_meta`. -/
theorem mergePeaks_isSorted (self : MSChromatogram) (other : OtherRef) (add_meta : Bool)
    (hs1 : self.isSorted = true) (hs2 : (other.deref self).isSorted = true)
    (hd1 : (self.peaks.map (fun p => roundedMillis p.rt)).Nodup)
    (hd2 : ((other.deref self).peaks.map (fun p => roundedMillis p.rt)).Nodup) :
    (mergePeaks self other add_meta).1.isSorted = true := by
  unfold isSorted
  rw [mergePeaks_peaks, isSortedFrom_iff]
  have h1 := pairwise_key_of_sorted _ ((isSortedFrom_iff _).mp hs1) hd1
  have h2 := pairwise_key_of_sorted _ ((isSortedFrom_iff _).mp hs2) hd2
  exact (setSumSimilarUnion_pairwise _ _ h1 h2).imp
    (fun {a b} h => le_of_lt (rt_lt_of_key_lt a b h))

/-- Witness for C9 as amended: the peaks at 1, 3, 5 merged with the peak at 1.0004. -/
theorem mergePeaks_isSorted_witness :
    oneThreeFive.isSorted = true ∧ peakAt10004.isSorted = true ∧
    (oneThreeFive.peaks.map (fun p => roundedMillis p.rt)).Nodup ∧
    (peakAt10004.peaks.map (fun p => roundedMillis p.rt)).Nodup ∧
    (mergePeaks oneThreeFive (.distinctObject peakAt10004) true).1.isSorted = true :=
  have h1 : oneThreeFive.isSorted = true := by decide
  have h2 : peakAt10004.isSorted = true := by simp [isSorted, isSortedFrom, peakAt10004]
  have h3 : (oneThreeFive.peaks.map (fun p => roundedMillis p.rt)).Nodup := by
    simp [oneThreeFive, roundedMillis_small.1, roundedMillis_small.2.2.1,
      roundedMillis_small.2.2.2.2]
  have h4 : (peakAt10004.peaks.map (fun p => roundedMillis p.rt)).Nodup := by
    simp [peakAt10004]
  ⟨h1, h2, h3, h4,
    mergePeaks_isSorted oneThreeFive (.distinctObject peakAt10004) true h1 h2 h3 h4⟩

end MSChromatogram

/-! ## Lemmas on the size of the merge, on `isSorted` and on the metadata store -/

theorem length_setSumSimilarUnion_le (l1 l2 : List ChromatogramPeak) :
    (setSumSimilarUnion l1 l2).length ≤ l1.length + l2.length := by
  induction l1, l2 using setSumSimilarUnion_induct with
  | case1 l2 => rw [setSumSimilarUnion_nil_left]; simp
  | case2 a l1 => rw [setSumSimilarUnion_cons_nil]; simp
  | case3 a l1 b l2 hab ih =>
    rw [setSumSimilarUnion_cons_cons, if_pos hab]
    simp only [List.length_cons] at ih ⊢
    omega
  | case4 a l1 b l2 hab hba ih =>
    rw [setSumSimilarUnion_cons_cons, if_neg hab, if_pos hba]
    simp only [List.length_cons] at ih ⊢
    omega
  | case5 a l1 b l2 hab hba ih =>
    rw [setSumSimilarUnion_cons_cons, if_neg hab, if_neg hba]
    simp only [List.length_cons] at ih ⊢
    omega

theorem length_setSumSimilarUnion_of_disjoint (l1 l2 : List ChromatogramPeak)
    (h : ∀ a ∈ l1, ∀ b ∈ l2, roundedMillis a.rt ≠ roundedMillis b.rt) :
    (setSumSimilarUnion l1 l2).length = l1.length + l2.length := by
  induction l1, l2 using setSumSimilarUnion_induct with
  | case1 l2 => rw [setSumSimilarUnion_nil_left]; simp
  | case2 a l1 => rw [setSumSimilarUnion_cons_nil]; simp
  | case3 a l1 b l2 hab ih =>
    rw [setSumSimilarUnion_cons_cons, if_pos hab]
    have := ih (fun x hx y hy => h x (List.mem_cons_of_mem _ hx) y hy)
    simp only [List.length_cons] at this ⊢
    omega
  | case4 a l1 b l2 hab hba ih =>
    rw [setSumSimilarUnion_cons_cons, if_neg hab, if_pos hba]
    have := ih (fun x hx y hy => h x hx y (List.mem_cons_of_mem _ hy))
    simp only [List.length_cons] at this ⊢
    omega
  | case5 a l1 b l2 hab hba ih =>
    exfalso
    have hab' : ¬ roundedMillis a.rt < roundedMillis b.rt :=
      fun h => hab ((smaller_RT_iff a b).mpr h)
    have hba' : ¬ roundedMillis b.rt < roundedMillis a.rt :=
      fun h => hba ((smaller_RT_iff b a).mpr h)
    exact h a (List.mem_cons_self _ _) b (List.mem_cons_self _ _)
      (le_antisymm (not_lt.mp hba') (not_lt.mp hab'))

theorem isSortedFrom_iff_adjacent (l : List ChromatogramPeak) :
    MSChromatogram.isSortedFrom l = true ↔
      ∀ i, i + 1 < l.length → (l.getD i default).rt ≤ (l.getD (i + 1) default).rt := by
  induction l with
  | nil => simp [MSChromatogram.isSortedFrom]
  | cons a l ih =>
    cases l with
    | nil => simp [MSChromatogram.isSortedFrom]
    | cons b l =>
      rw [MSChromatogram.isSortedFrom]
      by_cases h : a.rt > b.rt
      · simp only [h, if_true]
        constructor
        · intro hf; exact absurd hf (by decide)
        · intro hp
          have := hp 0 (by simp)
          simp only [List.getD_cons_zero, List.getD_cons_succ] at this
          exact absurd h (not_lt.mpr this)
      · simp only [h, if_false, ih]
        constructor
        · intro hp i hi
          cases i with
          | zero =>
            simp only [List.getD_cons_zero, List.getD_cons_succ]
            exact not_lt.mp h
          | succ i =>
            simp only [List.getD_cons_succ]
            exact hp i (by simpa using hi)
        · intro hp i hi
          have := hp (i + 1) (by simpa using hi)
          simpa only [List.getD_cons_succ] using this

namespace ChromatogramSettings

theorem getMetaValue_setMetaValue (s : ChromatogramSettings) (key : String) (value : List ℚ) :
    (s.setMetaValue key value).getMetaValue key = value ∧
    (s.setMetaValue key value).metaValueExists key = true := by
  simp [setMetaValue, getMetaValue, metaValueExists, List.lookup]

theorem lookup_filter_ne (l : List (String × List ℚ)) (key k : String) (h : k ≠ key) :
    (l.filter (fun e => e.1 != key)).lookup k = l.lookup k := by
  induction l with
  | nil => rfl
  | cons e l ih =>
    obtain ⟨ek, ev⟩ := e
    by_cases hek : ek = key
    · subst hek
      have hne : (k == ek) = false := by simpa using h
      simp [List.filter, List.lookup, hne, ih]
    · have hf : (ek != key) = true := by simpa using hek
      simp only [List.filter, hf, List.lookup]
      rw [ih]

theorem getMetaValue_setMetaValue_of_ne (s : ChromatogramSettings) (key k : String)
    (value : List ℚ) (h : k ≠ key) :
    (s.setMetaValue key value).getMetaValue k = s.getMetaValue k ∧
    (s.setMetaValue key value).metaValueExists k = s.metaValueExists k := by
  have hne : (k == key) = false := by simpa using h
  simp [setMetaValue, getMetaValue, metaValueExists, List.lookup, hne, lookup_filter_ne _ _ _ h]

theorem getMetaValue_of_not_exists (s : ChromatogramSettings) (key : String)
    (h : s.metaValueExists key = false) : s.getMetaValue key = [] := by
  unfold metaValueExists at h
  unfold getMetaValue
  cases hl : s.meta_values.lookup key with
  | none => rfl
  | some v => rw [hl] at h; simp at h

end ChromatogramSettings

/-- Every step of the merge keeps the sum of the intensities written and still to be read. -/
theorem totalIntensity_setSumSimilarUnion (l1 l2 : List ChromatogramPeak) :
    MSChromatogram.totalIntensity (setSumSimilarUnion l1 l2)
      = MSChromatogram.totalIntensity l1 + MSChromatogram.totalIntensity l2 := by
  induction l1, l2 using setSumSimilarUnion_induct with
  | case1 l2 => rw [setSumSimilarUnion_nil_left]; simp [MSChromatogram.totalIntensity]
  | case2 a l1 => rw [setSumSimilarUnion_cons_nil]; simp [MSChromatogram.totalIntensity]
  | case3 a l1 b l2 hab ih =>
    rw [setSumSimilarUnion_cons_cons, if_pos hab]
    simp only [MSChromatogram.totalIntensity, List.map_cons, List.sum_cons] at ih ⊢
    rw [ih]; ring
  | case4 a l1 b l2 hab hba ih =>
    rw [setSumSimilarUnion_cons_cons, if_neg hab, if_pos hba]
    simp only [MSChromatogram.totalIntensity, List.map_cons, List.sum_cons] at ih ⊢
    rw [ih]; ring
  | case5 a l1 b l2 hab hba ih =>
    rw [setSumSimilarUnion_cons_cons, if_neg hab, if_neg hba]
    simp only [MSChromatogram.totalIntensity, List.map_cons, List.sum_cons] at ih ⊢
    rw [ih]; ring

theorem setSumSimilarUnion_nil_right (l1 : List ChromatogramPeak) :
    setSumSimilarUnion l1 [] = l1 := by
  cases l1
  · rw [setSumSimilarUnion_nil_left]
  · rw [setSumSimilarUnion_cons_nil]

namespace MSChromatogram

/-! ## The claims on the size of the merge, on `isSorted`, on metadata and on `clear` -/

/-- C11: when no peak of one chromatogram has the same value `round(position * 1000.0)`,
computed in double arithmetic as the merge does, as a peak of the other, `mergePeaks` leaves
exactly `n + m` peaks in the chromatogram, for both values of `add_meta` (position order of the
inputs is not needed for the count). -/
theorem mergePeaks_size_of_disjoint (self : MSChromatogram) (other : OtherRef)
    (add_meta : Bool)
    (h : ∀ a ∈ self.peaks, ∀ b ∈ (other.deref self).peaks,
      roundedMillis a.rt ≠ roundedMillis b.rt) :
    (mergePeaks self other add_meta).1.peaks.length
      = self.peaks.length + (other.deref self).peaks.length := by
  rw [mergePeaks_peaks]
  exact length_setSumSimilarUnion_of_disjoint _ _ h

/-- Witness for C11: the sorted peaks at 1, 3, 5 merged with the sorted peaks at 2, 4. -/
theorem mergePeaks_size_of_disjoint_witness :
    oneThreeFive.isSorted = true ∧ twoFour.isSorted = true ∧
    (∀ a ∈ oneThreeFive.peaks, ∀ b ∈ twoFour.peaks,
      roundedMillis a.rt ≠ roundedMillis b.rt) ∧
    (mergePeaks oneThreeFive (.distinctObject twoFour) true).1.peaks.length = 3 + 2 :=
  have h : ∀ a ∈ oneThreeFive.peaks, ∀ b ∈ twoFour.peaks,
      roundedMillis a.rt ≠ roundedMillis b.rt := by
    obtain ⟨k1, k2, k3, k4, k5⟩ := roundedMillis_small
    simp [oneThreeFive, twoFour, k1, k2, k3, k4, k5]
  ⟨by decide, by decide, h,
    mergePeaks_size_of_disjoint oneThreeFive (.distinctObject twoFour) true h⟩

/-- C12: `mergePeaks` is a total function (the loop of `setSumSimilarUnion` consumes a peak of
one side at every step), and for every two chromatograms, sorted or not, the same object or
not, the sequence it writes to the temporary buffer has at most `n + m` peaks, the size of that
buffer. -/
theorem mergePeaks_size_le (self : MSChromatogram) (other : OtherRef) (add_meta : Bool) :
    (mergePeaks self other add_meta).1.peaks.length
      ≤ self.peaks.length + (other.deref self).peaks.length := by
  rw [mergePeaks_peaks]
  exact length_setSumSimilarUnion_le _ _

/-- C14: `isSorted()` returns true if and only if every peak is at or before its successor in
position; in particular it returns true with no peak and with one peak. -/
theorem isSorted_iff_adjacent (c : MSChromatogram) :
    (c.isSorted = true ↔ ∀ i, i + 1 < c.peaks.length → c.rtAt i ≤ c.rtAt (i + 1)) ∧
    (c.peaks.length ≤ 1 → c.isSorted = true) := by
  have h := isSortedFrom_iff_adjacent c.peaks
  refine ⟨h, ?_⟩
  intro hl
  exact h.mpr (fun i hi => by omega)

/-- Witness for C14: true without peaks, with one peak and with two peaks at the same position;
false for two peaks out of order, where the adjacent pair is not ordered. -/
theorem isSorted_iff_adjacent_witness :
    noPeaks.isSorted = true ∧ peakAt10001.isSorted = true ∧ tiedPositions.isSorted = true ∧
    unsortedWithStrings.isSorted = false ∧
    ¬ (∀ i, i + 1 < unsortedWithStrings.peaks.length →
      unsortedWithStrings.rtAt i ≤ unsortedWithStrings.rtAt (i + 1)) :=
  ⟨(isSorted_iff_adjacent noPeaks).2 (by decide),
    (isSorted_iff_adjacent peakAt10001).2 (by simp [peakAt10001]),
    by decide, by decide,
    fun h => absurd ((isSorted_iff_adjacent unsortedWithStrings).1.mpr h) (by decide)⟩

/-- C16: after `mergePeaks(other, true)` the entry `MERGED_CHROMATOGRAM_MZS` exists and holds
its previous list (the empty list when it did not exist) with the m/z of `other` appended;
every other entry and the product m/z are as before. After `mergePeaks(other, false)` the
settings, metadata included, are unchanged. This holds also when `other` is the chromatogram
itself. -/
theorem mergePeaks_meta (self : MSChromatogram) (other : OtherRef) :
    ((mergePeaks self other true).1.settings.getMetaValue MERGED_CHROMATOGRAM_MZS
        = self.settings.getMetaValue MERGED_CHROMATOGRAM_MZS ++ [(other.deref self).getMZ]) ∧
    (mergePeaks self other true).1.settings.metaValueExists MERGED_CHROMATOGRAM_MZS = true ∧
    (self.settings.metaValueExists MERGED_CHROMATOGRAM_MZS = false →
      (mergePeaks self other true).1.settings.getMetaValue MERGED_CHROMATOGRAM_MZS
        = [(other.deref self).getMZ]) ∧
    (∀ k, k ≠ MERGED_CHROMATOGRAM_MZS →
      (mergePeaks self other true).1.settings.getMetaValue k = self.settings.getMetaValue k ∧
      (mergePeaks self other true).1.settings.metaValueExists k
        = self.settings.metaValueExists k) ∧
    (mergePeaks self other true).1.settings.product_mz = self.settings.product_mz ∧
    (mergePeaks self other false).1.settings = self.settings := by
  have hls : (if self.settings.metaValueExists MERGED_CHROMATOGRAM_MZS = true then
        self.settings.getMetaValue MERGED_CHROMATOGRAM_MZS else [])
      = self.settings.getMetaValue MERGED_CHROMATOGRAM_MZS := by
    split
    · rfl
    · next h =>
      exact (ChromatogramSettings.getMetaValue_of_not_exists _ _ (by simpa using h)).symm
  have hmz : ∀ peaks : List ChromatogramPeak,
      (other.deref { self with peaks := peaks }).getMZ = (other.deref self).getMZ := by
    intro peaks
    cases other <;> rfl
  have hset : (mergePeaks self other true).1.settings
      = self.settings.setMetaValue MERGED_CHROMATOGRAM_MZS
          (self.settings.getMetaValue MERGED_CHROMATOGRAM_MZS ++ [(other.deref self).getMZ]) := by
    simp only [mergePeaks, if_true]
    rw [hls, hmz]
  have hget := ChromatogramSettings.getMetaValue_setMetaValue self.settings
    MERGED_CHROMATOGRAM_MZS
    (self.settings.getMetaValue MERGED_CHROMATOGRAM_MZS ++ [(other.deref self).getMZ])
  refine ⟨?_, ?_, ?_, ?_, ?_, ?_⟩
  · rw [hset]; exact hget.1
  · rw [hset]; exact hget.2
  · intro h
    rw [hset, hget.1, ChromatogramSettings.getMetaValue_of_not_exists _ _ h]
    rfl
  · intro k hk
    rw [hset]
    exact ChromatogramSettings.getMetaValue_setMetaValue_of_ne _ _ _ _ hk
  · rw [hset]; rfl
  · simp [mergePeaks]

/-- Witness for C16: an entry that holds `[100]` becomes `[100, 300]`, an absent entry becomes
`[300]`. -/
theorem mergePeaks_meta_witness :
    fullyPopulated.settings.getMetaValue MERGED_CHROMATOGRAM_MZS = [100] ∧
    (mergePeaks fullyPopulated (.distinctObject twoFour) true).1.settings.getMetaValue
      MERGED_CHROMATOGRAM_MZS = [100, 300] ∧
    oneThreeFive.settings.metaValueExists MERGED_CHROMATOGRAM_MZS = false ∧
    (mergePeaks oneThreeFive (.distinctObject twoFour) true).1.settings.getMetaValue
      MERGED_CHROMATOGRAM_MZS = [300] :=
  have h1 : fullyPopulated.settings.getMetaValue MERGED_CHROMATOGRAM_MZS = [100] := by decide
  have h2 : oneThreeFive.settings.metaValueExists MERGED_CHROMATOGRAM_MZS = false := by decide
  ⟨h1, by
      have := (mergePeaks_meta fullyPopulated (.distinctObject twoFour)).1
      rw [h1] at this
      exact this,
    h2, (mergePeaks_meta oneThreeFive (.distinctObject twoFour)).2.2.1 h2⟩

/-- C17, as stated, fails: `other` is a reference that may refer to the chromatogram itself.
In the call `c.mergePeaks(c)` on `singlePeak`, whose only peak has intensity 5, both ranges of
the merge are the peaks of `c`, the peak is merged with itself, and after the call the peaks of
`other`, which is `c`, are the one peak with intensity 10. -/
theorem mergePeaks_frame_counterexample :
    (OtherRef.sameObject.deref singlePeak).peaks = [⟨1, 5⟩] ∧
    (mergePeaks singlePeak .sameObject false).2.peaks = [⟨1, 10⟩] ∧
    (mergePeaks singlePeak .sameObject true).2.peaks = [⟨1, 10⟩] ∧
    (mergePeaks singlePeak .sameObject false).2.peaks
      ≠ (OtherRef.sameObject.deref singlePeak).peaks := by
  have h : setSumSimilarUnion [(⟨1, 5⟩ : ChromatogramPeak)] [⟨1, 5⟩] = [⟨1, 10⟩] := by
    rw [setSumSimilarUnion_cons_cons, if_neg (by simp [smaller_RT]),
      if_neg (by simp [smaller_RT]), setSumSimilarUnion_nil_left]
    norm_num
  have h1 : (mergePeaks singlePeak .sameObject false).2.peaks = [⟨1, 10⟩] := by
    simp only [mergePeaks, OtherRef.deref, singlePeak]
    exact h
  have h2 : (mergePeaks singlePeak .sameObject true).2.peaks = [⟨1, 10⟩] := by
    simp only [mergePeaks, OtherRef.deref, singlePeak]
    exact h
  refine ⟨rfl, h1, h2, ?_⟩
  rw [h1]
  simp [OtherRef.deref, singlePeak]

/-- C17, amended: for all inputs and both values of `add_meta`, `mergePeaks` leaves the float,
string and integer array sets of the chromatogram exactly as they were; when `other` is another
object than the chromatogram itself, `other`, its peaks included, is unchanged; in the call
`c.mergePeaks(c)`, `other` is the chromatogram after the call, whose peaks are the merge of the
old peaks with themselves. -/
theorem mergePeaks_frame (self : MSChromatogram) (add_meta : Bool) :
    (∀ other : OtherRef,
      (mergePeaks self other add_meta).1.float_data_arrays = self.float_data_arrays ∧
      (mergePeaks self other add_meta).1.string_data_arrays = self.string_data_arrays ∧
      (mergePeaks self other add_meta).1.integer_data_arrays = self.integer_data_arrays) ∧
    (∀ other : MSChromatogram,
      (mergePeaks self (.distinctObject other) add_meta).2 = other ∧
      (mergePeaks self (.distinctObject other) add_meta).2.peaks = other.peaks) ∧
    (mergePeaks self .sameObject add_meta).2 = (mergePeaks self .sameObject add_meta).1 ∧
    (mergePeaks self .sameObject add_meta).2.peaks
      = setSumSimilarUnion self.peaks self.peaks := by
  refine ⟨?_, ?_, ?_, ?_⟩
  · intro other
    cases add_meta <;> simp [mergePeaks]
  · intro other
    cases add_meta <;> simp [mergePeaks, OtherRef.deref]
  · cases add_meta <;> simp [mergePeaks, OtherRef.deref]
  · cases add_meta <;> simp [mergePeaks, OtherRef.deref]

/-- Witness for C17 as amended: the arrays of `fullyPopulated` and the whole of `twoFour` after
merging `twoFour` into `fullyPopulated`, and the call `c.mergePeaks(c)` on `singlePeak`. -/
theorem mergePeaks_frame_witness :
    (mergePeaks fullyPopulated (.distinctObject twoFour) true).1.float_data_arrays
      = [[10, 20]] ∧
    (mergePeaks fullyPopulated (.distinctObject twoFour) true).2 = twoFour ∧
    (mergePeaks singlePeak .sameObject true).2 = (mergePeaks singlePeak .sameObject true).1 :=
  ⟨((mergePeaks_frame fullyPopulated true).1 (.distinctObject twoFour)).1,
    ((mergePeaks_frame fullyPopulated true).2.1 twoFour).1,
    (mergePeaks_frame singlePeak true).2.2.1⟩

/-- C18: after `clear` there are no peaks. With `clear_meta_data` false the name, the
settings, the three array sets (and the range cache) are unchanged; with `clear_meta_data` true
the name is empty, the three array sets are empty, the settings are the default-constructed
ones and the range cache is cleared. -/
theorem clear_effect (c : MSChromatogram) :
    (∀ clear_meta_data, (c.clear clear_meta_data).peaks = []) ∧
    ((c.clear false).name = c.name ∧ (c.clear false).settings = c.settings ∧
      (c.clear false).float_data_arrays = c.float_data_arrays ∧
      (c.clear false).string_data_arrays = c.string_data_arrays ∧
      (c.clear false).integer_data_arrays = c.integer_data_arrays ∧
      (c.clear false).ranges = c.ranges) ∧
    ((c.clear true).name = "" ∧
      (c.clear true).settings = ChromatogramSettings.defaultConstructed ∧
      (c.clear true).float_data_arrays = [] ∧
      (c.clear true).string_data_arrays = [] ∧
      (c.clear true).integer_data_arrays = [] ∧
      (c.clear true).ranges = c.ranges.clearRanges ∧
      (c.clear true).ranges = { rt_range := none, intensity_range := none }) := by
  refine ⟨?_, ?_, ?_⟩
  · intro b; cases b <;> simp [clear]
  · simp [clear]
  · simp [clear, RangeManager.clearRanges]

end MSChromatogram

/-! ## Lemmas on iterator ranges -/

theorem length_iteratorRange (l : List ChromatogramPeak) (b e : Nat) (he : e ≤ l.length) :
    (iteratorRange l b e).length = e - b := by
  simp [iteratorRange, Nat.min_eq_left he]

theorem getD_iteratorRange (l : List ChromatogramPeak) (b e k : Nat) (hk : b + k < e) :
    (iteratorRange l b e).getD k default = l.getD (b + k) default := by
  simp only [iteratorRange, List.getD_eq_getElem?_getD, List.getElem?_drop]
  rw [List.getElem?_take_of_lt hk]

theorem pairwise_iteratorRange (l : List ChromatogramPeak) (b e : Nat)
    (hs : l.Pairwise (fun a b => a.rt ≤ b.rt)) :
    (iteratorRange l b e).Pairwise (fun a b => a.rt ≤ b.rt) :=
  hs.sublist (((List.drop_sublist b _).trans (List.take_sublist e l)))

theorem iteratorRange_all (l : List ChromatogramPeak) : iteratorRange l 0 l.length = l := by
  simp [iteratorRange]

namespace MSChromatogram

theorem RTBeginRange_isFirst (c : MSChromatogram) (hs : c.isSorted = true) (rt : ℚ)
    (b e : Nat) (hbe : b ≤ e) (he : e ≤ c.peaks.length) :
    c.IsFirstIndexWith (fun x => rt ≤ x) b e (c.RTBeginRange b rt e) := by
  have hpw := pairwise_iteratorRange c.peaks b e ((isSortedFrom_iff c.peaks).mp hs)
  have hlen := length_iteratorRange c.peaks b e he
  have hle := lower_bound_le (iteratorRange c.peaks b e) rt
  unfold RTBeginRange
  refine ⟨by omega, by omega, ?_, ?_⟩
  · intro j hbj hj
    have := lt_of_lt_lower_bound (iteratorRange c.peaks b e) rt hpw (j - b) (by omega)
    rw [getD_iteratorRange _ _ _ _ (by omega)] at this
    have e1 : b + (j - b) = j := by omega
    rw [e1] at this
    exact not_le.mpr this
  · intro j hij hj
    have h1 := le_at_lower_bound (iteratorRange c.peaks b e) rt hpw (by omega)
    have h2 := getD_rt_mono (iteratorRange c.peaks b e) hpw
      (lower_bound (iteratorRange c.peaks b e) rt) (j - b) (by omega) (by omega)
    rw [getD_iteratorRange _ _ _ (j - b) (by omega)] at h2
    have e1 : b + (j - b) = j := by omega
    rw [e1] at h2
    exact le_trans h1 h2

theorem RTEndRange_isFirst (c : MSChromatogram) (hs : c.isSorted = true) (rt : ℚ)
    (b e : Nat) (hbe : b ≤ e) (he : e ≤ c.peaks.length) :
    c.IsFirstIndexWith (fun x => rt < x) b e (c.RTEndRange b rt e) := by
  have hpw := pairwise_iteratorRange c.peaks b e ((isSortedFrom_iff c.peaks).mp hs)
  have hlen := length_iteratorRange c.peaks b e he
  have hle := upper_bound_le (iteratorRange c.peaks b e) rt
  unfold RTEndRange
  refine ⟨by omega, by omega, ?_, ?_⟩
  · intro j hbj hj
    have := le_of_lt_upper_bound (iteratorRange c.peaks b e) rt hpw (j - b) (by omega)
    rw [getD_iteratorRange _ _ _ _ (by omega)] at this
    have e1 : b + (j - b) = j := by omega
    rw [e1] at this
    exact not_lt.mpr this
  · intro j hij hj
    have h1 := lt_at_upper_bound (iteratorRange c.peaks b e) rt hpw (by omega)
    have h2 := getD_rt_mono (iteratorRange c.peaks b e) hpw
      (upper_bound (iteratorRange c.peaks b e) rt) (j - b) (by omega) (by omega)
    rw [getD_iteratorRange _ _ _ (j - b) (by omega)] at h2
    have e1 : b + (j - b) = j := by omega
    rw [e1] at h2
    exact lt_of_lt_of_le h1 h2

theorem RTBeginRange_all (c : MSChromatogram) (rt : ℚ) :
    c.RTBeginRange 0 rt c.peaks.length = c.RTBegin rt := by
  simp [RTBeginRange, RTBegin, iteratorRange_all]

theorem RTEndRange_all (c : MSChromatogram) (rt : ℚ) :
    c.RTEndRange 0 rt c.peaks.length = c.RTEnd rt := by
  simp [RTEndRange, RTEnd, iteratorRange_all]

/-- C13: on a chromatogram sorted ascending by position, `RTBegin(rt)` is the first index
whose position is at or after `rt` and `RTEnd(rt)` the first index whose position is after
`rt` (the size when there is none), with every peak from that index on at or after `rt`
(after `rt`); the overloads on a sub-range `[begin, last)` of the container give the same
bounds within the sub-range; `PosBegin` and `PosEnd` return what `RTBegin` and `RTEnd`
return. -/
theorem RTBegin_RTEnd_bounds (c : MSChromatogram) (hs : c.isSorted = true) (rt : ℚ) :
    c.IsFirstIndexWith (fun x => rt ≤ x) 0 c.peaks.length (c.RTBegin rt) ∧
    c.IsFirstIndexWith (fun x => rt < x) 0 c.peaks.length (c.RTEnd rt) ∧
    (∀ begin last, begin ≤ last → last ≤ c.peaks.length →
      c.IsFirstIndexWith (fun x => rt ≤ x) begin last (c.RTBeginRange begin rt last) ∧
      c.IsFirstIndexWith (fun x => rt < x) begin last (c.RTEndRange begin rt last)) ∧
    c.PosBegin rt = c.RTBegin rt ∧ c.PosEnd rt = c.RTEnd rt ∧
    (∀ begin last, c.PosBeginRange begin rt last = c.RTBeginRange begin rt last ∧
      c.PosEndRange begin rt last = c.RTEndRange begin rt last) := by
  refine ⟨?_, ?_, ?_, rfl, rfl, fun _ _ => ⟨rfl, rfl⟩⟩
  · rw [← RTBeginRange_all]
    exact RTBeginRange_isFirst c hs rt 0 _ (Nat.zero_le _) (le_refl _)
  · rw [← RTEndRange_all]
    exact RTEndRange_isFirst c hs rt 0 _ (Nat.zero_le _) (le_refl _)
  · intro b e hbe he
    exact ⟨RTBeginRange_isFirst c hs rt b e hbe he, RTEndRange_isFirst c hs rt b e hbe he⟩

/-- Witness for C13: the bounds of the targets 3, 6 and 0 on the positions 1, 3, 5. -/
theorem RTBegin_RTEnd_bounds_witness :
    oneThreeFive.isSorted = true ∧
    oneThreeFive.RTBegin 3 = 1 ∧ oneThreeFive.RTEnd 3 = 2 ∧
    oneThreeFive.RTBegin 6 = 3 ∧ oneThreeFive.RTEnd 0 = 0 ∧
    oneThreeFive.RTBeginRange 2 3 3 = 2 ∧ oneThreeFive.RTEndRange 0 3 1 = 1 ∧
    oneThreeFive.IsFirstIndexWith (fun x => 3 ≤ x) 0 3 1 ∧
    oneThreeFive.IsFirstIndexWith (fun x => 3 < x) 0 3 2 :=
  have h := RTBegin_RTEnd_bounds oneThreeFive (by decide) 3
  ⟨by decide, by decide, by decide, by decide, by decide, by decide, by decide, h.1, h.2.1⟩

end MSChromatogram

/-! ## Lemmas on the order of equal keys -/

theorem map_orderedInsert_of_agree {α β : Type} (f : α → β) (r1 : α → α → Prop)
    [DecidableRel r1] (r2 : β → β → Prop) [DecidableRel r2] (t : α) (M : List α)
    (h : ∀ m ∈ M, (r1 t m ↔ r2 (f t) (f m))) :
    (M.orderedInsert r1 t).map f = (M.map f).orderedInsert r2 (f t) := by
  induction M with
  | nil => rfl
  | cons m M ih =>
    have hm := h m (List.mem_cons_self _ _)
    simp only [List.orderedInsert, List.map_cons]
    by_cases h1 : r1 t m
    · rw [if_pos h1, if_pos (hm.mp h1)]
      rfl
    · rw [if_neg h1, if_neg (fun h2 => h1 (hm.mpr h2))]
      rw [List.map_cons, ih (fun x hx => h x (List.mem_cons_of_mem _ hx))]

theorem map_insertionSort_of_agree {α β : Type} (f : α → β) (r1 : α → α → Prop)
    [DecidableRel r1] (r2 : β → β → Prop) [DecidableRel r2] (L : List α)
    (h : L.Pairwise (fun a b => (r1 a b ↔ r2 (f a) (f b)))) :
    (L.insertionSort r1).map f = (L.map f).insertionSort r2 := by
  induction L with
  | nil => rfl
  | cons t L ih =>
    have ht := List.pairwise_cons.mp h
    simp only [List.insertionSort, List.map_cons]
    rw [map_orderedInsert_of_agree f r1 r2 t _ (fun m hm =>
      ht.1 m ((List.mem_insertionSort r1).mp hm)), ih ht.2]

theorem pairLess_false_iff (a b : ℚ × Nat) :
    pairLess b a = false ↔ a.1 < b.1 ∨ (a.1 = b.1 ∧ a.2 ≤ b.2) := by
  rw [← Bool.not_eq_true, pairLess_iff]
  constructor
  · intro h
    rcases lt_trichotomy a.1 b.1 with h1 | h1 | h1
    · exact Or.inl h1
    · right
      refine ⟨h1, ?_⟩
      by_contra hc
      exact h (Or.inr ⟨h1.symm, by omega⟩)
    · exact absurd (Or.inl h1) h
  · rintro (h | ⟨h1, h2⟩)
    · rintro (h' | ⟨h1', _⟩)
      · exact absurd h (not_lt.mpr h'.le)
      · rw [h1'] at h; exact absurd h (lt_irrefl _)
    · rintro (h' | ⟨_, h2'⟩)
      · rw [h1] at h'; exact absurd h' (lt_irrefl _)
      · omega

theorem pairLess_antisymm (a b : ℚ × Nat) (h1 : pairLess b a = false)
    (h2 : pairLess a b = false) : a = b := by
  rw [pairLess_false_iff] at h1 h2
  rcases h1 with h1 | ⟨h1, h1'⟩
  · rcases h2 with h2 | ⟨h2, _⟩
    · exact absurd h1 (not_lt.mpr h2.le)
    · rw [h2] at h1; exact absurd h1 (lt_irrefl _)
  · rcases h2 with h2 | ⟨_, h2'⟩
    · rw [h1] at h2; exact absurd h2 (lt_irrefl _)
    · exact Prod.ext h1 (by omega)

/-- Every conforming sort of pairs is the insertion sort of the pairs: the pairs are totally
ordered, so the sorted rearrangement is unique. -/
theorem StdSort.sort_pairLess (S : StdSort) (T : List (ℚ × Nat)) :
    S.sort pairLess T = T.insertionSort (fun a b => pairLess b a = false) := by
  haveI : IsAntisymm (ℚ × Nat) (fun a b => pairLess b a = false) :=
    ⟨fun a b h1 h2 => pairLess_antisymm a b h1 h2⟩
  have hp : (S.sort pairLess T).Perm (T.insertionSort (fun a b => pairLess b a = false)) :=
    (S.perm _ _).trans (List.perm_insertionSort _ T).symm
  exact List.eq_of_perm_of_sorted hp (S.sorted _ _ strictWeak_pairLess)
    (insertionStdSort.sorted pairLess T strictWeak_pairLess)

theorem StdSort.sort_pairGreater (S : StdSort) (T : List (ℚ × Nat)) :
    S.sort pairGreater T = (T.insertionSort (fun a b => pairLess b a = false)).reverse := by
  haveI : IsAntisymm (ℚ × Nat) (fun a b => pairLess b a = false) :=
    ⟨fun a b h1 h2 => pairLess_antisymm a b h1 h2⟩
  have hp : (S.sort pairGreater T).reverse.Perm
      (T.insertionSort (fun a b => pairLess b a = false)) :=
    ((List.reverse_perm _).trans (S.perm _ _)).trans (List.perm_insertionSort _ T).symm
  have hs : (S.sort pairGreater T).reverse.Pairwise (fun a b => pairLess b a = false) := by
    rw [List.pairwise_reverse]
    exact S.sorted pairGreater T strictWeak_pairGreater
  have := List.eq_of_perm_of_sorted hp hs
    (insertionStdSort.sorted pairLess T strictWeak_pairLess)
  rw [← this, List.reverse_reverse]

theorem indexPairs_snd_lt (key : ChromatogramPeak → ℚ) (ps : List ChromatogramPeak) (n : Nat) :
    (indexPairs key ps n).Pairwise (fun a b => a.2 < b.2) := by
  have h := List.pairwise_lt_range' n ps.length
  rw [← map_snd_indexPairs key ps n, List.pairwise_map] at h
  exact h

/-- Looking the peaks up along the insertion sort of the index list gives the stable sort of
the peaks by the key. -/
theorem lookup_insertionSort_indexPairs (ps : List ChromatogramPeak) :
    ((indexPairs ChromatogramPeak.intensity ps 0).insertionSort
        (fun a b => pairLess b a = false)).map (fun e => ps[e.2]?)
      = (ps.insertionSort (fun a b => a.intensity ≤ b.intensity)).map some := by
  have hagree : (indexPairs ChromatogramPeak.intensity ps 0).Pairwise
      (fun a b => (pairLess b a = false ↔
        optIntensity ((fun e : ℚ × Nat => ps[e.2]?) a)
          ≤ optIntensity ((fun e : ℚ × Nat => ps[e.2]?) b))) := by
    refine (indexPairs_snd_lt _ ps 0).imp_of_mem ?_
    intro a b ha hb hab
    obtain ⟨-, p, hp, hpk⟩ := mem_indexPairs _ ps 0 a ha
    obtain ⟨-, q, hq, hqk⟩ := mem_indexPairs _ ps 0 b hb
    simp only [Nat.sub_zero] at hp hq
    simp only [hp, hq, optIntensity, Option.map_some', Option.getD_some, hpk, hqk]
    rw [pairLess_false_iff]
    constructor
    · rintro (h | ⟨h, _⟩)
      · exact h.le
      · exact h.le
    · intro h
      rcases lt_or_eq_of_le h with h1 | h1
      · exact Or.inl h1
      · exact Or.inr ⟨h1, hab.le⟩
  rw [map_insertionSort_of_agree (fun e : ℚ × Nat => ps[e.2]?) _
    (fun a b => optIntensity a ≤ optIntensity b) _ hagree]
  have hmap : (indexPairs ChromatogramPeak.intensity ps 0).map (fun e => ps[e.2]?)
      = ps.map some := by
    have := congrArg (List.map (fun i => ps[i]?)) (map_snd_indexPairs ChromatogramPeak.intensity ps 0)
    rw [List.map_map, ← List.range_eq_range', map_getElem?_range] at this
    exact this
  rw [hmap]
  symm
  apply map_insertionSort_of_agree some
  exact List.pairwise_of_forall (fun a b => by simp [optIntensity])

/-! ## Sorting a sorted chromatogram, the order of equal intensities, reads of short arrays -/

/-- A conforming sort leaves a strictly ordered sequence as it is. -/
theorem StdSort.sort_eq_self (S : StdSort) {α : Type} (lt : α → α → Bool) (h : StrictWeak lt)
    (l : List α) (hl : l.Pairwise (fun a b => lt a b = true)) : S.sort lt l = l := by
  have hp := S.perm lt l
  have hs := S.sorted lt l h
  generalize S.sort lt l = l' at hp hs
  induction l generalizing l' with
  | nil => exact List.perm_nil.mp hp
  | cons x xs ih =>
    cases l' with
    | nil => exact absurd hp.symm (by simp)
    | cons y ys =>
      have hxs := List.pairwise_cons.mp hl
      have hys := List.pairwise_cons.mp hs
      have hy : y ∈ x :: xs := hp.subset (List.mem_cons_self _ _)
      have hxy : y = x := by
        rcases List.mem_cons.mp hy with h1 | h1
        · exact h1
        · have hx : x ∈ y :: ys := hp.symm.subset (List.mem_cons_self _ _)
          rcases List.mem_cons.mp hx with h2 | h2
          · exact h2.symm
          · have h3 := hys.1 x h2
            have h4 := hxs.1 y h1
            rw [h3] at h4
            exact absurd h4 (by decide)
      subst hxy
      rw [ih hxs.2 ys hp.cons_inv hys.2]

theorem indexPairs_pairwise (key : ChromatogramPeak → ℚ) (l : List ChromatogramPeak) (n : Nat)
    (hs : l.Pairwise (fun a b => key a ≤ key b)) :
    (indexPairs key l n).Pairwise (fun a b => pairLess a b = true) := by
  induction l generalizing n with
  | nil => exact List.Pairwise.nil
  | cons p ps ih =>
    have hps := List.pairwise_cons.mp hs
    rw [indexPairs, List.pairwise_cons]
    refine ⟨?_, ih (n + 1) hps.2⟩
    intro e he
    obtain ⟨hn, q, hq, hk⟩ := mem_indexPairs key ps (n + 1) e he
    have hqm : q ∈ ps := List.mem_iff_getElem?.mpr ⟨_, hq⟩
    have hle := hps.1 q hqm
    rw [pairLess_iff]
    rcases lt_or_eq_of_le hle with h1 | h1
    · left; simpa [hk] using h1
    · right
      exact ⟨by simpa [hk] using h1, by simp only; omega⟩

theorem gather_range {α : Type} (v : List α) : gather v (List.range v.length) = some v :=
  (gather_eq_some v _ v).mpr (map_getElem?_range v).symm

theorem reindex_self {α : Type} (key : ChromatogramPeak → ℚ) (ps : List ChromatogramPeak)
    (v : List α) (hv : v ≠ [] → v.length = ps.length) :
    reindex (indexPairs key ps 0) v = some v := by
  unfold reindex
  by_cases h0 : v = []
  · subst h0; simp [gather]
  · have hvn := hv h0
    rw [if_pos (by rw [length_indexPairs]; omega)]
    have ht : (indexPairs key ps 0).take v.length = indexPairs key ps 0 := by
      rw [hvn, ← length_indexPairs key ps 0]; exact List.take_length _
    rw [ht, map_snd_indexPairs, ← List.range_eq_range', ← hvn]
    exact gather_range v

theorem reindexAll_self {α : Type} (key : ChromatogramPeak → ℚ) (ps : List ChromatogramPeak)
    (vs : List (List α)) (hv : ∀ v ∈ vs, v ≠ [] → v.length = ps.length) :
    reindexAll (indexPairs key ps 0) vs = some vs := by
  induction vs with
  | nil => rfl
  | cons v vs ih =>
    rw [reindexAll, reindex_self key ps v (hv v (List.mem_cons_self _ _)),
      ih (fun u hu => hv u (List.mem_cons_of_mem _ hu))]

theorem indexPairs_nodup (key : ChromatogramPeak → ℚ) (ps : List ChromatogramPeak) (n : Nat) :
    (indexPairs key ps n).Nodup := by
  apply List.Nodup.of_map Prod.snd
  rw [map_snd_indexPairs]
  exact List.nodup_range' n ps.length

theorem StdSort.sort_pairLess_strict (S : StdSort) (T : List (ℚ × Nat)) (hT : T.Nodup) :
    (S.sort pairLess T).Pairwise (fun a b => pairLess a b = true) := by
  have hn : (S.sort pairLess T).Nodup := (S.perm pairLess T).nodup_iff.mpr hT
  refine ((S.sorted pairLess T strictWeak_pairLess).and hn).imp ?_
  intro a b hab
  by_contra hc
  exact hab.2 (pairLess_antisymm a b hab.1 (by simpa using hc))

theorem StdSort.sort_pairGreater_strict (S : StdSort) (T : List (ℚ × Nat)) (hT : T.Nodup) :
    (S.sort pairGreater T).Pairwise (fun a b => pairLess b a = true) := by
  have hn : (S.sort pairGreater T).Nodup := (S.perm pairGreater T).nodup_iff.mpr hT
  refine ((S.sorted pairGreater T strictWeak_pairGreater).and hn).imp ?_
  intro a b hab
  by_contra hc
  exact hab.2 (pairLess_antisymm a b (by simpa using hc) hab.1)

namespace MSChromatogram

/-- The inner loop reads the array exactly at the indices `readIndices`. -/
theorem reindex_eq_readIndices {α : Type} (si : List (ℚ × Nat)) (v : List α) :
    reindex si v = if v.length ≤ si.length then gather v (readIndices si v) else none := rfl

theorem applySorting_indexPairs (key : ChromatogramPeak → ℚ) (c : MSChromatogram)
    (ha : ArraysAligned c) : applySorting c (indexPairs key c.peaks 0) = some c := by
  unfold applySorting
  rw [map_snd_indexPairs, ← List.range_eq_range', gather_range,
    reindexAll_self key c.peaks _ ha.1, reindexAll_self key c.peaks _ ha.2.1,
    reindexAll_self key c.peaks _ ha.2.2]

/-- C15, amended: on a chromatogram that is already sorted by position, whose non-empty meta
data arrays have as many entries as there are peaks, and in which the float set is non-empty
(index-based branch, where equal positions keep their index order) or no two peaks have the
same position, `sortByPosition` changes nothing: the peak sequence and every array are what
they were. This holds for every conforming `std::sort`. -/
theorem sortByPosition_sorted_noop (S : StdSort) (c : MSChromatogram)
    (hs : c.isSorted = true) (ha : ArraysAligned c)
    (h : c.float_data_arrays ≠ [] ∨ c.peaks.Pairwise (fun a b => a.rt ≠ b.rt)) :
    sortByPosition S c = some c := by
  have hpw := (isSortedFrom_iff c.peaks).mp hs
  unfold sortByPosition
  split
  · next hf =>
    have hd : c.peaks.Pairwise (fun a b => a.rt ≠ b.rt) := by
      rcases h with h | h
      · exact absurd (List.isEmpty_iff.mp hf) h
      · exact h
    have hlt : c.peaks.Pairwise (fun a b => ChromatogramPeak.PositionLess a b = true) :=
      (hpw.and hd).imp (fun {a b} hab => by
        simpa [ChromatogramPeak.PositionLess] using lt_of_le_of_ne hab.1 hab.2)
    rw [S.sort_eq_self _ strictWeak_PositionLess _ hlt]
  · simp only []
    rw [S.sort_eq_self _ strictWeak_pairLess _ (indexPairs_pairwise _ _ 0 hpw)]
    exact applySorting_indexPairs _ c ha

/-- Witness for C15 as amended: the sorted chromatogram `threeByPosition`, which has a float
array, with the sort of the GNU library. -/
theorem sortByPosition_sorted_noop_witness :
    threeByPosition.isSorted = true ∧ ArraysAligned threeByPosition ∧
    threeByPosition.float_data_arrays ≠ [] ∧
    sortByPosition libstdcxxStdSort threeByPosition = some threeByPosition :=
  have ha : ArraysAligned threeByPosition := by simp [ArraysAligned, threeByPosition]
  ⟨by decide, ha, by decide,
    sortByPosition_sorted_noop libstdcxxStdSort threeByPosition (by decide) ha
      (Or.inl (by decide))⟩

set_option maxRecDepth 1000000 in
/-- The `std::sort` of the GNU library on the seventeen peaks of `seventeenTied`, which compare
equivalent: the choice of the pivot swaps the first peak with the middle one, the partition
swaps the peaks at the offsets 1 to 8 with those at 16 down to 9, and the insertion sorts move
nothing. -/
theorem sort_seventeenTied :
    LibSort.sortIndices (LibSort.byIndex ChromatogramPeak.PositionLess seventeenTied.peaks) 17
      = [8, 16, 15, 14, 13, 12, 11, 10, 9, 0, 7, 6, 5, 4, 3, 2, 1] ∧
    libstdcxxStdSort.sort ChromatogramPeak.PositionLess seventeenTied.peaks
      = [⟨1, 8⟩, ⟨1, 16⟩, ⟨1, 15⟩, ⟨1, 14⟩, ⟨1, 13⟩, ⟨1, 12⟩, ⟨1, 11⟩, ⟨1, 10⟩, ⟨1, 9⟩,
        ⟨1, 0⟩, ⟨1, 7⟩, ⟨1, 6⟩, ⟨1, 5⟩, ⟨1, 4⟩, ⟨1, 3⟩, ⟨1, 2⟩, ⟨1, 1⟩] := by
  constructor <;> decide

/-- Up to sixteen elements the `std::sort` of the GNU library is an insertion sort, which
leaves equivalent elements in place: the two peaks of `tiedPositions` stay where they are. -/
theorem sortByPosition_tiedPositions :
    sortByPosition libstdcxxStdSort tiedPositions = some tiedPositions := by
  decide

/-- C15, as stated, fails: `seventeenTied` is sorted by position and has no array, so the
in-place branch runs `std::sort`, which is not stable. The `std::sort` of the GNU library puts
the seventeen peaks, which are all at position 1 and had the intensities 0 to 16 in this order,
into the order 8, 16, 15, ..., 9, 0, 7, 6, ..., 1 of their intensities: the peak sequence after
the call is not the one before. -/
theorem sortByPosition_sorted_noop_counterexample :
    seventeenTied.isSorted = true ∧ ArraysAligned seventeenTied ∧
    sortByPosition libstdcxxStdSort seventeenTied
      = some { seventeenTied with
          peaks := [⟨1, 8⟩, ⟨1, 16⟩, ⟨1, 15⟩, ⟨1, 14⟩, ⟨1, 13⟩, ⟨1, 12⟩, ⟨1, 11⟩, ⟨1, 10⟩,
            ⟨1, 9⟩, ⟨1, 0⟩, ⟨1, 7⟩, ⟨1, 6⟩, ⟨1, 5⟩, ⟨1, 4⟩, ⟨1, 3⟩, ⟨1, 2⟩, ⟨1, 1⟩] } ∧
    sortByPosition libstdcxxStdSort seventeenTied ≠ some seventeenTied := by
  have h : sortByPosition libstdcxxStdSort seventeenTied
      = some { seventeenTied with
          peaks := [⟨1, 8⟩, ⟨1, 16⟩, ⟨1, 15⟩, ⟨1, 14⟩, ⟨1, 13⟩, ⟨1, 12⟩, ⟨1, 11⟩, ⟨1, 10⟩,
            ⟨1, 9⟩, ⟨1, 0⟩, ⟨1, 7⟩, ⟨1, 6⟩, ⟨1, 5⟩, ⟨1, 4⟩, ⟨1, 3⟩, ⟨1, 2⟩, ⟨1, 1⟩] } := by
    have hs : sortByPosition libstdcxxStdSort seventeenTied
        = some { seventeenTied with
            peaks := libstdcxxStdSort.sort ChromatogramPeak.PositionLess seventeenTied.peaks } :=
      rfl
    rw [hs, sort_seventeenTied.2]
  refine ⟨by decide, by simp [ArraysAligned, seventeenTied], h, ?_⟩
  rw [h]
  decide

theorem intensityAt_of_mem (c : MSChromatogram) (si : List (ℚ × Nat))
    (h : SortedIndices ChromatogramPeak.intensity c.peaks si) (e : ℚ × Nat) (he : e ∈ si) :
    c.intensityAt e.2 = e.1 := by
  obtain ⟨p, hp, hk⟩ := h.lookup e he
  simp [intensityAt, List.getD_eq_getElem?_getD, hp, hk]

/-- The peaks after the index-based branch, read off the sorted index list. -/
theorem applySorting_peaks_map (c c' : MSChromatogram) (si : List (ℚ × Nat))
    (h : applySorting c si = some c') :
    c'.peaks.map some = si.map (fun e => c.peaks[e.2]?) := by
  have := (gather_eq_some _ _ _).mp (applySorting_peaks c c' si h)
  simpa [List.map_map] using this

theorem sortByIntensity_general_ascending (S : StdSort) (c c' : MSChromatogram)
    (h : applySorting c (S.sort pairLess (indexPairs ChromatogramPeak.intensity c.peaks 0))
      = some c') :
    c'.peaks = stableSortByIntensity c.peaks ∧
    ∃ s : List Nat, s.Perm (List.range c.peaks.length) ∧
      c'.peaks.map some = s.map (fun i => c.peaks[i]?) ∧
      s.Pairwise (fun i j => c.intensityAt i < c.intensityAt j ∨
        (c.intensityAt i = c.intensityAt j ∧ i < j)) := by
  have hsi : SortedIndices ChromatogramPeak.intensity c.peaks
      (S.sort pairLess (indexPairs ChromatogramPeak.intensity c.peaks 0)) := S.perm _ _
  have hm := applySorting_peaks_map c c' _ h
  constructor
  · rw [S.sort_pairLess, lookup_insertionSort_indexPairs] at hm
    exact (List.map_injective_iff.mpr (Option.some_injective _)) hm
  · refine ⟨_, hsi.snd_perm, by simpa [List.map_map] using hm, ?_⟩
    rw [List.pairwise_map]
    refine (S.sort_pairLess_strict _ (indexPairs_nodup _ _ 0)).imp_of_mem ?_
    intro a b ha hb hab
    rw [intensityAt_of_mem c _ hsi a ha, intensityAt_of_mem c _ hsi b hb]
    exact (pairLess_iff a b).mp hab

theorem sortByIntensity_general_descending (S : StdSort) (c c' : MSChromatogram)
    (h : applySorting c (S.sort pairGreater (indexPairs ChromatogramPeak.intensity c.peaks 0))
      = some c') :
    c'.peaks = (stableSortByIntensity c.peaks).reverse ∧
    ∃ s : List Nat, s.Perm (List.range c.peaks.length) ∧
      c'.peaks.map some = s.map (fun i => c.peaks[i]?) ∧
      s.Pairwise (fun i j => c.intensityAt j < c.intensityAt i ∨
        (c.intensityAt j = c.intensityAt i ∧ j < i)) := by
  have hsi : SortedIndices ChromatogramPeak.intensity c.peaks
      (S.sort pairGreater (indexPairs ChromatogramPeak.intensity c.peaks 0)) := S.perm _ _
  have hm := applySorting_peaks_map c c' _ h
  constructor
  · rw [S.sort_pairGreater, List.map_reverse, lookup_insertionSort_indexPairs,
      ← List.map_reverse] at hm
    exact (List.map_injective_iff.mpr (Option.some_injective _)) hm
  · refine ⟨_, hsi.snd_perm, by simpa [List.map_map] using hm, ?_⟩
    rw [List.pairwise_map]
    refine (S.sort_pairGreater_strict _ (indexPairs_nodup _ _ 0)).imp_of_mem ?_
    intro a b ha hb hab
    rw [intensityAt_of_mem c _ hsi a ha, intensityAt_of_mem c _ hsi b hb]
    exact (pairLess_iff b a).mp hab

/-- C19, amended: on the index-based branch of `sortByIntensity`, whenever the call completes
(it does when the arrays are aligned), with `reverse` false the peaks are the stable ascending
sort of the input by intensity, peaks of equal intensity in ascending order of original index;
with `reverse` true the pairs are sorted in descending order as a whole, so the peaks are the
reverse of the stable ascending sort, peaks of equal intensity in descending order of original
index. -/
theorem sortByIntensity_general_order (S : StdSort) (c : MSChromatogram)
    (hgate : (c.float_data_arrays.isEmpty && !c.string_data_arrays.isEmpty
      && !c.integer_data_arrays.isEmpty) = false) :
    (ArraysAligned c → (∃ c', sortByIntensity S c false = some c') ∧
      (∃ c', sortByIntensity S c true = some c')) ∧
    (∀ c', sortByIntensity S c false = some c' →
      c'.peaks = stableSortByIntensity c.peaks ∧
      ∃ s : List Nat, s.Perm (List.range c.peaks.length) ∧
        c'.peaks.map some = s.map (fun i => c.peaks[i]?) ∧
        s.Pairwise (fun i j => c.intensityAt i < c.intensityAt j ∨
          (c.intensityAt i = c.intensityAt j ∧ i < j))) ∧
    (∀ c', sortByIntensity S c true = some c' →
      c'.peaks = (stableSortByIntensity c.peaks).reverse ∧
      ∃ s : List Nat, s.Perm (List.range c.peaks.length) ∧
        c'.peaks.map some = s.map (fun i => c.peaks[i]?) ∧
        s.Pairwise (fun i j => c.intensityAt j < c.intensityAt i ∨
          (c.intensityAt j = c.intensityAt i ∧ j < i))) := by
  refine ⟨fun ha => ⟨sortByIntensity_isSome S c false ha, sortByIntensity_isSome S c true ha⟩,
    ?_, ?_⟩
  · intro c' h
    unfold sortByIntensity at h
    rw [hgate] at h
    exact sortByIntensity_general_ascending S c c' h
  · intro c' h
    unfold sortByIntensity at h
    rw [hgate] at h
    exact sortByIntensity_general_descending S c c' h

/-- On two peaks of equal intensity the descending index sort swaps the peaks and the array
entries, whatever the conforming sort. -/
theorem sortByIntensity_tiedIntensities (S : StdSort) :
    sortByIntensity S tiedIntensities true
      = some tiedIntensitiesSwapped := by
  have h := S.sort_pair pairGreater strictWeak_pairGreater (5, 0) (5, 1) (by decide)
  simp [sortByIntensity, tiedIntensities, tiedIntensitiesSwapped, indexPairs, h, applySorting,
    gather, reindexAll, reindex]

/-- C19, as stated, fails for `reverse` true: `tiedIntensities` takes the index-based branch,
its two peaks have the same intensity, and the call puts the peak of original index 1 in front
of the peak of original index 0, whereas a stable descending sort leaves them in place. -/
theorem sortByIntensity_stable_counterexample :
    (tiedIntensities.float_data_arrays.isEmpty && !tiedIntensities.string_data_arrays.isEmpty
      && !tiedIntensities.integer_data_arrays.isEmpty) = false ∧
    ArraysAligned tiedIntensities ∧
    sortByIntensity insertionStdSort tiedIntensities true
      = some tiedIntensitiesSwapped ∧
    stableSortByIntensityDescending tiedIntensities.peaks = [⟨0, 5⟩, ⟨1, 5⟩] ∧
    sortByIntensity insertionStdSort tiedIntensities true
      ≠ some { tiedIntensities with
          peaks := stableSortByIntensityDescending tiedIntensities.peaks,
          float_data_arrays := [[1, 2]] } := by
  refine ⟨by decide, by simp [ArraysAligned, tiedIntensities], by decide, by decide, by decide⟩

/-- Witness for C19 as amended: `threeWithArrays` ascending, `tiedIntensities` descending. -/
theorem sortByIntensity_general_order_witness :
    (threeWithArrays.float_data_arrays.isEmpty && !threeWithArrays.string_data_arrays.isEmpty
      && !threeWithArrays.integer_data_arrays.isEmpty) = false ∧
    sortByIntensity insertionStdSort threeWithArrays false = some threeByIntensity ∧
    threeByIntensity.peaks = stableSortByIntensity threeWithArrays.peaks ∧
    sortByIntensity reversingStdSort tiedIntensities true
      = some tiedIntensitiesSwapped ∧
    tiedIntensitiesSwapped.peaks = (stableSortByIntensity tiedIntensities.peaks).reverse :=
  ⟨by decide, by decide,
    ((sortByIntensity_general_order insertionStdSort threeWithArrays (by decide)).2.1
      threeByIntensity (by decide)).1,
    by decide,
    ((sortByIntensity_general_order reversingStdSort tiedIntensities (by decide)).2.2
      tiedIntensitiesSwapped (by decide)).1⟩

/-- C20 (defect of the code): on the index-based branch of `sortByIntensity` the inner loop
runs over `j < v.size()` but reads `v` at `sorted_indices[j].second`. On `shortFloatArray` (two
peaks, one float array of length 1) every conforming `std::sort` yields the index list
`[(1, 1), (2, 0)]`, so the single read of the array is at index 1, past its end: the call has
no defined result. -/
theorem sortByIntensity_reads_past_short_array (S : StdSort) :
    (shortFloatArray.float_data_arrays.isEmpty && !shortFloatArray.string_data_arrays.isEmpty
      && !shortFloatArray.integer_data_arrays.isEmpty) = false ∧
    shortFloatArray.float_data_arrays = [[7]] ∧
    ([7] : List ℚ).length < shortFloatArray.peaks.length ∧
    S.sort pairLess (indexPairs ChromatogramPeak.intensity shortFloatArray.peaks 0)
      = [(1, 1), (2, 0)] ∧
    readIndices (S.sort pairLess (indexPairs ChromatogramPeak.intensity shortFloatArray.peaks 0))
      ([7] : List ℚ) = [1] ∧
    ¬ (∀ i ∈ readIndices
        (S.sort pairLess (indexPairs ChromatogramPeak.intensity shortFloatArray.peaks 0))
        ([7] : List ℚ), i < ([7] : List ℚ).length) ∧
    reindex (S.sort pairLess (indexPairs ChromatogramPeak.intensity shortFloatArray.peaks 0))
      ([7] : List ℚ) = none ∧
    sortByIntensity S shortFloatArray false = none := by
  have h : S.sort pairLess (indexPairs ChromatogramPeak.intensity shortFloatArray.peaks 0)
      = [(1, 1), (2, 0)] :=
    S.sort_pair pairLess strictWeak_pairLess (2, 0) (1, 1) (by decide)
  have hr : readIndices
      (S.sort pairLess (indexPairs ChromatogramPeak.intensity shortFloatArray.peaks 0))
      ([7] : List ℚ) = [1] := by
    rw [h]; rfl
  refine ⟨by decide, rfl, by decide, h, hr, ?_, ?_, ?_⟩
  · rw [hr]; simp
  · rw [h]; rfl
  · have hs : sortByIntensity S shortFloatArray false = applySorting shortFloatArray
        (S.sort pairLess (indexPairs ChromatogramPeak.intensity shortFloatArray.peaks 0)) := rfl
    rw [hs, h]
    rfl

end MSChromatogram

/-! ## The condition of the in-place branch of `sortByIntensity`, the total intensity of a merge -/

namespace MSChromatogram

/-- With a string array and no other array the descending sort goes through the index list
and moves the entries of the string array along with the peaks, whatever the conforming sort. -/
theorem sortByIntensity_unsortedWithStrings (S : StdSort) :
    sortByIntensity S unsortedWithStrings true = some unsortedWithStringsSwapped := by
  have h : S.sort pairGreater (indexPairs ChromatogramPeak.intensity unsortedWithStrings.peaks 0)
      = [(20, 1), (10, 0)] :=
    S.sort_pair pairGreater strictWeak_pairGreater (10, 0) (20, 1) (by decide)
  have hs : sortByIntensity S unsortedWithStrings true = applySorting unsortedWithStrings
      (S.sort pairGreater (indexPairs ChromatogramPeak.intensity unsortedWithStrings.peaks 0)) :=
    rfl
  rw [hs, h]
  rfl

/-- C21, as stated, fails: `unsortedWithStrings` has no float array, one string array and no
integer array, yet `sortByIntensity` does not leave the string array as it was: the condition of the
in-place branch asks for a non-empty string set and a non-empty integer set, so the call goes
through the index list and swaps the entries of the string array along with the peaks. -/
theorem sortByIntensity_fast_path_counterexample :
    unsortedWithStrings.float_data_arrays = [] ∧
    unsortedWithStrings.string_data_arrays ≠ [] ∧
    unsortedWithStrings.integer_data_arrays = [] ∧
    sortByIntensity insertionStdSort unsortedWithStrings true
      = some unsortedWithStringsSwapped ∧
    unsortedWithStringsSwapped.string_data_arrays ≠ unsortedWithStrings.string_data_arrays := by
  refine ⟨rfl, by decide, rfl, by decide, by decide⟩

/-- C21, amended: whenever the float set is empty and the string set or the integer set is
empty (in particular when exactly one of the two is non-empty), `sortByIntensity` takes the
index-based branch: its result is that of rebuilding the peaks and all arrays from the sorted
index list, and with aligned arrays it completes and moves every array entry along with its
peak. -/
theorem sortByIntensity_index_path (S : StdSort) (c : MSChromatogram) (reverse : Bool)
    (hf : c.float_data_arrays = [])
    (h : c.string_data_arrays = [] ∨ c.integer_data_arrays = []) :
    sortByIntensity S c reverse
      = applySorting c (S.sort (if reverse then pairGreater else pairLess)
          (indexPairs ChromatogramPeak.intensity c.peaks 0)) ∧
    (ArraysAligned c →
      ∃ c', sortByIntensity S c reverse = some c' ∧ KeepsCorrespondence c c') := by
  have hgate : (c.float_data_arrays.isEmpty && !c.string_data_arrays.isEmpty
      && !c.integer_data_arrays.isEmpty) = false := by
    rcases h with h | h <;> simp [hf, h]
  refine ⟨?_, fun ha => sortByIntensity_keepsCorrespondence S c reverse hgate ha⟩
  unfold sortByIntensity
  rw [hgate]
  cases reverse <;> simp

/-- Witness for C21 as amended: `unsortedWithStrings` sorted by descending intensity. -/
theorem sortByIntensity_index_path_witness :
    unsortedWithStrings.float_data_arrays = [] ∧
    unsortedWithStrings.integer_data_arrays = [] ∧
    ArraysAligned unsortedWithStrings ∧
    sortByIntensity insertionStdSort unsortedWithStrings true
      = some unsortedWithStringsSwapped ∧
    ∃ c', sortByIntensity insertionStdSort unsortedWithStrings true = some c' ∧
      KeepsCorrespondence unsortedWithStrings c' :=
  ⟨rfl, rfl, by simp [ArraysAligned, unsortedWithStrings], by decide,
    (sortByIntensity_index_path insertionStdSort unsortedWithStrings true rfl (Or.inr rfl)).2
      (by simp [ArraysAligned, unsortedWithStrings])⟩

/-- C22: with exact addition, the intensities of the peaks after `mergePeaks` sum to the sum
over the peaks before plus the sum over the peaks of `other`, for all inputs, sorted or not,
the same object or not; merging with an `other` without peaks leaves the peaks as they were. -/
theorem mergePeaks_conserves_intensity :
    (∀ (self : MSChromatogram) (other : OtherRef) (add_meta : Bool),
      totalIntensity (mergePeaks self other add_meta).1.peaks
        = totalIntensity self.peaks + totalIntensity (other.deref self).peaks) ∧
    (∀ (self : MSChromatogram) (other : OtherRef) (add_meta : Bool),
      (other.deref self).peaks = [] →
      (mergePeaks self other add_meta).1.peaks = self.peaks) := by
  constructor
  · intro self other add_meta
    rw [mergePeaks_peaks]
    exact totalIntensity_setSumSimilarUnion _ _
  · intro self other add_meta h
    rw [mergePeaks_peaks, h]
    exact setSumSimilarUnion_nil_right _

/-- Witness for C22: merging with a chromatogram without peaks, and the total 3 + 5 + 1 of the
merge of the peak at 1.0004 with the peaks at 1.0001 and 1.0002. -/
theorem mergePeaks_conserves_intensity_witness :
    noPeaks.peaks = [] ∧
    (mergePeaks closePair (.distinctObject noPeaks) true).1.peaks = closePair.peaks ∧
    totalIntensity (mergePeaks peakAt10004 (.distinctObject closePair) false).1.peaks
      = totalIntensity peakAt10004.peaks + totalIntensity closePair.peaks ∧
    totalIntensity peakAt10004.peaks + totalIntensity closePair.peaks = 9 :=
  ⟨rfl, mergePeaks_conserves_intensity.2 closePair (.distinctObject noPeaks) true rfl,
    mergePeaks_conserves_intensity.1 peakAt10004 (.distinctObject closePair) false,
    by norm_num [totalIntensity, peakAt10004, closePair]⟩

end MSChromatogram

end OpenMS
